import Mathlib

/-!
Verification development for the jetty inclusive jet clustering library.

The source is modelled shallowly:

* The scalar type `N64` of the `noisy_float` crate (an `f64` that forbids
  NaN but allows the infinities, with a total order) is modelled by `Jetty.NF`:
  a rational number or one of the two infinities.  Arithmetic on `NF` follows
  the IEEE-754 rules for the special values; rounding of finite values is
  idealised (exact rational arithmetic).  Operations whose IEEE result would
  be NaN (which `N64` forbids and rejects under debug assertions) return the
  unused placeholder `NF.nanJunk`; no theorem below depends on its value.
* Transcendental functions (`atan2`, `ln`) have no exact rational counterpart;
  they are passed as explicit parameters (`Jetty.CacheFns`), so every theorem
  is parametric in them, and concrete evaluations instantiate them only at
  points where the IEEE value is exact (`ln 1 = 0`, `ln 0 = -inf`,
  `ln (+inf) = +inf`).
* Rust panics (failed `assert!`, out-of-range indexing, `Option::unwrap` on
  `None`) are modelled by `Option`/explicit result constructors.
-/

set_option maxHeartbeats 1000000

namespace Jetty

/-- Model of the `noisy_float` scalar `N64`: a double that cannot be NaN.
`num q` is a finite value (idealised as a rational), `pinf`/`minf` are the
IEEE infinities, which `N64` permits. -/
inductive NF : Type where
  | minf : NF
  | num (q : ℚ) : NF
  | pinf : NF
deriving DecidableEq

namespace NF

/-- Order embedding of `NF` into `WithBot (WithTop ℚ)`, used to inherit the
total order of IEEE comparisons on non-NaN doubles. -/
def toOrd : NF → WithBot (WithTop ℚ)
  | minf => ⊥
  | num q => ((q : WithTop ℚ) : WithBot (WithTop ℚ))
  | pinf => ((⊤ : WithTop ℚ) : WithBot (WithTop ℚ))

theorem toOrd_injective : Function.Injective toOrd := by
  intro x y h
  cases x <;> cases y <;> simp [toOrd] at h <;> simp [h]

instance : LinearOrder NF := LinearOrder.lift' toOrd toOrd_injective

theorem lt_def {x y : NF} : x < y ↔ toOrd x < toOrd y := Iff.rfl

theorem le_def {x y : NF} : x ≤ y ↔ toOrd x ≤ toOrd y := Iff.rfl

@[simp] theorem num_lt_num {a b : ℚ} : num a < num b ↔ a < b := by
  rw [lt_def]; simp [toOrd]

@[simp] theorem num_le_num {a b : ℚ} : num a ≤ num b ↔ a ≤ b := by
  rw [le_def]; simp [toOrd]

@[simp] theorem num_lt_pinf {a : ℚ} : num a < pinf := by
  rw [lt_def]; simp [toOrd]; exact WithBot.coe_lt_coe.mpr (WithTop.coe_lt_top a)

@[simp] theorem minf_lt_num {a : ℚ} : minf < num a := by
  rw [lt_def]; simp [toOrd]

@[simp] theorem minf_lt_pinf : minf < pinf := by
  rw [lt_def]; simp [toOrd]

@[simp] theorem not_pinf_lt {x : NF} : ¬ pinf < x := by
  rw [lt_def]; cases x <;> simp [toOrd]

@[simp] theorem not_lt_minf {x : NF} : ¬ x < minf := by
  rw [lt_def]; cases x <;> simp [toOrd]

/-- Placeholder for results whose IEEE value would be NaN.  `N64` forbids NaN
(the operation panics under debug assertions); no theorem depends on this
value and no evaluation below reaches it. -/
def nanJunk : NF := num 0

/-- IEEE addition on non-NaN doubles (finite part idealised as exact). -/
def add : NF → NF → NF
  | num a, num b => num (a + b)
  | num _, pinf => pinf
  | num _, minf => minf
  | pinf, num _ => pinf
  | minf, num _ => minf
  | pinf, pinf => pinf
  | minf, minf => minf
  | pinf, minf => nanJunk
  | minf, pinf => nanJunk

/-- IEEE negation. -/
def neg : NF → NF
  | num a => num (-a)
  | pinf => minf
  | minf => pinf

/-- IEEE subtraction: `x - y = x + (-y)` holds exactly for doubles. -/
def sub (x y : NF) : NF := x.add y.neg

/-- IEEE multiplication on non-NaN doubles (finite part idealised). -/
def mul : NF → NF → NF
  | num a, num b => num (a * b)
  | num a, pinf => if 0 < a then pinf else if a < 0 then minf else nanJunk
  | num a, minf => if 0 < a then minf else if a < 0 then pinf else nanJunk
  | pinf, num b => if 0 < b then pinf else if b < 0 then minf else nanJunk
  | minf, num b => if 0 < b then minf else if b < 0 then pinf else nanJunk
  | pinf, pinf => pinf
  | minf, minf => pinf
  | pinf, minf => minf
  | minf, pinf => minf

/-- IEEE division on non-NaN doubles.  The model has a single zero (`num 0`),
which behaves as IEEE `+0.0`; hence `a / 0 = +inf` for `a > 0` and
`(+inf) / 0 = +inf`. -/
def div : NF → NF → NF
  | num a, num b =>
      if b = 0 then (if 0 < a then pinf else if a < 0 then minf else nanJunk)
      else num (a / b)
  | num _, pinf => num 0
  | num _, minf => num 0
  | pinf, num b => if 0 ≤ b then pinf else minf
  | minf, num b => if 0 ≤ b then minf else pinf
  | pinf, pinf => nanJunk
  | pinf, minf => nanJunk
  | minf, pinf => nanJunk
  | minf, minf => nanJunk

/-- IEEE absolute value. -/
def nfAbs : NF → NF
  | num a => num |a|
  | pinf => pinf
  | minf => pinf

/-- Finiteness predicate: the value is an actual number, not an infinity. -/
def isNum : NF → Prop
  | num _ => True
  | _ => False

instance : DecidablePred isNum := by
  intro x; cases x <;> simp [isNum] <;> infer_instance

end NF

/-- The exact rational value of the `f64` constant `std::f64::consts::PI`. -/
def piF : ℚ := 884279719003555 / 281474976710656

/-- The exact rational value of `f64::MAX`, the value of
`<N64 as num_traits::Float>::max_value()` used as a sentinel by the
geometric engines.  The literal is `(2^53 - 1) * 2^971`, written out in
decimal so that it evaluates without unary-exponentiation recursion. -/
def f64MAX : ℚ := 179769313486231570814527423731704356798070567525844996598917476803157260780028538760589558632766878171540458953514382464234321326889464182768467546703537516986049910576551282076245490090389328944075868508455133942304583236903222948165808559332123348274797826204144723168738177180919299881250404026184124858368

/-- `usize::MAX`, the sentinel for "no nearest neighbour". -/
def usizeMAX : ℕ := 2 ^ 64 - 1

/-- The constant `PI` as a scalar. -/
def PI : NF := NF.num piF

/-- The transcendental `f64` intrinsics used by the cache-refresh routine.
They are parameters of the embedding; theorems quantify over them, and
hypotheses pin down only the exactly-representable values actually needed. -/
structure CacheFns where
  atan2 : NF → NF → NF
  ln : NF → NF

/-- Model of `PseudoJet` (src/src/pseudojet.rs): the four momentum components
`comp = [e, px, py, pz]` plus the three cached scalars. -/
structure PseudoJet where
  e : NF
  px : NF
  py : NF
  pz : NF
  inv_pt2 : NF
  phi : NF
  rap : NF
deriving DecidableEq

namespace PseudoJet

/-- `impl Default for PseudoJet`: vanishing momentum, `inv_pt2 = f64::INFINITY`. -/
def defaultPJ : PseudoJet :=
  { e := NF.num 0, px := NF.num 0, py := NF.num 0, pz := NF.num 0
    inv_pt2 := NF.pinf, phi := NF.num 0, rap := NF.num 0 }

/-- `PseudoJet::init_pt2_phi_rap`: recompute the cached scalars from the
four components (translation of src/src/pseudojet.rs lines 120-143). -/
def init_pt2_phi_rap (fns : CacheFns) (p : PseudoJet) : PseudoJet :=
  let e := p.e
  let px := p.px
  let py := p.py
  let pz := p.pz
  let pt2 := (px.mul px).add (py.mul py)
  let inv_pt2 := (NF.num 1).div pt2
  let phi0 := if NF.num 0 < pt2 then fns.atan2 py px else NF.num 0
  let phi1 := if phi0 < NF.num 0 then phi0.add ((NF.num 2).mul PI) else phi0
  let phi2 := if (NF.num 2).mul PI < phi1 then phi1.sub ((NF.num 2).mul PI) else phi1
  let rap := if e = NF.num 0 ∧ pz = NF.num 0 then NF.num 0
             else (fns.ln ((e.add pz).div (e.sub pz))).div (NF.num 2)
  { p with inv_pt2 := inv_pt2, phi := phi2, rap := rap }

/-- `impl From<[N64; D]> for PseudoJet`: start from the default, set the
components, refresh the caches. -/
def fromComp (fns : CacheFns) (e px py pz : NF) : PseudoJet :=
  init_pt2_phi_rap fns { defaultPJ with e := e, px := px, py := py, pz := pz }

/-- `pub fn pseudojet(e, px, py, pz)`. -/
def pseudojet (fns : CacheFns) (e px py pz : NF) : PseudoJet :=
  fromComp fns e px py pz

/-- `impl AddAssign for PseudoJet`: componentwise addition, then cache refresh. -/
def add_assign (fns : CacheFns) (p q : PseudoJet) : PseudoJet :=
  init_pt2_phi_rap fns
    { p with
      e := p.e.add q.e
      px := p.px.add q.px
      py := p.py.add q.py
      pz := p.pz.add q.pz }

/-- `impl SubAssign for PseudoJet`: componentwise subtraction, then cache refresh. -/
def sub_assign (fns : CacheFns) (p q : PseudoJet) : PseudoJet :=
  init_pt2_phi_rap fns
    { p with
      e := p.e.sub q.e
      px := p.px.sub q.px
      py := p.py.sub q.py
      pz := p.pz.sub q.pz }

/-- `PseudoJet::pt2`: `n64(1.) / self.inv_pt2`. -/
def pt2 (p : PseudoJet) : NF := (NF.num 1).div p.inv_pt2

/-- `PseudoJet::delta_phi`: difference of azimuths normalised to `(-pi, pi]`. -/
def delta_phi (p q : PseudoJet) : NF :=
  let dphi := p.phi.sub q.phi
  if PI < dphi then dphi.sub ((NF.num 2).mul PI)
  else if dphi ≤ PI.neg then dphi.add ((NF.num 2).mul PI)
  else dphi

/-- `PseudoJet::delta_phi_abs`: absolute azimuth difference normalised to `[0, pi]`. -/
def delta_phi_abs (p q : PseudoJet) : NF :=
  let ad := (p.phi.sub q.phi).nfAbs
  if PI < ad then ((NF.num 2).mul PI).sub ad else ad

/-- `PseudoJet::delta_phi2`. -/
def delta_phi2 (p q : PseudoJet) : NF :=
  let d := delta_phi_abs p q
  d.mul d

/-- `PseudoJet::delta_rap`. -/
def delta_rap (p q : PseudoJet) : NF := p.rap.sub q.rap

/-- `PseudoJet::delta_rap2`. -/
def delta_rap2 (p q : PseudoJet) : NF :=
  let d := delta_rap p q
  d.mul d

/-- `PseudoJet::delta_r2 = delta_phi2 + delta_rap2`. -/
def delta_r2 (p q : PseudoJet) : NF := (delta_phi2 p q).add (delta_rap2 p q)

end PseudoJet

/-- The `Distance` trait: a pair distance and a beam distance. -/
structure Distance where
  distance : PseudoJet → PseudoJet → NF
  beam_distance : PseudoJet → NF

/-- `anti_kt(r)`: the anti-kt measure with `r2 = r * r` stored pre-squared. -/
def anti_kt (r : NF) : Distance :=
  { distance := fun p1 p2 =>
      ((min p1.inv_pt2 p2.inv_pt2).mul (p1.delta_r2 p2)).div (r.mul r)
    beam_distance := fun p1 => p1.inv_pt2 }

/-- `kt(r)`: the kt measure. -/
def kt (r : NF) : Distance :=
  { distance := fun p1 p2 =>
      ((min p1.pt2 p2.pt2).mul (p1.delta_r2 p2)).div (r.mul r)
    beam_distance := fun p1 => p1.pt2 }

/-- `cambridge_aachen(r)`: the Cambridge/Aachen measure. -/
def cambridge_aachen (r : NF) : Distance :=
  { distance := fun p1 p2 => (p1.delta_r2 p2).div (r.mul r)
    beam_distance := fun _ => NF.num 1 }

/-- `ClusterStep` (src/src/cluster/mod.rs): result of one clustering step. -/
inductive ClusterStep : Type where
  | combine (p1 p2 : PseudoJet) : ClusterStep
  | jet (p : PseudoJet) : ClusterStep
deriving DecidableEq

/-- `impl PartialEq for ClusterStep`: `Combine` compares its two operand slots
order-insensitively, `Jet` structurally. -/
def ClusterStep.stepEq : ClusterStep → ClusterStep → Prop
  | .combine l0 l1, .combine r0 r1 => (l0 = r0 ∧ l1 = r1) ∨ (l0 = r1 ∧ l1 = r0)
  | .jet l, .jet r => l = r
  | _, _ => False

instance : DecidableRel ClusterStep.stepEq := by
  intro a b
  cases a <;> cases b <;> simp only [ClusterStep.stepEq] <;> infer_instance

/-- Result of advancing an engine one step.  `crash` models a Rust panic
(failed `assert!`, out-of-range index, `Option::unwrap` on `None`). -/
inductive StepRes (σ : Type) : Type where
  | done : StepRes σ
  | crash : StepRes σ
  | step (s : ClusterStep) (st : σ) : StepRes σ
deriving DecidableEq

/-- `Vec::swap_remove(i)`: remove index `i` by moving the last element into
its place; `none` models the panic when `i` is out of range. -/
def swapRemove {α : Type} (l : List α) (i : ℕ) : Option (α × List α) :=
  if h : i < l.length then
    match l.getLast? with
    | some lastElem => some (l.get ⟨i, h⟩, (l.set i lastElem).dropLast)
    | none => none
  else none

/-! ### The naive engine (src/src/cluster/naive.rs) -/

/-- State of `ClusterNaive`: active pseudojets plus the flat vector of
triples `(d, i, j)` (`i = j` marks a beam distance). -/
structure ClusterNaive where
  pseudojets : List PseudoJet
  distance : Distance
  distances : List (NF × ℕ × ℕ)

/-- Total indexing used where the index is statically in range. -/
def nthPJ (ps : List PseudoJet) (i : ℕ) : PseudoJet := ps.getD i PseudoJet.defaultPJ

/-- `calc_distances`: all pair distances (`i < j`) and beam distances (`i = i`). -/
def calc_distances (ps : List PseudoJet) (d : Distance) : List (NF × ℕ × ℕ) :=
  (List.range ps.length).flatMap fun i =>
    ((((List.range ps.length).drop (i + 1)).map fun j =>
      (d.distance (nthPJ ps i) (nthPJ ps j), i, j))
      ++ [(d.beam_distance (nthPJ ps i), i, i)])

/-- `ClusterNaive::new`. -/
def ClusterNaive.new (partons : List PseudoJet) (d : Distance) : ClusterNaive :=
  { pseudojets := partons, distance := d, distances := calc_distances partons d }

/-- Strict lexicographic order on the distance triples, matching the derived
`Ord` on Rust tuples `(N64, usize, usize)`. -/
def tripLt (a b : NF × ℕ × ℕ) : Prop :=
  a.1 < b.1 ∨ (a.1 = b.1 ∧ (a.2.1 < b.2.1 ∨ (a.2.1 = b.2.1 ∧ a.2.2 < b.2.2)))

instance : DecidableRel tripLt := by
  intro a b; unfold tripLt; infer_instance

/-- `Iterator::min` on the triples: the first minimal element. -/
def tripMin? : List (NF × ℕ × ℕ) → Option (NF × ℕ × ℕ)
  | [] => none
  | t :: ts => some (ts.foldl (fun acc x => if tripLt x acc then x else acc) t)

/-- The `retain`-then-rename step shared by `extract_as_jet` and `combine`:
drop every triple mentioning the removed index `rem`, then rewrite the old
last index `newlen` (the new length after the swap-removal) to `rem`. -/
def renameDs (ds : List (NF × ℕ × ℕ)) (rem newlen : ℕ) : List (NF × ℕ × ℕ) :=
  (ds.filter fun t => t.2.1 != rem && t.2.2 != rem).map fun t =>
    let ii := if t.2.1 = newlen then rem else t.2.1
    let jj := if t.2.2 = newlen then rem else t.2.2
    (t.1, ii, jj)

/-- `ClusterNaive::extract_as_jet`. -/
def ClusterNaive.extract_as_jet (st : ClusterNaive) (i : ℕ) :
    Option (PseudoJet × ClusterNaive) :=
  match swapRemove st.pseudojets i with
  | none => none
  | some (jet, ps) =>
    some (jet, { st with pseudojets := ps, distances := renameDs st.distances i ps.length })

/-- The distance-update loop of `ClusterNaive::combine`: every triple that
mentions the merged slot `lo` is recomputed against the current pseudojets
(pair distance when the two indices differ, beam distance otherwise).  The
indices are in range under the engine invariant proved below; Rust indexing
would panic otherwise. -/
def updateDs (d : Distance) (ps : List PseudoJet) (lo : ℕ)
    (ds : List (NF × ℕ × ℕ)) : List (NF × ℕ × ℕ) :=
  ds.map fun t =>
    if t.2.1 = lo ∨ t.2.2 = lo then
      if t.2.1 ≠ t.2.2 then
        (d.distance (nthPJ ps t.2.1) (nthPJ ps t.2.2), t.2.1, t.2.2)
      else (d.beam_distance (nthPJ ps lo), t.2.1, t.2.2)
    else t

/-- `ClusterNaive::combine`: returns the pre-merge operand pair and the new state. -/
def ClusterNaive.combine (fns : CacheFns) (st : ClusterNaive) (i j : ℕ) :
    Option ((PseudoJet × PseudoJet) × ClusterNaive) := do
  let pi ← st.pseudojets.get? i
  let pjj ← st.pseudojets.get? j
  -- let (i, j) = minmax(i, j)
  let lo := Nat.min i j
  let hi := Nat.max i j
  let (p2, ps) ← swapRemove st.pseudojets hi
  let ds := renameDs st.distances hi ps.length
  -- self.pseudojets[i] += p2
  let plo ← ps.get? lo
  let ps := ps.set lo (PseudoJet.add_assign fns plo p2)
  pure ((pi, pjj), { st with pseudojets := ps, distances := updateDs st.distance ps lo ds })

/-- `ClusterNaive`'s `Iterator::next`. -/
def ClusterNaive.next (fns : CacheFns) (st : ClusterNaive) : StepRes ClusterNaive :=
  match tripMin? st.distances with
  | none => .done
  | some (_, i, j) =>
    if i = j then
      match st.extract_as_jet i with
      | none => .crash
      | some (jet, st1) => .step (.jet jet) st1
    else
      match ClusterNaive.combine fns st i j with
      | none => .crash
      | some ((p1, p2), st1) => .step (.combine p1 p2) st1

/-- Run the naive engine with the given fuel.  `none` marks a panic or
insufficient fuel; a completed run returns the emitted step list. -/
def runNaive (fns : CacheFns) : ℕ → ClusterNaive → Option (List ClusterStep)
  | 0, st =>
    match ClusterNaive.next fns st with
    | .done => some []
    | _ => none
  | n + 1, st =>
    match ClusterNaive.next fns st with
    | .done => some []
    | .crash => none
    | .step s st1 => (runNaive fns n st1).map (s :: ·)

/-! ### The geometric engine (src/src/cluster/geom.rs) -/

/-- `PseudoJetWithDist`: engine-internal record of the geometric engines. -/
structure PJD where
  pseudojet : PseudoJet
  beam_dist : NF
  nearest_dist : NF
  nearest_neighbour_idx : ℕ
  nearest_neighbour_for : List ℕ
deriving DecidableEq

/-- The derived `Default` of geom.rs's `PseudoJetWithDist`: all fields zeroed
(in particular `nearest_neighbour_idx = 0`, not the sentinel). -/
def PJD.defaultGeom : PJD :=
  { pseudojet := PseudoJet.defaultPJ, beam_dist := NF.num 0, nearest_dist := NF.num 0
    nearest_neighbour_idx := 0, nearest_neighbour_for := [] }

/-- `PseudoJetWithDist::min_dist`. -/
def PJD.min_dist (p : PJD) : NF := min p.nearest_dist p.beam_dist

/-- `PseudoJetWithDist::delta_r2`. -/
def PJD.delta_r2 (p q : PJD) : NF := p.pseudojet.delta_r2 q.pseudojet

/-- Total indexing into the record vector, used only where the index is in
range (Rust indexing would panic otherwise). -/
def gnthD (v : List PJD) (i : ℕ) : PJD := v.getD i PJD.defaultGeom

/-- State of `ClusterGeom`. -/
structure ClusterGeom where
  pseudojets : List PJD
  distance : Distance

/-- The nearest-neighbour scan of `ClusterGeom::new` for index `i`:
fold over `(0..i).chain(i+1..len)` keeping the first strict improvement over
the `N64::max_value()` sentinel; returns `(gdist, idx)` with `usizeMAX` when
nothing beat the sentinel. -/
def scanNearestInit (v : List PJD) (i : ℕ) : NF × ℕ :=
  (List.range i ++ (List.range v.length).drop (i + 1)).foldl
    (fun best j =>
      if (gnthD v i).delta_r2 (gnthD v j) < best.1
      then ((gnthD v i).delta_r2 (gnthD v j), j) else best)
    (NF.num f64MAX, usizeMAX)

/-- One iteration of the `ClusterGeom::new` loop for index `i`: set the beam
distance, scan for the geometrically nearest neighbour, and register the
back-reference. -/
def geomNewStep (d : Distance) (v : List PJD) (i : ℕ) : List PJD :=
  let vi := gnthD v i
  let v := v.set i { vi with beam_dist := d.beam_distance vi.pseudojet }
  let nearest_idx := (scanNearestInit v i).2
  let vi2 := gnthD v i
  let v := v.set i { vi2 with nearest_neighbour_idx := nearest_idx }
  if nearest_idx < usizeMAX then
    let vi3 := gnthD v i
    let vn := gnthD v nearest_idx
    let v := v.set i { vi3 with nearest_dist := d.distance vi3.pseudojet vn.pseudojet }
    let vn2 := gnthD v nearest_idx
    v.set nearest_idx
      { vn2 with nearest_neighbour_for := vn2.nearest_neighbour_for ++ [i] }
  else
    let vi3 := gnthD v i
    v.set i { vi3 with nearest_dist := NF.num f64MAX }

/-- `ClusterGeom::new`: initialise records, then run the per-index loop. -/
def ClusterGeom.new (partons : List PseudoJet) (d : Distance) : ClusterGeom :=
  let init : List PJD := partons.map fun p => { PJD.defaultGeom with pseudojet := p }
  { pseudojets := (List.range init.length).foldl (geomNewStep d) init, distance := d }

/-- `ClusterGeom::min_idx`: first index minimising `min_dist` (Rust
`min_by` returns the first of equally minimal elements). -/
def ClusterGeom.min_idx (st : ClusterGeom) : Option ℕ :=
  match st.pseudojets.enum with
  | [] => none
  | e :: es =>
    some ((es.foldl (fun acc x => if x.2.min_dist < acc.2.min_dist then x else acc) e).1)

/-- `ClusterGeom::remove_nearest_link`: unlink `pos` from the reverse list of
its current nearest neighbour (a `Vec::swap_remove` on that list). -/
def ClusterGeom.remove_nearest_link (st : ClusterGeom) (pos : ℕ) : Option ClusterGeom :=
  if pos < st.pseudojets.length then do
    let vpos ← st.pseudojets.get? pos
    let nni := vpos.nearest_neighbour_idx
    if nni < st.pseudojets.length then do
      let vn ← st.pseudojets.get? nni
      let idx ← vn.nearest_neighbour_for.findIdx? (· = pos)
      let lst := vn.nearest_neighbour_for
      let lst := (lst.set idx (lst.getLast?.getD 0)).dropLast
      pure { st with pseudojets :=
        st.pseudojets.set nni { vn with nearest_neighbour_for := lst } }
    else pure st
  else none

/-- Set `nearest_neighbour_idx := newval` for every index in `idxs`
(the two renaming loops of `ClusterGeom::swap`). -/
def setNNIs (v : List PJD) (idxs : List ℕ) (newval : ℕ) : Option (List PJD) :=
  idxs.foldlM
    (fun v idx => do
      let r ← v.get? idx
      pure (v.set idx { r with nearest_neighbour_idx := newval }))
    v

/-- Replace the first occurrence of `oldv` in the reverse list of record `m`
by `newv` (the `position().unwrap()` fix-ups of `ClusterGeom::swap`). -/
def replNNFEntry (v : List PJD) (m oldv newv : ℕ) : Option (List PJD) := do
  let r ← v.get? m
  let idx ← r.nearest_neighbour_for.findIdx? (· = oldv)
  pure (v.set m { r with nearest_neighbour_for := r.nearest_neighbour_for.set idx newv })

/-- `ClusterGeom::swap`: exchange records `i` and `j`, renaming the two
indices in all forward pointers and reverse lists that mention them. -/
def ClusterGeom.swap (st : ClusterGeom) (i j : ℕ) : Option ClusterGeom :=
  if i < st.pseudojets.length ∧ j < st.pseudojets.length then
    if i = j then some st
    else do
      let vi ← st.pseudojets.get? i
      let vj ← st.pseudojets.get? j
      let i_is_nearest_for := vi.nearest_neighbour_for
      let nearest_i := vi.nearest_neighbour_idx
      let j_is_nearest_for := vj.nearest_neighbour_for
      let nearest_j := vj.nearest_neighbour_idx
      let v ← setNNIs st.pseudojets i_is_nearest_for j
      let v ← setNNIs v j_is_nearest_for i
      let v ← if nearest_i < v.length then replNNFEntry v nearest_i i j else pure v
      let v ← if nearest_j < v.length then replNNFEntry v nearest_j j i else pure v
      -- self.pseudojets.swap(i, j)
      let a ← v.get? i
      let b ← v.get? j
      pure { st with pseudojets := (v.set i b).set j a }
  else none

/-- The rescan of `ClusterGeom::update_nearest_at_idx`: the first minimiser
of `delta_r2` over all other active records, `usizeMAX` if there are none
(note: no sentinel bound here, unlike `new`). -/
def scanAllOthers (v : List PJD) (pos : ℕ) : ℕ :=
  let others := List.range pos ++ (List.range v.length).drop (pos + 1)
  match others with
  | [] => usizeMAX
  | k :: ks =>
    (ks.foldl
      (fun (acc : NF × ℕ) x =>
        if (gnthD v pos).delta_r2 (gnthD v x) < acc.1
        then ((gnthD v pos).delta_r2 (gnthD v x), x) else acc)
      ((gnthD v pos).delta_r2 (gnthD v k), k)).2

/-- `ClusterGeom::update_nearest_at_idx`. -/
def ClusterGeom.update_nearest_at_idx (st : ClusterGeom) (pos : ℕ) : Option ClusterGeom :=
  if pos < st.pseudojets.length then do
    let st ← st.remove_nearest_link pos
    let nearest_idx := scanAllOthers st.pseudojets pos
    let vpos ← st.pseudojets.get? pos
    let v1 := st.pseudojets.set pos { vpos with nearest_neighbour_idx := nearest_idx }
    let st : ClusterGeom := { st with pseudojets := v1 }
    if nearest_idx < usizeMAX then
      if nearest_idx < st.pseudojets.length then do
        let vn ← st.pseudojets.get? nearest_idx
        let v2 := st.pseudojets.set nearest_idx
          { vn with nearest_neighbour_for := vn.nearest_neighbour_for ++ [pos] }
        let st : ClusterGeom := { st with pseudojets := v2 }
        let vpos2 ← st.pseudojets.get? pos
        let vn2 ← st.pseudojets.get? nearest_idx
        let v3 := st.pseudojets.set pos
          { vpos2 with nearest_dist := st.distance.distance vpos2.pseudojet vn2.pseudojet }
        pure { st with pseudojets := v3 }
      else none
    else do
      let vpos2 ← st.pseudojets.get? pos
      let v2 := st.pseudojets.set pos { vpos2 with nearest_dist := NF.num f64MAX }
      pure { st with pseudojets := v2 }
  else none

/-- `ClusterGeom::update_nearest`. -/
def ClusterGeom.update_nearest (st : ClusterGeom) (pos : List ℕ) : Option ClusterGeom :=
  pos.foldlM (fun st idx => st.update_nearest_at_idx idx) st

/-- `ClusterGeom::remove`: swap to the end, unlink, pop, recompute the
nearest neighbours of everything that pointed at the removed record. -/
def ClusterGeom.remove (st : ClusterGeom) (idx : ℕ) : Option (PJD × ClusterGeom) :=
  if idx < st.pseudojets.length then do
    let st ← st.swap idx (st.pseudojets.length - 1)
    let st ← st.remove_nearest_link (st.pseudojets.length - 1)
    let popped ← st.pseudojets.getLast?
    let st : ClusterGeom := { st with pseudojets := st.pseudojets.dropLast }
    let st ← st.update_nearest popped.nearest_neighbour_for
    pure (popped, st)
  else none

/-- One iteration of the scan loop in `ClusterGeom::push` (loop body over
`n`, with the running nearest distance and index threaded through). -/
def pushStep (len : ℕ) (acc : ClusterGeom × PJD × NF × ℕ) (n : ℕ) :
    Option (ClusterGeom × PJD × NF × ℕ) := do
  let (st, newrec, bestd, besti) := acc
  let vn ← st.pseudojets.get? n
  let d := st.distance.distance newrec.pseudojet vn.pseudojet
  let bestd2 := if d < bestd then d else bestd
  let besti2 := if d < bestd then n else besti
  if d < vn.nearest_dist then do
    let st ← st.remove_nearest_link n
    let vn2 ← st.pseudojets.get? n
    let v1 := st.pseudojets.set n { vn2 with nearest_neighbour_idx := len }
    let st : ClusterGeom := { st with pseudojets := v1 }
    let newrec : PJD :=
      { newrec with nearest_neighbour_for := newrec.nearest_neighbour_for ++ [n] }
    pure (st, newrec, bestd2, besti2)
  else pure (st, newrec, bestd2, besti2)

/-- `ClusterGeom::push`: insert the merged pseudojet, scanning all records to
find its nearest neighbour and to opportunistically re-point records that are
now closer to it than to their previous nearest. -/
def ClusterGeom.push (st : ClusterGeom) (pj : PseudoJet) : Option ClusterGeom := do
  let len := st.pseudojets.length
  let start : PJD :=
    { pseudojet := pj, beam_dist := st.distance.beam_distance pj
      nearest_dist := NF.num f64MAX, nearest_neighbour_idx := 0, nearest_neighbour_for := [] }
  let r ← (List.range len).foldlM (pushStep len) (st, start, NF.num f64MAX, usizeMAX)
  let (st, newrec, _bestd, besti) := r
  let newrec : PJD := { newrec with nearest_neighbour_idx := besti }
  if besti < usizeMAX then
    if besti < st.pseudojets.length then do
      let vb ← st.pseudojets.get? besti
      let v1 := st.pseudojets.set besti
        { vb with nearest_neighbour_for :=
            vb.nearest_neighbour_for ++ [st.pseudojets.length] }
      let st : ClusterGeom := { st with pseudojets := v1 }
      let vb2 ← st.pseudojets.get? besti
      let newrec : PJD :=
        { newrec with nearest_dist := st.distance.distance newrec.pseudojet vb2.pseudojet }
      pure { st with pseudojets := st.pseudojets ++ [newrec] }
    else none
  else pure { st with pseudojets := st.pseudojets ++ [newrec] }

/-- `ClusterGeom`'s `Iterator::next`. -/
def ClusterGeom.next (fns : CacheFns) (st : ClusterGeom) : StepRes ClusterGeom :=
  match st.min_idx with
  | none => .done
  | some i =>
    match st.remove i with
    | none => .crash
    | some (pi, st1) =>
      if pi.beam_dist < pi.nearest_dist then .step (.jet pi.pseudojet) st1
      else
        let j := pi.nearest_neighbour_idx
        match st1.remove j with
        | none => .crash
        | some (pj, st2) =>
          match st2.push (PseudoJet.add_assign fns pi.pseudojet pj.pseudojet) with
          | none => .crash
          | some st3 => .step (.combine pi.pseudojet pj.pseudojet) st3

/-- Run the geometric engine with the given fuel (`none` = panic or
insufficient fuel). -/
def runGeom (fns : CacheFns) : ℕ → ClusterGeom → Option (List ClusterStep)
  | 0, st =>
    match ClusterGeom.next fns st with
    | .done => some []
    | _ => none
  | n + 1, st =>
    match ClusterGeom.next fns st with
    | .done => some []
    | .crash => none
    | .step s st1 => (runGeom fns n st1).map (s :: ·)

/-! ### The tiled geometric engine (src/src/cluster/geom_tile.rs) -/

/-- `MAX_RAP`. -/
def MAX_RAP : ℚ := 5

/-- `N_RAP_BINS`. -/
def N_RAP_BINS : ℕ := 10

/-- `N_PHI_BINS`. -/
def N_PHI_BINS : ℕ := 6

/-- The manual `Default` of geom_tile.rs's `PseudoJetWithDist`: sentinel
distances and `usize::MAX` as nearest index. -/
def PJD.defaultTile : PJD :=
  { pseudojet := PseudoJet.defaultPJ, beam_dist := NF.num f64MAX
    nearest_dist := NF.num f64MAX
    nearest_neighbour_idx := usizeMAX, nearest_neighbour_for := [] }

/-- geom_tile.rs `PseudoJetWithDist::new`. -/
def PJD.newTile (p : PseudoJet) (d : Distance) : PJD :=
  { PJD.defaultTile with beam_dist := d.beam_distance p, pseudojet := p }

/-- State of `ClusterGeomTile`.  The `[[IndexSet<usize>; N_PHI_BINS]; N_RAP_BINS]`
grid is modelled as a function to ordered index lists; only cells with
row `< N_RAP_BINS` and column `< N_PHI_BINS` are ever read or written. -/
structure ClusterGeomTile where
  pseudojets : List PJD
  distance : Distance
  tiles : ℕ → ℕ → List ℕ

/-- `IndexSet::insert`: append if absent (insertion order preserved). -/
def idxInsert (l : List ℕ) (x : ℕ) : List ℕ := if x ∈ l then l else l ++ [x]

/-- `IndexSet::swap_remove`: remove `x` by swapping with the last element;
no-op (returning `false`) when absent. -/
def idxSwapRemove (l : List ℕ) (x : ℕ) : List ℕ :=
  match l.findIdx? (· = x) with
  | none => l
  | some i => (l.set i (l.getLast?.getD 0)).dropLast

/-- Update one tile cell. -/
def updTiles (tiles : ℕ → ℕ → List ℕ) (r c : ℕ) (f : List ℕ → List ℕ) :
    ℕ → ℕ → List ℕ :=
  fun r' c' => if r' = r ∧ c' = c then f (tiles r c) else tiles r' c'

/-- `.floor() as i32` on an `f64`: Rust float-to-int casts saturate. -/
def NF.floorToI32 : NF → Int
  | NF.minf => -(2 ^ 31)
  | NF.pinf => 2 ^ 31 - 1
  | NF.num q => max (-(2 ^ 31)) (min ((2 : Int) ^ 31 - 1) ⌊q⌋)

/-- `ClusterGeomTile::tile_coord`: η bin clamped to `0..N_RAP_BINS-1`, φ bin
`⌊φ · N_PHI_BINS/(2π)⌋`; `none` models the two `assert!`s on the φ bin. -/
def tile_coord (p : PseudoJet) : Option (ℕ × ℕ) :=
  let rap_coord : Int := (p.rap.add (NF.num MAX_RAP)).floorToI32
  let rap_coord : ℕ := (max 0 (min ((N_RAP_BINS : Int) - 1) rap_coord)).toNat
  let phi_coord := p.phi.mul (NF.num ((N_PHI_BINS : ℚ) / (2 * piF)))
  match phi_coord with
  | NF.num q => if 0 ≤ q ∧ q < (N_PHI_BINS : ℚ) then some (rap_coord, ⌊q⌋.toNat) else none
  | _ => none

/-- `ClusterGeomTile::tile_neighbours`: occupants of the 3×3 tile window,
η clamped at the rows, φ wrapping, in the iteration order of
`cartesian_product` and the ordered sets. -/
def ClusterGeomTile.tile_neighbours (st : ClusterGeomTile) (rap_idx phi_idx : ℕ) :
    List ℕ :=
  let rap_idx_range : List ℕ :=
    if rap_idx + 1 = 1 then [0, 1]
    else if rap_idx + 1 = N_RAP_BINS then [N_RAP_BINS - 2, N_RAP_BINS - 1]
    else [rap_idx - 1, rap_idx, rap_idx + 1]
  let phi_idx_range : List ℕ :=
    if phi_idx + 1 = 1 then [N_PHI_BINS - 1, 0, 1]
    else if phi_idx + 1 = N_PHI_BINS then [N_PHI_BINS - 2, N_PHI_BINS - 1, 0]
    else [phi_idx - 1, phi_idx, phi_idx + 1]
  (rap_idx_range.flatMap fun r => phi_idx_range.map fun c => (r, c)).flatMap
    fun rc => st.tiles rc.1 rc.2

/-- One iteration of the `ClusterGeomTile::init_tiles` loop: insert the index
of the enumerated pseudojet into its tile. -/
def initTilesStep (st : ClusterGeomTile) (np : ℕ × PJD) : Option ClusterGeomTile := do
  let (r, c) ← tile_coord np.2.pseudojet
  pure { st with tiles := updTiles st.tiles r c (fun l => idxInsert l np.1) }

/-- `ClusterGeomTile::init_tiles`. -/
def ClusterGeomTile.init_tiles (st : ClusterGeomTile) : Option ClusterGeomTile :=
  st.pseudojets.enum.foldlM initTilesStep st

/-- Strict lexicographic order on `(N64, usize)` pairs (derived tuple `Ord`). -/
def pairLt (a b : NF × ℕ) : Prop := a.1 < b.1 ∨ (a.1 = b.1 ∧ a.2 < b.2)

instance : DecidableRel pairLt := by
  intro a b; unfold pairLt; infer_instance

/-- `Iterator::min` on `(N64, usize)` pairs: the first minimal element. -/
def pairMin? : List (NF × ℕ) → Option (NF × ℕ)
  | [] => none
  | t :: ts => some (ts.foldl (fun acc x => if pairLt x acc then x else acc) t)

/-- One iteration of the `ClusterGeomTile::init_nearest` loop: the
nearest-neighbour scan for index `i`, restricted to the 3×3 tile window
(note: full `.min()` on `(gdist, idx)` pairs, no sentinel bound). -/
def initNearestStep (st : ClusterGeomTile) (i : ℕ) : Option ClusterGeomTile := do
  let (r, c) ← tile_coord (gnthD st.pseudojets i).pseudojet
  let cands := (st.tile_neighbours r c).filter fun j => j != i
  let pairs := cands.map fun j =>
    ((gnthD st.pseudojets i).delta_r2 (gnthD st.pseudojets j), j)
  match pairMin? pairs with
  | none => pure st
  | some (_, nearest_idx) =>
    if nearest_idx < st.pseudojets.length then do
      let vi := gnthD st.pseudojets i
      let v1 := st.pseudojets.set i { vi with nearest_neighbour_idx := nearest_idx }
      let st : ClusterGeomTile := { st with pseudojets := v1 }
      let vi2 := gnthD st.pseudojets i
      let vn := gnthD st.pseudojets nearest_idx
      let v2 := st.pseudojets.set i
        { vi2 with nearest_dist := st.distance.distance vi2.pseudojet vn.pseudojet }
      let st : ClusterGeomTile := { st with pseudojets := v2 }
      let vn2 := gnthD st.pseudojets nearest_idx
      let v3 := st.pseudojets.set nearest_idx
        { vn2 with nearest_neighbour_for := vn2.nearest_neighbour_for ++ [i] }
      pure { st with pseudojets := v3 }
    else none

/-- `ClusterGeomTile::init_nearest`. -/
def ClusterGeomTile.init_nearest (st : ClusterGeomTile) : Option ClusterGeomTile :=
  (List.range st.pseudojets.length).foldlM initNearestStep st

/-- `ClusterGeomTile::new`. -/
def ClusterGeomTile.new (partons : List PseudoJet) (d : Distance) :
    Option ClusterGeomTile := do
  let pseudojets := partons.map fun p => PJD.newTile p d
  let st : ClusterGeomTile :=
    { pseudojets := pseudojets, distance := d, tiles := fun _ _ => [] }
  let st ← st.init_tiles
  st.init_nearest

/-- `ClusterGeomTile::min_idx` (same as the untiled engine). -/
def ClusterGeomTile.min_idx (st : ClusterGeomTile) : Option ℕ :=
  match st.pseudojets.enum with
  | [] => none
  | e :: es =>
    some ((es.foldl (fun acc x => if x.2.min_dist < acc.2.min_dist then x else acc) e).1)

/-- `ClusterGeomTile::remove_nearest_link` (same as the untiled engine). -/
def ClusterGeomTile.remove_nearest_link (st : ClusterGeomTile) (pos : ℕ) :
    Option ClusterGeomTile :=
  if pos < st.pseudojets.length then do
    let vpos ← st.pseudojets.get? pos
    let nni := vpos.nearest_neighbour_idx
    if nni < st.pseudojets.length then do
      let vn ← st.pseudojets.get? nni
      let idx ← vn.nearest_neighbour_for.findIdx? (· = pos)
      let lst := vn.nearest_neighbour_for
      let lst := (lst.set idx (lst.getLast?.getD 0)).dropLast
      pure { st with pseudojets :=
        st.pseudojets.set nni { vn with nearest_neighbour_for := lst } }
    else pure st
  else none

/-- Pointer-renaming loop of the tiled `swap` (same as `setNNIs`). -/
def setNNIsT (v : List PJD) (idxs : List ℕ) (newval : ℕ) : Option (List PJD) :=
  idxs.foldlM
    (fun v idx => do
      let r ← v.get? idx
      pure (v.set idx { r with nearest_neighbour_idx := newval }))
    v

/-- `ClusterGeomTile::swap`: like the untiled swap, but also rewrites the two
indices in their tile cells before swapping the records. -/
def ClusterGeomTile.swap (st : ClusterGeomTile) (i j : ℕ) : Option ClusterGeomTile :=
  if i < st.pseudojets.length ∧ j < st.pseudojets.length then
    if i = j then some st
    else do
      let vi ← st.pseudojets.get? i
      let vj ← st.pseudojets.get? j
      let i_is_nearest_for := vi.nearest_neighbour_for
      let nearest_i := vi.nearest_neighbour_idx
      let (rap_idx_i, phi_idx_i) ← tile_coord vi.pseudojet
      let j_is_nearest_for := vj.nearest_neighbour_for
      let nearest_j := vj.nearest_neighbour_idx
      let (rap_idx_j, phi_idx_j) ← tile_coord vj.pseudojet
      let v ← setNNIsT st.pseudojets i_is_nearest_for j
      let v ← setNNIsT v j_is_nearest_for i
      let v ← if nearest_i < v.length then replNNFEntry v nearest_i i j else pure v
      let v ← if nearest_j < v.length then replNNFEntry v nearest_j j i else pure v
      let tiles := updTiles st.tiles rap_idx_i phi_idx_i (fun l => idxSwapRemove l i)
      let tiles := updTiles tiles rap_idx_i phi_idx_i (fun l => idxInsert l j)
      let tiles := updTiles tiles rap_idx_j phi_idx_j (fun l => idxSwapRemove l j)
      let tiles := updTiles tiles rap_idx_j phi_idx_j (fun l => idxInsert l i)
      let a ← v.get? i
      let b ← v.get? j
      pure { st with pseudojets := (v.set i b).set j a, tiles := tiles }
  else none

/-- `ClusterGeomTile::update_nearest_at_idx`: rescan restricted to the tile
window (`min_by_key` on the geometric distance, first minimal). -/
def ClusterGeomTile.update_nearest_at_idx (st : ClusterGeomTile) (pos : ℕ) :
    Option ClusterGeomTile :=
  if pos < st.pseudojets.length then do
    let st ← st.remove_nearest_link pos
    let (r, c) ← tile_coord (gnthD st.pseudojets pos).pseudojet
    let cands := (st.tile_neighbours r c).filter fun j => j != pos
    let nearest_idx :=
      match cands with
      | [] => usizeMAX
      | k :: ks =>
        let g0 := (gnthD st.pseudojets pos).delta_r2 (gnthD st.pseudojets k)
        (ks.foldl
          (fun (acc : NF × ℕ) x =>
            let gx := (gnthD st.pseudojets pos).delta_r2 (gnthD st.pseudojets x)
            if gx < acc.1 then (gx, x) else acc)
          (g0, k)).2
    let vpos ← st.pseudojets.get? pos
    let v1 := st.pseudojets.set pos { vpos with nearest_neighbour_idx := nearest_idx }
    let st : ClusterGeomTile := { st with pseudojets := v1 }
    if nearest_idx < usizeMAX then
      if nearest_idx < st.pseudojets.length then do
        let vn ← st.pseudojets.get? nearest_idx
        let v2 := st.pseudojets.set nearest_idx
          { vn with nearest_neighbour_for := vn.nearest_neighbour_for ++ [pos] }
        let st : ClusterGeomTile := { st with pseudojets := v2 }
        let vpos2 ← st.pseudojets.get? pos
        let vn2 ← st.pseudojets.get? nearest_idx
        let v3 := st.pseudojets.set pos
          { vpos2 with nearest_dist := st.distance.distance vpos2.pseudojet vn2.pseudojet }
        pure { st with pseudojets := v3 }
      else none
    else do
      let vpos2 ← st.pseudojets.get? pos
      let v2 := st.pseudojets.set pos { vpos2 with nearest_dist := NF.num f64MAX }
      pure { st with pseudojets := v2 }
  else none

/-- `ClusterGeomTile::update_nearest`. -/
def ClusterGeomTile.update_nearest (st : ClusterGeomTile) (pos : List ℕ) :
    Option ClusterGeomTile :=
  pos.foldlM (fun st idx => st.update_nearest_at_idx idx) st

/-- `ClusterGeomTile::remove`: like the untiled remove, additionally dropping
the removed index from its tile before popping. -/
def ClusterGeomTile.remove (st : ClusterGeomTile) (idx : ℕ) :
    Option (PJD × ClusterGeomTile) :=
  if idx < st.pseudojets.length then do
    let st ← st.swap idx (st.pseudojets.length - 1)
    let st ← st.remove_nearest_link (st.pseudojets.length - 1)
    let (r, c) ← tile_coord (gnthD st.pseudojets (st.pseudojets.length - 1)).pseudojet
    let tiles := updTiles st.tiles r c
      (fun l => idxSwapRemove l (st.pseudojets.length - 1))
    let st : ClusterGeomTile := { st with tiles := tiles }
    let popped ← st.pseudojets.getLast?
    let st : ClusterGeomTile := { st with pseudojets := st.pseudojets.dropLast }
    let st ← st.update_nearest popped.nearest_neighbour_for
    pure (popped, st)
  else none

/-- `ClusterGeomTile::push`: tile-windowed variant of the untiled push; the
new index is inserted into its tile just before the vector push. -/
def ClusterGeomTile.push (st : ClusterGeomTile) (pj : PseudoJet) :
    Option ClusterGeomTile := do
  let (r, c) ← tile_coord pj
  let len := st.pseudojets.length
  let start : PJD := PJD.newTile pj st.distance
  let neighbours := st.tile_neighbours r c
  let res ← neighbours.foldlM
    (fun (acc : ClusterGeomTile × PJD × NF × ℕ) n => do
      let (st, newrec, bestd, besti) := acc
      let vn ← st.pseudojets.get? n
      let d := st.distance.distance newrec.pseudojet vn.pseudojet
      let (bestd, besti) := if d < bestd then (d, n) else (bestd, besti)
      if d < vn.nearest_dist then do
        let st ← st.remove_nearest_link n
        let vn2 ← st.pseudojets.get? n
        let v1 := st.pseudojets.set n { vn2 with nearest_neighbour_idx := len }
        let st : ClusterGeomTile := { st with pseudojets := v1 }
        let newrec : PJD :=
          { newrec with nearest_neighbour_for := newrec.nearest_neighbour_for ++ [n] }
        pure (st, newrec, bestd, besti)
      else pure (st, newrec, bestd, besti))
    (st, start, NF.num f64MAX, usizeMAX)
  let (st, newrec, _bestd, besti) := res
  let newrec : PJD := { newrec with nearest_neighbour_idx := besti }
  if besti < usizeMAX then
    if besti < st.pseudojets.length then do
      let vb ← st.pseudojets.get? besti
      let v1 := st.pseudojets.set besti
        { vb with nearest_neighbour_for :=
            vb.nearest_neighbour_for ++ [st.pseudojets.length] }
      let st : ClusterGeomTile := { st with pseudojets := v1 }
      let vb2 ← st.pseudojets.get? besti
      let newrec : PJD :=
        { newrec with nearest_dist := st.distance.distance newrec.pseudojet vb2.pseudojet }
      let tiles := updTiles st.tiles r c (fun l => idxInsert l st.pseudojets.length)
      pure { st with pseudojets := st.pseudojets ++ [newrec], tiles := tiles }
    else none
  else
    let tiles := updTiles st.tiles r c (fun l => idxInsert l st.pseudojets.length)
    pure { st with pseudojets := st.pseudojets ++ [newrec], tiles := tiles }

/-- `ClusterGeomTile`'s `Iterator::next`. -/
def ClusterGeomTile.next (fns : CacheFns) (st : ClusterGeomTile) :
    StepRes ClusterGeomTile :=
  match st.min_idx with
  | none => .done
  | some i =>
    match st.remove i with
    | none => .crash
    | some (pi, st1) =>
      if pi.beam_dist < pi.nearest_dist then .step (.jet pi.pseudojet) st1
      else
        let j := pi.nearest_neighbour_idx
        match st1.remove j with
        | none => .crash
        | some (pj, st2) =>
          match st2.push (PseudoJet.add_assign fns pi.pseudojet pj.pseudojet) with
          | none => .crash
          | some st3 => .step (.combine pi.pseudojet pj.pseudojet) st3

/-! ### The dispatch facade (src/src/cluster/mod.rs) -/

/-- `ClusterHistory::START_GEOM_THRESHOLD`. -/
def START_GEOM_THRESHOLD : ℕ := 25

/-- `ClusterHistory::END_GEOM_THRESHOLD`. -/
def END_GEOM_THRESHOLD : ℕ := 49

/-- `ClusterHistory::START_TILE_THRESHOLD`. -/
def START_TILE_THRESHOLD : ℕ := END_GEOM_THRESHOLD + 1

/-- The boxed engine held by `ClusterHistory`, as a sum over the three
engine states. -/
inductive ClusterHistory : Type where
  | naiveH (c : ClusterNaive) : ClusterHistory
  | geomH (c : ClusterGeom) : ClusterHistory
  | tileH (c : ClusterGeomTile) : ClusterHistory

/-- `ClusterHistory::new`: size-based engine selection (the `Option` threads
the asserts of the tiled constructor). -/
def ClusterHistory.new (partons : List PseudoJet) (d : Distance) :
    Option ClusterHistory :=
  if START_TILE_THRESHOLD ≤ partons.length then
    (ClusterGeomTile.new partons d).map ClusterHistory.tileH
  else if START_GEOM_THRESHOLD ≤ partons.length ∧ partons.length ≤ END_GEOM_THRESHOLD then
    some (ClusterHistory.geomH (ClusterGeom.new partons d))
  else some (ClusterHistory.naiveH (ClusterNaive.new partons d))

/-! ### Raw construction (`pseudojet_f`, src/src/pseudojet.rs lines 192-195) -/

/-- A raw `f64` before `noisy_float` validation: NaN or a non-NaN double. -/
inductive F : Type where
  | nan : F
  | val (x : NF) : F
deriving DecidableEq

/-- The construction failure for a NaN momentum component. -/
inductive JetError : Type where
  | InvalidMomentum : JetError
deriving DecidableEq

/-- Modelled from the spec: the `n64` constructor of the external
`noisy_float` crate.  The crate is not part of this repository; per the
specification a pseudojet construction "fails with InvalidMomentum if any
component is NaN", i.e. `n64` rejects NaN and accepts every other double. -/
def n64 (x : F) : Except JetError NF :=
  match x with
  | F.nan => Except.error JetError.InvalidMomentum
  | F.val v => Except.ok v

/-- `pub fn pseudojet_f(e, px, py, pz)`: validate the four raw doubles with
`n64` (in order), then build the pseudojet from the components. -/
def pseudojet_f (fns : CacheFns) (e px py pz : F) : Except JetError PseudoJet := do
  let e ← n64 e
  let px ← n64 px
  let py ← n64 py
  let pz ← n64 pz
  pure (PseudoJet.pseudojet fns e px py pz)

/-! ### Concrete instantiations used by the evaluations

The transcendental parameters are instantiated by stubs that agree with the
`f64` intrinsics at every point where they are actually applied below; all
of those values are exact in IEEE-754 (`ln 0 = -inf`, `ln (+inf) = +inf`,
`ln 1 = 0`, `atan2(0, x) = 0` for `x > 0`, and `atan2` unused when
`pt2 = 0`). -/

/-- Stub for `f64::ln`, exact at the points used: `ln 0 = -inf`,
`ln (+inf) = +inf`, `ln 1 = 0`; all other inputs are unused junk. -/
def lnStub : NF → NF :=
  fun x =>
    match x with
    | NF.pinf => NF.pinf
    | NF.minf => NF.num 0
    | NF.num q => if q = 0 then NF.minf else NF.num 0

/-- Concrete cache functions for evaluations. -/
def stubFns : CacheFns := { atan2 := fun _ _ => NF.num 0, ln := lnStub }

/-- The exact rational value of the `f64` literal `0.4` (used by
`anti_kt_f(0.4)` in the failing inputs). -/
def r04 : NF := NF.num (3602879701896397 / 9007199254740992)

/-- `pseudojet_f(1., 0., 0., 1.)`: a massless beam-axis particle.
Its caches are `inv_pt2 = +inf`, `phi = 0`, `rap = +inf`. -/
def beamJet1 : PseudoJet :=
  PseudoJet.fromComp stubFns (NF.num 1) (NF.num 0) (NF.num 0) (NF.num 1)

/-- `pseudojet_f(1., 0., 0., -1.)`: the opposite beam-axis particle, with
`inv_pt2 = +inf`, `phi = 0`, `rap = -inf`. -/
def beamJet2 : PseudoJet :=
  PseudoJet.fromComp stubFns (NF.num 1) (NF.num 0) (NF.num 0) (NF.num (-1))

/-- `phi` cache is normalised to `[0, 2*pi)`. -/
def phiNormalized (p : PseudoJet) : Prop :=
  NF.num 0 ≤ p.phi ∧ p.phi < NF.num (2 * piF)

/-- All four momentum components are finite (no infinities). -/
def finiteComps (p : PseudoJet) : Prop :=
  p.e.isNum ∧ p.px.isNum ∧ p.py.isNum ∧ p.pz.isNum

instance : DecidablePred finiteComps := fun p => by
  unfold finiteComps
  infer_instance

/-- The rational value of a finite scalar (junk `0` at the infinities). -/
def qval : NF → ℚ
  | NF.num q => q
  | _ => 0

/-- Componentwise sum of a pseudojet list under a projection, folded with
the model's IEEE addition (the float sum). -/
def compSum (f : PseudoJet → NF) (ps : List PseudoJet) : NF :=
  (ps.map f).foldr NF.add (NF.num 0)

/-- The pseudojets of the emitted `Jet` steps. -/
def jetsOf (steps : List ClusterStep) : List PseudoJet :=
  steps.filterMap fun s =>
    match s with
    | ClusterStep.jet p => some p
    | ClusterStep.combine _ _ => none

/-- The contribution of one step to a rational-valued jet sum. -/
def jetCompQ (g : PseudoJet → ℚ) : ClusterStep → ℚ
  | ClusterStep.jet p => g p
  | ClusterStep.combine _ _ => 0

/-- Invariant of the naive engine: every distance triple mentions only
active indices, and every active index has a beam entry. -/
def naiveInv (st : ClusterNaive) : Prop :=
  (∀ t ∈ st.distances, t.2.1 < st.pseudojets.length ∧ t.2.2 < st.pseudojets.length) ∧
  (∀ k, k < st.pseudojets.length → ∃ dv, (dv, k, k) ∈ st.distances)

/-- The cached scalars equal the stated functions of the four components
(the consistency property of claim C7, for finite components `a b c d`). -/
def cachesConsistent (fns : CacheFns) (p : PseudoJet) (a b c d : ℚ) : Prop :=
  (b * b + c * c ≠ 0 → p.inv_pt2 = NF.num (1 / (b * b + c * c))) ∧
  (b * b + c * c = 0 → p.inv_pt2 = NF.pinf ∧ p.phi = NF.num 0) ∧
  (a = 0 ∧ d = 0 → p.rap = NF.num 0) ∧
  (¬(a = 0 ∧ d = 0) →
    p.rap = (fns.ln ((NF.num (a + d)).div (NF.num (a - d)))).div (NF.num 2))

/-- The tile-grid partition invariant claimed for the tiled engine: every
tile member is an active index, and every active index occurs in exactly one
tile cell, namely the one given by `tile_coord` of its pseudojet. -/
def tilePartition (st : ClusterGeomTile) : Prop :=
  (∀ r, r < N_RAP_BINS → ∀ c, c < N_PHI_BINS →
    ∀ x ∈ st.tiles r c, x < st.pseudojets.length) ∧
  (∀ i, i < st.pseudojets.length →
    (tile_coord (gnthD st.pseudojets i).pseudojet).isSome ∧
    ∀ r, r < N_RAP_BINS → ∀ c, c < N_PHI_BINS →
      (st.tiles r c).count i =
        if (tile_coord (gnthD st.pseudojets i).pseudojet).getD (0, 0) = (r, c)
        then 1 else 0)

instance (st : ClusterGeomTile) : Decidable (tilePartition st) := by
  unfold tilePartition
  infer_instance

instance (o : Option ClusterGeomTile) (P : ClusterGeomTile → Prop)
    [inst : ∀ st, Decidable (P st)] : Decidable (o.elim False P) := by
  cases o with
  | none => exact isFalse (by simp [Option.elim])
  | some st =>
    dsimp [Option.elim]
    infer_instance

/-- A central parton, `pseudojet_f(1., 1., 0., 0.)`: caches `inv_pt2 = 1`,
`phi = 0`, `rap = 0`, so its tile is `(5, 0)`. -/
def jetA9 : PseudoJet :=
  PseudoJet.fromComp stubFns (NF.num 1) (NF.num 1) (NF.num 0) (NF.num 0)

/-- A trivial distance measure (the tile-partition claim quantifies over
every distance measure). -/
def zeroDist : Distance :=
  { distance := fun _ _ => NF.num 0, beam_distance := fun _ => NF.num 0 }

/-- The pseudojet records `v'` are those of `v` up to engine-internal cache
fields: same length, same `pseudojet` four-momenta slotwise. -/
def pjKeep (v v' : List PJD) : Prop :=
  v'.length = v.length ∧ ∀ k, (gnthD v' k).pseudojet = (gnthD v k).pseudojet

/-- The reverse-adjacency list of record `k` (`nearest_neighbour_for`). -/
def nnfOf (v : List PJD) (k : ℕ) : List ℕ := (gnthD v k).nearest_neighbour_for

/-- The forward nearest pointer of record `k` (`nearest_neighbour_idx`). -/
def nniOf (v : List PJD) (k : ℕ) : ℕ := (gnthD v k).nearest_neighbour_idx

/-- The reverse-adjacency invariant of the geometric engine (claim C8):
for active `i`, `j`, index `j` occurs in `nearest_neighbour_for(i)` exactly
once when `nearest_neighbour_idx(j) = i` and not at all otherwise; reverse
lists mention only active indices; forward pointers are active or the
`usize::MAX` sentinel, and never self-referential.  (`v.length < usizeMAX`
mirrors the Rust bound on vector lengths, which keeps the sentinel distinct
from every slot.) -/
def geomInv (v : List PJD) : Prop :=
  v.length < usizeMAX ∧
  (∀ i, i < v.length → ∀ j, j < v.length →
    (nnfOf v i).count j = if nniOf v j = i then 1 else 0) ∧
  (∀ i, i < v.length → ∀ x ∈ nnfOf v i, x < v.length) ∧
  (∀ j, j < v.length → nniOf v j < v.length ∨ nniOf v j = usizeMAX) ∧
  (∀ j, j < v.length → nniOf v j ≠ j)

/-- The sentinel-free part of `geomInv`: during `remove`, records re-homed
by `update_nearest` transiently point at the popped slot, so the
forward-pointer range clause is restored only at the end of the loop. -/
def geomCore (v : List PJD) : Prop :=
  v.length < usizeMAX ∧
  (∀ i, i < v.length → ∀ j, j < v.length →
    (nnfOf v i).count j = if nniOf v j = i then 1 else 0) ∧
  (∀ i, i < v.length → ∀ x ∈ nnfOf v i, x < v.length) ∧
  (∀ j, j < v.length → nniOf v j ≠ j)

/-- The transposition of indices `i` and `j`: `ClusterGeom::swap` acts on the
nearest-neighbour graph by relabelling every index through this map. -/
def swapPerm (i j y : ℕ) : ℕ := if y = i then j else if y = j then i else y

instance (v : List PJD) : Decidable (geomInv v) := by
  unfold geomInv
  infer_instance

/-- Loop invariant of the scan in `ClusterGeom::push` over a vector of
`len` records: the reverse-adjacency correspondence holds with the incoming
record playing the role of a virtual slot `len` (its reverse list collects
exactly the re-pointed indices), and the running nearest index is active or
the sentinel. -/
def pushInv (len : ℕ) (acc : ClusterGeom × PJD × NF × ℕ) : Prop :=
  acc.1.pseudojets.length = len ∧
  (∀ i, i < len → ∀ j, j < len →
    (nnfOf acc.1.pseudojets i).count j =
      if nniOf acc.1.pseudojets j = i then 1 else 0) ∧
  (∀ j, j < len → acc.2.1.nearest_neighbour_for.count j =
      if nniOf acc.1.pseudojets j = len then 1 else 0) ∧
  (∀ i, i < len → ∀ y ∈ nnfOf acc.1.pseudojets i, y < len) ∧
  (∀ y ∈ acc.2.1.nearest_neighbour_for, y < len) ∧
  (∀ j, j < len → nniOf acc.1.pseudojets j ≠ j) ∧
  (∀ j, j < len → nniOf acc.1.pseudojets j < len ∨ nniOf acc.1.pseudojets j = len ∨
    nniOf acc.1.pseudojets j = usizeMAX) ∧
  (acc.2.2.2 < len ∨ acc.2.2.2 = usizeMAX)

/-! ## Supporting lemmas -/

namespace NF

@[simp] theorem not_num_le_minf {a : ℚ} : ¬ num a ≤ minf := by
  rw [le_def]; simp [toOrd]

@[simp] theorem not_pinf_le_num {a : ℚ} : ¬ pinf ≤ num a := by
  rw [le_def]; simp [toOrd]

@[simp] theorem minf_le {x : NF} : minf ≤ x := by
  rw [le_def]; cases x <;> simp [toOrd]

@[simp] theorem le_pinf {x : NF} : x ≤ pinf := by
  rw [le_def]; cases x <;> simp [toOrd]

/-- A value between two finite bounds is finite. -/
theorem eq_num_of_between {x : NF} {a b : ℚ} (h1 : num a ≤ x) (h2 : x ≤ num b) :
    ∃ q : ℚ, x = num q ∧ a ≤ q ∧ q ≤ b := by
  cases x with
  | minf => exact absurd h1 not_num_le_minf
  | pinf => exact absurd h2 not_pinf_le_num
  | num q => exact ⟨q, rfl, num_le_num.mp h1, num_le_num.mp h2⟩

/-- A value between a finite lower bound and a strict finite upper bound. -/
theorem eq_num_of_between_lt {x : NF} {a b : ℚ} (h1 : num a ≤ x) (h2 : x < num b) :
    ∃ q : ℚ, x = num q ∧ a ≤ q ∧ q < b := by
  cases x with
  | minf => exact absurd h1 not_num_le_minf
  | pinf => exact absurd h2 (by simp)
  | num q => exact ⟨q, rfl, num_le_num.mp h1, num_lt_num.mp h2⟩

@[simp] theorem add_num_num {a b : ℚ} : (num a).add (num b) = num (a + b) := rfl

@[simp] theorem mul_num_num {a b : ℚ} : (num a).mul (num b) = num (a * b) := rfl

@[simp] theorem neg_num {a : ℚ} : (num a).neg = num (-a) := rfl

@[simp] theorem sub_num_num {a b : ℚ} : (num a).sub (num b) = num (a - b) := by
  simp [sub, neg, add]
  ring_nf

@[simp] theorem nfAbs_num {a : ℚ} : (num a).nfAbs = num |a| := rfl

end NF

/-- `n64(2.) * PI` evaluates to the finite rational `2 * piF`. -/
theorem two_mul_PI_eval : (NF.num 2).mul PI = NF.num (2 * piF) := by
  simp [PI]

/-- `piF` is positive. -/
theorem piF_pos : 0 < piF := by norm_num [piF]

/-- Core cache-consistency lemma: after `init_pt2_phi_rap`, the cached
scalars are the stated functions of the (finite) components. -/
theorem init_caches_spec (fns : CacheFns) (p : PseudoJet) (a b c d : ℚ)
    (he : p.e = NF.num a) (hx : p.px = NF.num b) (hy : p.py = NF.num c)
    (hz : p.pz = NF.num d) :
    cachesConsistent fns (p.init_pt2_phi_rap fns) a b c d := by
  have h2pi : ¬ ((NF.num 2).mul PI < NF.num 0) := by
    rw [two_mul_PI_eval]
    simp
    linarith [piF_pos]
  refine ⟨?_, ?_, ?_, ?_⟩
  · intro hne
    simp [PseudoJet.init_pt2_phi_rap, he, hx, hy, hz, NF.div, hne]
  · intro hzero
    have hnn : ¬ (2 * piF < 0) := by linarith [piF_pos]
    constructor
    · simp [PseudoJet.init_pt2_phi_rap, he, hx, hy, hz, NF.div, hzero]
    · simp [PseudoJet.init_pt2_phi_rap, he, hx, hy, hz, hzero, two_mul_PI_eval, hnn]
  · rintro ⟨ha, hd⟩
    simp [PseudoJet.init_pt2_phi_rap, he, hx, hy, hz, ha, hd]
  · intro hnot
    have : ¬ (p.e = NF.num 0 ∧ p.pz = NF.num 0) := by
      rw [he, hz]
      simpa using hnot
    simp only [PseudoJet.init_pt2_phi_rap, if_neg this]
    rw [he, hz]
    simp

/-- Core φ-normalisation lemma: after `init_pt2_phi_rap` the azimuth cache
lies in `[0, 2π)`, provided `atan2` has its IEEE range `[-π, π]`. -/
theorem init_phi_range (fns : CacheFns)
    (hatan : ∀ y x, NF.num (-piF) ≤ fns.atan2 y x ∧ fns.atan2 y x ≤ NF.num piF)
    (p : PseudoJet) : phiNormalized (p.init_pt2_phi_rap fns) := by
  have hpi := piF_pos
  unfold phiNormalized
  obtain ⟨hlo, hhi⟩ := hatan p.py p.px
  simp only [PseudoJet.init_pt2_phi_rap, two_mul_PI_eval]
  by_cases h0 : NF.num 0 < (p.px.mul p.px).add (p.py.mul p.py)
  · rw [if_pos h0]
    obtain ⟨q, hq, hq1, hq2⟩ := NF.eq_num_of_between hlo hhi
    rw [hq]
    by_cases hneg : q < 0
    · rw [if_pos (NF.num_lt_num.mpr hneg), NF.add_num_num,
        if_neg (show ¬ NF.num (2 * piF) < NF.num (q + 2 * piF) by simp; linarith)]
      exact ⟨NF.num_le_num.mpr (by linarith), NF.num_lt_num.mpr (by linarith)⟩
    · rw [if_neg (show ¬ NF.num q < NF.num 0 by simp; linarith),
        if_neg (show ¬ NF.num (2 * piF) < NF.num q by simp; linarith)]
      exact ⟨NF.num_le_num.mpr (by linarith), NF.num_lt_num.mpr (by linarith)⟩
  · rw [if_neg h0,
      if_neg (show ¬ NF.num 0 < NF.num 0 by simp),
      if_neg (show ¬ NF.num (2 * piF) < NF.num 0 by simp; linarith)]
    exact ⟨le_refl _, NF.num_lt_num.mpr (by linarith)⟩

/-- `delta_phi_abs` of two φ-normalised pseudojets lies in `[0, π]`. -/
theorem delta_phi_abs_range (p q : PseudoJet)
    (hp : phiNormalized p) (hq : phiNormalized q) :
    NF.num 0 ≤ p.delta_phi_abs q ∧ p.delta_phi_abs q ≤ NF.num piF := by
  obtain ⟨a, ha, ha0, ha2⟩ := NF.eq_num_of_between_lt hp.1 hp.2
  obtain ⟨b, hb, hb0, hb2⟩ := NF.eq_num_of_between_lt hq.1 hq.2
  have hpi := piF_pos
  have habs : |a - b| < 2 * piF := by
    rw [abs_lt]
    constructor <;> linarith
  unfold PseudoJet.delta_phi_abs
  rw [ha, hb]
  simp only [NF.sub_num_num, NF.nfAbs_num, two_mul_PI_eval]
  by_cases h : PI < NF.num |a - b|
  · have hgt : piF < |a - b| := by
      have := h
      rw [show PI = NF.num piF from rfl] at this
      exact NF.num_lt_num.mp this
    rw [if_pos h]
    constructor <;> simp <;> linarith
  · have hle : |a - b| ≤ piF := by
      have := h
      rw [show PI = NF.num piF from rfl] at this
      simpa using this
    rw [if_neg h]
    constructor <;> simp [abs_nonneg, hle]

/-- `delta_phi` of two φ-normalised pseudojets lies in `(-π, π]`. -/
theorem delta_phi_range (p q : PseudoJet)
    (hp : phiNormalized p) (hq : phiNormalized q) :
    NF.num (-piF) < p.delta_phi q ∧ p.delta_phi q ≤ NF.num piF := by
  obtain ⟨a, ha, ha0, ha2⟩ := NF.eq_num_of_between_lt hp.1 hp.2
  obtain ⟨b, hb, hb0, hb2⟩ := NF.eq_num_of_between_lt hq.1 hq.2
  have hpi := piF_pos
  unfold PseudoJet.delta_phi
  rw [ha, hb]
  simp only [NF.sub_num_num, two_mul_PI_eval]
  by_cases h1 : PI < NF.num (a - b)
  · have hgt : piF < a - b := by
      have := h1
      rw [show PI = NF.num piF from rfl] at this
      exact NF.num_lt_num.mp this
    rw [if_pos h1]
    constructor <;> simp <;> linarith
  · have hle : a - b ≤ piF := by
      have := h1
      rw [show PI = NF.num piF from rfl] at this
      simpa using this
    rw [if_neg h1]
    by_cases h2 : NF.num (a - b) ≤ PI.neg
    · have hle2 : a - b ≤ -piF := by
        have := h2
        rw [show PI.neg = NF.num (-piF) from rfl] at this
        simpa using this
      rw [if_pos h2]
      constructor <;> simp <;> linarith
    · have hgt2 : -piF < a - b := by
        have := h2
        rw [show PI.neg = NF.num (-piF) from rfl] at this
        simpa using this
      rw [if_neg h2]
      constructor <;> simp <;> linarith

/-! ## List lemmas for the naive-engine run -/

/-- The first-minimal fold returns an element of the scanned list. -/
theorem minFold_mem {α : Type} (lt : α → α → Prop) [DecidableRel lt] :
    ∀ (ts : List α) (a : α),
      ts.foldl (fun acc x => if lt x acc then x else acc) a ∈ a :: ts := by
  intro ts
  induction ts with
  | nil => intro a; simp
  | cons x ts ih =>
    intro a
    have h := ih (if lt x a then x else a)
    simp only [List.foldl_cons]
    by_cases hc : lt x a
    · rw [if_pos hc] at h ⊢
      rcases List.mem_cons.mp h with h1 | h1 <;> simp [h1]
    · rw [if_neg hc] at h ⊢
      rcases List.mem_cons.mp h with h1 | h1 <;> simp [h1]

/-- `tripMin?` returns an element of the list. -/
theorem tripMin_mem {l : List (NF × ℕ × ℕ)} {t : NF × ℕ × ℕ}
    (h : tripMin? l = some t) : t ∈ l := by
  cases l with
  | nil => simp [tripMin?] at h
  | cons t0 ts =>
    simp only [tripMin?, Option.some.injEq] at h
    rw [← h]
    exact minFold_mem tripLt ts t0

/-- Sum of `g` over a list with one slot overwritten. -/
theorem map_sum_set {α : Type} (g : α → ℚ) :
    ∀ (l : List α) (i : ℕ) (h : i < l.length) (v : α),
      ((l.set i v).map g).sum = (l.map g).sum - g (l.get ⟨i, h⟩) + g v := by
  intro l
  induction l with
  | nil => intro i h v; simp at h
  | cons a t ih =>
    intro i h v
    cases i with
    | zero => simp [List.set]; ring
    | succ n =>
      have hn : n < t.length := by simpa using h
      have := ih n hn v
      simp only [List.set, List.map_cons, List.sum_cons, List.get_cons_succ]
      rw [this]
      ring

/-- Sum of `g` over `dropLast`. -/
theorem map_sum_dropLast {α : Type} (g : α → ℚ) (l : List α) (h : l ≠ []) :
    (l.dropLast.map g).sum = (l.map g).sum - g (l.getLast h) := by
  have h2 : ((l.dropLast ++ [l.getLast h]).map g).sum = (l.map g).sum := by
    rw [List.dropLast_append_getLast]
  rw [List.map_append, List.sum_append] at h2
  simp only [List.map_cons, List.map_nil, List.sum_cons, List.sum_nil, add_zero] at h2
  linarith

/-- `swapRemove` in the in-range case. -/
theorem swapRemove_eq {α : Type} (l : List α) (i : ℕ) (h : i < l.length) :
    swapRemove l i =
      some (l.get ⟨i, h⟩,
        (l.set i (l.get ⟨l.length - 1, by omega⟩)).dropLast) := by
  have hne : l ≠ [] := List.ne_nil_of_length_pos (by omega)
  unfold swapRemove
  rw [dif_pos h, List.getLast?_eq_getLast l hne, List.getLast_eq_get l hne]

/-- Length after swap-removal. -/
theorem sr_length {α : Type} (l : List α) (i : ℕ) (v : α) :
    ((l.set i v).dropLast).length = l.length - 1 := by simp

/-- Elements after swap-removal come from the original list. -/
theorem sr_mem {α : Type} (l : List α) (i : ℕ) (h : i < l.length) (a : α)
    (ha : a ∈ (l.set i (l.get ⟨l.length - 1, by omega⟩)).dropLast) : a ∈ l := by
  have h1 := List.dropLast_subset _ ha
  rcases List.mem_or_eq_of_mem_set h1 with h2 | h2
  · exact h2
  · rw [h2]; exact List.get_mem l _ _

/-- Sum of `g` after swap-removal: the slot-`i` element is removed. -/
theorem sr_sum {α : Type} (g : α → ℚ) (l : List α) (i : ℕ) (h : i < l.length) (v : α)
    (hv : v = l.get ⟨l.length - 1, by omega⟩) :
    (((l.set i v).dropLast).map g).sum = (l.map g).sum - g (l.get ⟨i, h⟩) := by
  have hset_ne : l.set i v ≠ [] := by
    intro hc
    have h0 : (l.set i v).length = 0 := by rw [hc]; rfl
    simp only [List.length_set] at h0
    omega
  rw [map_sum_dropLast g _ hset_ne, map_sum_set g l i h v]
  have hlast : (l.set i v).getLast hset_ne = v := by
    rw [List.getLast_eq_getElem]
    simp only [List.length_set]
    by_cases hi : i = l.length - 1
    · subst hi
      exact List.getElem_set_self (by simp; omega)
    · rw [List.getElem_set_ne (by omega)]
      rw [List.get_eq_getElem] at hv
      exact hv.symm
  rw [hlast]
  ring

/-- Reading an untouched slot after swap-removal. -/
theorem sr_get {α : Type} (l : List α) (i k : ℕ) (v : α)
    (hk1 : k < l.length - 1) (hki : k ≠ i) :
    ((l.set i v).dropLast).get ⟨k, by simp; omega⟩ = l.get ⟨k, by omega⟩ := by
  rw [List.get_eq_getElem, List.get_eq_getElem]
  rw [List.getElem_dropLast]
  simp only [Fin.val_mk]
  exact List.getElem_set_ne (show i ≠ k by omega) (by simp; omega)

/-! ## Finiteness and sum lemmas -/

theorem NF.isNum_iff {x : NF} : x.isNum ↔ ∃ q : ℚ, x = NF.num q := by
  cases x <;> simp [NF.isNum]

theorem NF.isNum_add {x y : NF} (hx : x.isNum) (hy : y.isNum) : (x.add y).isNum := by
  cases x <;> cases y <;> simp [NF.isNum, NF.add] at hx hy ⊢

theorem qval_add {x y : NF} (hx : x.isNum) (hy : y.isNum) :
    qval (x.add y) = qval x + qval y := by
  cases x <;> cases y <;> simp [NF.isNum] at hx hy <;> simp [NF.add, qval]

/-- The components of an `AddAssign` result are the `IEEE` sums of the
operands' components (cache refresh leaves the components untouched). -/
theorem add_assign_e (fns : CacheFns) (p q : PseudoJet) :
    (PseudoJet.add_assign fns p q).e = p.e.add q.e := rfl

theorem add_assign_px (fns : CacheFns) (p q : PseudoJet) :
    (PseudoJet.add_assign fns p q).px = p.px.add q.px := rfl

theorem add_assign_py (fns : CacheFns) (p q : PseudoJet) :
    (PseudoJet.add_assign fns p q).py = p.py.add q.py := rfl

theorem add_assign_pz (fns : CacheFns) (p q : PseudoJet) :
    (PseudoJet.add_assign fns p q).pz = p.pz.add q.pz := rfl

theorem finiteComps_add_assign (fns : CacheFns) (p q : PseudoJet)
    (hp : finiteComps p) (hq : finiteComps q) :
    finiteComps (PseudoJet.add_assign fns p q) := by
  obtain ⟨hp1, hp2, hp3, hp4⟩ := hp
  obtain ⟨hq1, hq2, hq3, hq4⟩ := hq
  exact ⟨NF.isNum_add hp1 hq1, NF.isNum_add hp2 hq2,
    NF.isNum_add hp3 hq3, NF.isNum_add hp4 hq4⟩

/-- The float fold of a finite-component list is the rational sum. -/
theorem compSum_eq_num (f : PseudoJet → NF) (ps : List PseudoJet)
    (h : ∀ p ∈ ps, (f p).isNum) :
    compSum f ps = NF.num ((ps.map (fun p => qval (f p))).sum) := by
  induction ps with
  | nil => simp [compSum]
  | cons p t ih =>
    have hp := h p (List.mem_cons_self p t)
    have ht := ih fun x hx => h x (List.mem_cons_of_mem p hx)
    obtain ⟨qp, hqp⟩ := NF.isNum_iff.mp hp
    simp only [compSum, List.map_cons, List.foldr_cons, List.sum_cons]
    rw [show (t.map f).foldr NF.add (NF.num 0) = compSum f t from rfl, ht, hqp]
    simp [qval]

theorem jetsOf_sum_cons (g : PseudoJet → ℚ) (s : ClusterStep) (rest : List ClusterStep) :
    ((jetsOf (s :: rest)).map g).sum = jetCompQ g s + ((jetsOf rest).map g).sum := by
  cases s <;> simp [jetsOf, jetCompQ]

theorem jetsOf_mem_cons {p : PseudoJet} {s : ClusterStep} {rest : List ClusterStep}
    (h : p ∈ jetsOf (s :: rest)) :
    (s = ClusterStep.jet p) ∨ p ∈ jetsOf rest := by
  cases s with
  | jet x =>
    simp only [jetsOf, List.filterMap_cons] at h ⊢
    rcases List.mem_cons.mp h with h1 | h1
    · left; rw [h1]
    · right; exact h1
  | combine x y =>
    simp only [jetsOf, List.filterMap_cons] at h ⊢
    exact Or.inr h

/-! ## Properties of the rename step -/

/-- Membership characterisation of `renameDs`. -/
theorem renameDs_mem {ds : List (NF × ℕ × ℕ)} {rem newlen : ℕ} {t : NF × ℕ × ℕ}
    (ht : t ∈ renameDs ds rem newlen) :
    ∃ t0 ∈ ds, t0.2.1 ≠ rem ∧ t0.2.2 ≠ rem ∧
      t = (t0.1, (if t0.2.1 = newlen then rem else t0.2.1),
               (if t0.2.2 = newlen then rem else t0.2.2)) := by
  simp only [renameDs, List.mem_map] at ht
  obtain ⟨t0, ht0, heq⟩ := ht
  have hmem := List.mem_filter.mp ht0
  have hne := hmem.2
  simp only [Bool.and_eq_true, bne_iff_ne, ne_eq] at hne
  exact ⟨t0, hmem.1, hne.1, hne.2, heq.symm⟩

/-- `renameDs` keeps every triple index strictly below the new length. -/
theorem renameDs_bounds {ds : List (NF × ℕ × ℕ)} {rem n : ℕ}
    (hrem : rem < n)
    (h : ∀ t ∈ ds, t.2.1 < n ∧ t.2.2 < n) :
    ∀ t ∈ renameDs ds rem (n - 1), t.2.1 < n - 1 ∧ t.2.2 < n - 1 := by
  intro t ht
  obtain ⟨t0, ht0, hne1, hne2, heq⟩ := renameDs_mem ht
  obtain ⟨hb1, hb2⟩ := h t0 ht0
  subst heq
  dsimp only
  constructor
  · by_cases hc : t0.2.1 = n - 1
    · rw [if_pos hc]; omega
    · rw [if_neg hc]; omega
  · by_cases hc : t0.2.2 = n - 1
    · rw [if_pos hc]; omega
    · rw [if_neg hc]; omega

/-- `renameDs` keeps a beam entry for every surviving index. -/
theorem renameDs_beam {ds : List (NF × ℕ × ℕ)} {rem n : ℕ}
    (hrem : rem < n)
    (hbeam : ∀ m, m < n → ∃ dv, (dv, m, m) ∈ ds) :
    ∀ k, k < n - 1 → ∃ dv, (dv, k, k) ∈ renameDs ds rem (n - 1) := by
  intro k hk
  by_cases hkrem : k = rem
  · subst hkrem
    obtain ⟨dv, hdv⟩ := hbeam (n - 1) (by omega)
    refine ⟨dv, ?_⟩
    simp only [renameDs, List.mem_map]
    refine ⟨(dv, n - 1, n - 1), ?_, ?_⟩
    · exact List.mem_filter.mpr ⟨hdv, by simp; omega⟩
    · simp
  · obtain ⟨dv, hdv⟩ := hbeam k (by omega)
    refine ⟨dv, ?_⟩
    simp only [renameDs, List.mem_map]
    refine ⟨(dv, k, k), ?_, ?_⟩
    · exact List.mem_filter.mpr ⟨hdv, by simp [hkrem]⟩
    · simp
      omega

/-! ## Step specifications of the naive engine -/

/-- `extract_as_jet` at an in-range index: emits the slot-`i` pseudojet,
shrinks the state by one, and preserves the invariant. -/
theorem extract_as_jet_spec (st : ClusterNaive) (i : ℕ)
    (hi : i < st.pseudojets.length) (hinv : naiveInv st) :
    ∃ st1, st.extract_as_jet i = some (st.pseudojets.get ⟨i, hi⟩, st1) ∧
      st1.pseudojets.length = st.pseudojets.length - 1 ∧
      (∀ p ∈ st1.pseudojets, p ∈ st.pseudojets) ∧
      naiveInv st1 ∧
      (∀ g : PseudoJet → ℚ, (st1.pseudojets.map g).sum =
        (st.pseudojets.map g).sum - g (st.pseudojets.get ⟨i, hi⟩)) := by
  have hn : 0 < st.pseudojets.length := by omega
  refine ⟨{ st with
      pseudojets := (st.pseudojets.set i
        (st.pseudojets.get ⟨st.pseudojets.length - 1, by omega⟩)).dropLast,
      distances := renameDs st.distances i
        ((st.pseudojets.set i
          (st.pseudojets.get ⟨st.pseudojets.length - 1, by omega⟩)).dropLast).length },
    ?_, ?_, ?_, ?_, ?_⟩
  · simp only [ClusterNaive.extract_as_jet, swapRemove_eq st.pseudojets i hi]
  · simp
  · intro p hp
    exact sr_mem st.pseudojets i hi p hp
  · constructor
    · intro t ht
      simp only [sr_length] at ht ⊢
      exact renameDs_bounds hi hinv.1 t ht
    · intro k hk
      simp only [sr_length] at hk ⊢
      exact renameDs_beam hi hinv.2 k hk
  · intro g
    exact sr_sum g st.pseudojets i hi _ rfl

/-- `updateDs` only rewrites the distance component of each triple. -/
theorem updateDs_mem {d : Distance} {ps : List PseudoJet} {lo : ℕ}
    {ds : List (NF × ℕ × ℕ)} {t : NF × ℕ × ℕ} (ht : t ∈ updateDs d ps lo ds) :
    ∃ t0 ∈ ds, t.2 = t0.2 := by
  simp only [updateDs, List.mem_map] at ht
  obtain ⟨t0, ht0, heq⟩ := ht
  refine ⟨t0, ht0, ?_⟩
  rw [← heq]
  by_cases h1 : t0.2.1 = lo ∨ t0.2.2 = lo
  · rw [if_pos h1]
    by_cases h2 : t0.2.1 ≠ t0.2.2
    · rw [if_pos h2]
    · rw [if_neg h2]
  · rw [if_neg h1]

/-- `updateDs` keeps a beam entry at every index that had one. -/
theorem updateDs_beam {d : Distance} {ps : List PseudoJet} {lo : ℕ}
    {ds : List (NF × ℕ × ℕ)} {dv : NF} {k : ℕ} (h : (dv, k, k) ∈ ds) :
    ∃ dv2, (dv2, k, k) ∈ updateDs d ps lo ds := by
  by_cases hk : k = lo
  · subst hk
    refine ⟨d.beam_distance (nthPJ ps k), ?_⟩
    simp only [updateDs, List.mem_map]
    exact ⟨(dv, k, k), h, by simp⟩
  · refine ⟨dv, ?_⟩
    simp only [updateDs, List.mem_map]
    refine ⟨(dv, k, k), h, ?_⟩
    simp [hk]

/-- `combine` at two distinct in-range indices: emits the pre-merge operand
pair, replaces it by the merged pseudojet, and preserves the invariant. -/
theorem combine_spec (fns : CacheFns) (st : ClusterNaive) (i j : ℕ)
    (hi : i < st.pseudojets.length) (hj : j < st.pseudojets.length) (hij : i ≠ j)
    (hinv : naiveInv st) :
    ∃ st1, ClusterNaive.combine fns st i j =
        some ((st.pseudojets.get ⟨i, hi⟩, st.pseudojets.get ⟨j, hj⟩), st1) ∧
      st1.pseudojets.length = st.pseudojets.length - 1 ∧
      (∀ p ∈ st1.pseudojets, p ∈ st.pseudojets ∨
        ∃ a, a ∈ st.pseudojets ∧ ∃ b, b ∈ st.pseudojets ∧
          p = PseudoJet.add_assign fns a b) ∧
      naiveInv st1 ∧
      (∀ g : PseudoJet → ℚ,
        (∀ a b, a ∈ st.pseudojets → b ∈ st.pseudojets →
          g (PseudoJet.add_assign fns a b) = g a + g b) →
        (st1.pseudojets.map g).sum = (st.pseudojets.map g).sum) := by
  have hmax : Nat.max i j < st.pseudojets.length := Nat.max_lt.mpr ⟨hi, hj⟩
  have hminmax : Nat.min i j < Nat.max i j := min_lt_max.mpr hij
  have hlo1 : Nat.min i j < st.pseudojets.length - 1 := by omega
  have hn : 0 < st.pseudojets.length := by omega
  have hlo2 : Nat.min i j <
      ((st.pseudojets.set (Nat.max i j)
        (st.pseudojets.get ⟨st.pseudojets.length - 1, by omega⟩)).dropLast).length := by
    rw [sr_length]; omega
  have hps1get : ((st.pseudojets.set (Nat.max i j)
        (st.pseudojets.get ⟨st.pseudojets.length - 1, by omega⟩)).dropLast).get
        ⟨Nat.min i j, hlo2⟩ = st.pseudojets.get ⟨Nat.min i j, by omega⟩ :=
    sr_get st.pseudojets (Nat.max i j) (Nat.min i j) _ hlo1 (by omega)
  refine ⟨{ st with
      pseudojets := ((st.pseudojets.set (Nat.max i j)
          (st.pseudojets.get ⟨st.pseudojets.length - 1, by omega⟩)).dropLast).set
        (Nat.min i j)
        (PseudoJet.add_assign fns
          (((st.pseudojets.set (Nat.max i j)
            (st.pseudojets.get ⟨st.pseudojets.length - 1, by omega⟩)).dropLast).get
              ⟨Nat.min i j, hlo2⟩)
          (st.pseudojets.get ⟨Nat.max i j, hmax⟩)),
      distances := updateDs st.distance
        (((st.pseudojets.set (Nat.max i j)
            (st.pseudojets.get ⟨st.pseudojets.length - 1, by omega⟩)).dropLast).set
          (Nat.min i j)
          (PseudoJet.add_assign fns
            (((st.pseudojets.set (Nat.max i j)
              (st.pseudojets.get ⟨st.pseudojets.length - 1, by omega⟩)).dropLast).get
                ⟨Nat.min i j, hlo2⟩)
            (st.pseudojets.get ⟨Nat.max i j, hmax⟩)))
        (Nat.min i j)
        (renameDs st.distances (Nat.max i j)
          ((st.pseudojets.set (Nat.max i j)
            (st.pseudojets.get ⟨st.pseudojets.length - 1, by omega⟩)).dropLast).length) },
    ?_, ?_, ?_, ?_, ?_⟩
  · unfold ClusterNaive.combine
    simp only [List.get?_eq_get hi, List.get?_eq_get hj,
      Option.bind_eq_bind, Option.some_bind]
    rw [swapRemove_eq st.pseudojets (Nat.max i j) hmax]
    simp only [Option.some_bind]
    rw [List.get?_eq_get hlo2]
    simp only [Option.some_bind]
    rfl
  · simp
  · intro p hp
    simp only [] at hp
    rcases List.mem_or_eq_of_mem_set hp with h1 | h1
    · exact Or.inl (sr_mem st.pseudojets (Nat.max i j) hmax p h1)
    · right
      rw [hps1get] at h1
      exact ⟨_, List.get_mem _ _ _, _, List.get_mem _ _ _, h1⟩
  · constructor
    · intro t ht
      simp only [List.length_set, sr_length] at ht ⊢
      obtain ⟨t0, ht0, hcoords⟩ := updateDs_mem ht
      have hb := renameDs_bounds hmax hinv.1 t0 ht0
      have h1 : t.2.1 = t0.2.1 := by rw [hcoords]
      have h2 : t.2.2 = t0.2.2 := by rw [hcoords]
      rw [h1, h2]
      exact hb
    · intro k hk
      simp only [List.length_set, sr_length] at hk ⊢
      obtain ⟨dv, hdv⟩ := renameDs_beam hmax hinv.2 k (by omega)
      exact updateDs_beam hdv
  · intro g hg
    simp only []
    rw [map_sum_set g _ (Nat.min i j) hlo2, hps1get,
      sr_sum g st.pseudojets (Nat.max i j) hmax _ rfl,
      hg _ _ (List.get_mem _ _ _) (List.get_mem _ _ _)]
    ring

/-- `ClusterNaive::new` establishes the engine invariant. -/
theorem calc_distances_inv (ps : List PseudoJet) (d : Distance) :
    naiveInv (ClusterNaive.new ps d) := by
  constructor
  · intro t ht
    simp only [ClusterNaive.new, calc_distances, List.mem_flatMap, List.mem_append,
      List.mem_map, List.mem_range] at ht
    obtain ⟨i, hi, hcase⟩ := ht
    rcases hcase with ⟨j, hj, rfl⟩ | hb
    · have hjr : j ∈ List.range ps.length := List.mem_of_mem_drop hj
      simp only [List.mem_range] at hjr
      exact ⟨hi, hjr⟩
    · simp only [List.mem_singleton] at hb
      rw [hb]
      exact ⟨hi, hi⟩
  · intro k hk
    refine ⟨d.beam_distance (nthPJ ps k), ?_⟩
    simp only [ClusterNaive.new, calc_distances, List.mem_flatMap, List.mem_range]
    exact ⟨k, hk, by simp⟩

/-- One successful engine step unfolds a `runNaive` layer. -/
theorem runNaive_succ_step {fns : CacheFns} {n : ℕ} {st st1 : ClusterNaive}
    {s : ClusterStep} (h : ClusterNaive.next fns st = .step s st1) :
    runNaive fns (n + 1) st = (runNaive fns n st1).map (s :: ·) := by
  conv_lhs => rw [runNaive]
  rw [h]

/-- Full run of the naive engine with fuel equal to the number of active
pseudojets: it completes, emits exactly that many steps, the emitted jets
satisfy any merge-closed predicate `Q` satisfied by the input, and every
`Q`-additive rational projection is conserved from input to emitted jets. -/
theorem naive_run_spec (fns : CacheFns) (Q : PseudoJet → Prop)
    (hQ : ∀ a b, Q a → Q b → Q (PseudoJet.add_assign fns a b)) :
    ∀ (n : ℕ) (st : ClusterNaive), st.pseudojets.length = n → naiveInv st →
      (∀ p ∈ st.pseudojets, Q p) →
      ∃ steps, runNaive fns n st = some steps ∧ steps.length = n ∧
        (∀ p ∈ jetsOf steps, Q p) ∧
        (∀ g : PseudoJet → ℚ,
          (∀ a b, Q a → Q b → g (PseudoJet.add_assign fns a b) = g a + g b) →
          ((jetsOf steps).map g).sum = (st.pseudojets.map g).sum) := by
  intro n
  induction n with
  | zero =>
    intro st hlen hinv _
    have hd : st.distances = [] := by
      rcases hde : st.distances with _ | ⟨t, ts⟩
      · rfl
      · exfalso
        have hb := hinv.1 t (by rw [hde]; exact List.mem_cons_self t ts)
        omega
    have hps : st.pseudojets = [] := List.length_eq_zero.mp hlen
    refine ⟨[], ?_, rfl, by simp [jetsOf], ?_⟩
    · simp [runNaive, ClusterNaive.next, hd, tripMin?]
    · intro g _
      simp [jetsOf, hps]
  | succ n ih =>
    intro st hlen hinv hall
    obtain ⟨dv, hdv⟩ := hinv.2 0 (by omega)
    have hne : st.distances ≠ [] := by
      intro h
      rw [h] at hdv
      exact List.not_mem_nil _ hdv
    obtain ⟨m, hm⟩ : ∃ m, tripMin? st.distances = some m := by
      rcases hde : st.distances with _ | ⟨t0, ts⟩
      · exact absurd hde hne
      · exact ⟨_, rfl⟩
    obtain ⟨dm, i, j⟩ := m
    have hmmem := tripMin_mem hm
    have hb := hinv.1 _ hmmem
    dsimp only at hb
    obtain ⟨hm1, hm2⟩ := hb
    by_cases hij : i = j
    · subst hij
      obtain ⟨st1, heq, hlen1, hmem1, hinv1, hsum1⟩ :=
        extract_as_jet_spec st i hm1 hinv
      have hnext : ClusterNaive.next fns st =
          .step (.jet (st.pseudojets.get ⟨i, hm1⟩)) st1 := by
        unfold ClusterNaive.next
        rw [hm]
        dsimp only
        rw [if_pos rfl, heq]
      obtain ⟨steps1, hrun1, hlen1t, hjets1, hsum1t⟩ :=
        ih st1 (by omega) hinv1 (fun p hp => hall p (hmem1 p hp))
      refine ⟨ClusterStep.jet (st.pseudojets.get ⟨i, hm1⟩) :: steps1, ?_, ?_, ?_, ?_⟩
      · rw [runNaive_succ_step hnext, hrun1]
        rfl
      · simp [hlen1t]
      · intro p hp
        rcases jetsOf_mem_cons hp with h1 | h1
        · injection h1 with h2
          exact h2 ▸ hall _ (List.get_mem _ _ _)
        · exact hjets1 p h1
      · intro g hg
        rw [jetsOf_sum_cons, hsum1t g hg, hsum1 g]
        simp only [jetCompQ]
        ring
    · obtain ⟨st1, heq, hlen1, hmem1, hinv1, hsum1⟩ :=
        combine_spec fns st i j hm1 hm2 hij hinv
      have hnext : ClusterNaive.next fns st =
          .step (.combine (st.pseudojets.get ⟨i, hm1⟩) (st.pseudojets.get ⟨j, hm2⟩))
            st1 := by
        unfold ClusterNaive.next
        rw [hm]
        dsimp only
        rw [if_neg hij, heq]
      have hall1 : ∀ p ∈ st1.pseudojets, Q p := by
        intro p hp
        rcases hmem1 p hp with h1 | ⟨a, ha, b, hb2, rfl⟩
        · exact hall p h1
        · exact hQ a b (hall a ha) (hall b hb2)
      obtain ⟨steps1, hrun1, hlen1t, hjets1, hsum1t⟩ :=
        ih st1 (by omega) hinv1 hall1
      refine ⟨ClusterStep.combine (st.pseudojets.get ⟨i, hm1⟩)
          (st.pseudojets.get ⟨j, hm2⟩) :: steps1, ?_, ?_, ?_, ?_⟩
      · rw [runNaive_succ_step hnext, hrun1]
        rfl
      · simp [hlen1t]
      · intro p hp
        rcases jetsOf_mem_cons hp with h1 | h1
        · exact absurd h1 (by simp)
        · exact hjets1 p h1
      · intro g hg
        rw [jetsOf_sum_cons, hsum1t g hg,
          hsum1 g (fun a b ha hb2 => hg a b (hall a ha) (hall b hb2))]
        simp [jetCompQ]

/-! ## Evaluation lemmas for the beam-axis failing input -/

/-- `pseudojet_f(1., 0., 0., 1.)` evaluated: `inv_pt2 = +inf`, `rap = +inf`. -/
theorem beamJet1_eval :
    beamJet1 = { e := NF.num 1, px := NF.num 0, py := NF.num 0, pz := NF.num 1,
                 inv_pt2 := NF.pinf, phi := NF.num 0, rap := NF.pinf } := by
  with_unfolding_all rfl

/-- `pseudojet_f(1., 0., 0., -1.)` evaluated: `inv_pt2 = +inf`, `rap = -inf`. -/
theorem beamJet2_eval :
    beamJet2 = { e := NF.num 1, px := NF.num 0, py := NF.num 0, pz := NF.num (-1),
                 inv_pt2 := NF.pinf, phi := NF.num 0, rap := NF.minf } := by
  with_unfolding_all rfl

/-- The naive engine state on the failing input: all three distance triples
are `+inf` (the beam entries win the lexicographic tie-break). -/
theorem naive_new_eval :
    ClusterNaive.new [beamJet1, beamJet2] (anti_kt r04) =
      { pseudojets := [beamJet1, beamJet2], distance := anti_kt r04,
        distances := [(NF.pinf, 0, 1), (NF.pinf, 0, 0), (NF.pinf, 1, 1)] } := by
  with_unfolding_all rfl

/-- The naive engine on the failing input emits `Jet`, `Jet`. -/
theorem naive_run_eval :
    runNaive stubFns 2 (ClusterNaive.new [beamJet1, beamJet2] (anti_kt r04)) =
      some [ClusterStep.jet beamJet1, ClusterStep.jet beamJet2] := by
  rw [naive_new_eval, beamJet1_eval, beamJet2_eval]
  with_unfolding_all rfl

/-- The geometric engine state on the failing input: both beam distances are
`+inf`, both nearest-neighbour scans find nothing below the
`N64::max_value()` sentinel, so both indices are `usize::MAX`. -/
theorem geom_new_eval :
    ClusterGeom.new [beamJet1, beamJet2] (anti_kt r04) =
      { pseudojets := [
          { pseudojet := beamJet1, beam_dist := NF.pinf, nearest_dist := NF.num f64MAX
            nearest_neighbour_idx := usizeMAX, nearest_neighbour_for := [] },
          { pseudojet := beamJet2, beam_dist := NF.pinf, nearest_dist := NF.num f64MAX
            nearest_neighbour_idx := usizeMAX, nearest_neighbour_for := [] }]
        distance := anti_kt r04 } := by
  rw [beamJet1_eval, beamJet2_eval]
  with_unfolding_all rfl

/-- The geometric engine panics on its first step on the failing input:
`beam_dist = +inf` is not below the sentinel `nearest_dist`, so the combine
branch runs `remove(usize::MAX)`, whose assertion fails. -/
theorem geom_next_eval :
    ClusterGeom.next stubFns (ClusterGeom.new [beamJet1, beamJet2] (anti_kt r04)) =
      StepRes.crash := by
  rw [geom_new_eval, beamJet1_eval, beamJet2_eval]
  with_unfolding_all rfl

/-- The full geometric run on the failing input produces no step list. -/
theorem geom_run_eval :
    runGeom stubFns 2 (ClusterGeom.new [beamJet1, beamJet2] (anti_kt r04)) = none := by
  rw [geom_new_eval, beamJet1_eval, beamJet2_eval]
  with_unfolding_all rfl

/-- The tiled engine also panics on its first step on the failing input
(the two partons sit in opposite η-clamped tiles, so neither has a tile
neighbour, and the same `remove(usize::MAX)` assertion fires). -/
theorem tile_next_eval :
    (ClusterGeomTile.new [beamJet1, beamJet2] (anti_kt r04)).map
      (fun st => ClusterGeomTile.next stubFns st) = some StepRes.crash := by
  rw [beamJet1_eval, beamJet2_eval]
  with_unfolding_all rfl

/-! ## Tile-grid lemmas (tiled engine) -/

theorem updTiles_same (tiles : ℕ → ℕ → List ℕ) (r c : ℕ) (f : List ℕ → List ℕ) :
    updTiles tiles r c f r c = f (tiles r c) := by
  simp [updTiles]

theorem updTiles_other (tiles : ℕ → ℕ → List ℕ) (r c : ℕ) (f : List ℕ → List ℕ)
    {r' c' : ℕ} (h : ¬(r' = r ∧ c' = c)) :
    updTiles tiles r c f r' c' = tiles r' c' := by
  simp only [updTiles, if_neg h]

theorem idxInsert_count {l : List ℕ} {x : ℕ} (h : x ∉ l) (y : ℕ) :
    (idxInsert l x).count y = l.count y + (if y = x then 1 else 0) := by
  unfold idxInsert
  rw [if_neg h, List.count_append, List.count_singleton]
  by_cases hxy : y = x
  · subst hxy
    simp
  · simp only [beq_iff_eq]
    rw [if_neg (Ne.symm hxy), if_neg hxy]

theorem idxInsert_mem {l : List ℕ} {x y : ℕ} (h : y ∈ idxInsert l x) :
    y ∈ l ∨ y = x := by
  unfold idxInsert at h
  by_cases hx : x ∈ l
  · rw [if_pos hx] at h
    exact Or.inl h
  · rw [if_neg hx] at h
    rcases List.mem_append.mp h with h1 | h1
    · exact Or.inl h1
    · exact Or.inr (List.mem_singleton.mp h1)

theorem idxSwapRemove_of_not_mem {l : List ℕ} {x : ℕ} (h : x ∉ l) :
    idxSwapRemove l x = l := by
  have hn : l.findIdx? (· = x) = none := by
    rw [List.findIdx?_eq_none_iff]
    intro y hy
    simp only [decide_eq_false_iff_not]
    intro he
    exact h (he ▸ hy)
  unfold idxSwapRemove
  rw [hn]

theorem idxSwapRemove_count {l : List ℕ} {x : ℕ} (h : x ∈ l) (y : ℕ) :
    (idxSwapRemove l x).count y = l.count y - (if y = x then 1 else 0) := by
  have hne : l ≠ [] := List.ne_nil_of_mem h
  have h0 : 0 < l.length := List.length_pos.mpr hne
  obtain ⟨i, hf⟩ : ∃ i, l.findIdx? (· = x) = some i := by
    cases hf : l.findIdx? (· = x) with
    | none =>
      exfalso
      have h2 := List.findIdx?_eq_none_iff.mp hf x h
      simp at h2
    | some i => exact ⟨i, rfl⟩
  obtain ⟨hi, hpx, -⟩ := List.findIdx?_eq_some_iff_getElem.mp hf
  have hlx : l[i] = x := by simpa using hpx
  obtain ⟨z, hz⟩ : ∃ z, l.getLast?.getD 0 = z := ⟨_, rfl⟩
  have hz2 : l.getLast? = some z := by
    rw [List.getLast?_eq_getLast l hne] at hz ⊢
    rw [Option.getD_some] at hz
    rw [hz]
  have hz3 : l[l.length - 1]? = some z := by
    rw [← List.getLast?_eq_getElem?]
    exact hz2
  have hsne : l.set i z ≠ [] := by
    intro hc
    have h2 : (l.set i z).length = 0 := by rw [hc]; rfl
    rw [List.length_set] at h2
    omega
  have hq : (l.set i z)[l.length - 1]? = some z := by
    by_cases hi1 : i = l.length - 1
    · subst hi1
      exact List.getElem?_set_self hi
    · rw [List.getElem?_set_ne hi1]
      exact hz3
  have hlast : (l.set i z).getLast hsne = z := by
    have h5 := List.getLast?_eq_getLast (l.set i z) hsne
    rw [List.getLast?_eq_getElem?, List.length_set, hq] at h5
    exact (Option.some.inj h5).symm
  have happ := List.dropLast_append_getLast hsne
  rw [hlast] at happ
  have hcnt := congrArg (List.count y) happ
  rw [List.count_append, List.count_singleton] at hcnt
  have hset := List.count_set z y l i hi
  have e1 : (l[i] == y) = (x == y) := by rw [hlx]
  rw [e1] at hset
  simp only [beq_iff_eq] at hcnt hset
  have hun : idxSwapRemove l x = (l.set i z).dropLast := by
    unfold idxSwapRemove
    rw [hf, hz]
  rw [hun]
  by_cases hyx : y = x
  · rw [if_pos hyx]
    rw [if_pos hyx.symm] at hset
    have hcp : 0 < l.count y := by
      rw [hyx]
      exact List.count_pos_iff.mpr h
    by_cases hzy : z = y
    · rw [if_pos hzy] at hcnt hset
      omega
    · rw [if_neg hzy] at hcnt hset
      omega
  · rw [if_neg hyx]
    rw [if_neg (fun he => hyx he.symm)] at hset
    by_cases hzy : z = y
    · rw [if_pos hzy] at hcnt hset
      omega
    · rw [if_neg hzy] at hcnt hset
      omega

theorem idxSwapRemove_mem {l : List ℕ} {x y : ℕ} (h : y ∈ idxSwapRemove l x) :
    y ∈ l := by
  by_cases hx : x ∈ l
  · have hc := idxSwapRemove_count hx y
    have hpos : 0 < (idxSwapRemove l x).count y := List.count_pos_iff.mpr h
    have h2 : 0 < l.count y := by omega
    exact List.count_pos_iff.mp h2
  · rwa [idxSwapRemove_of_not_mem hx] at h

theorem gnthD_set_self {v : List PJD} {i : ℕ} {r : PJD} (h : i < v.length) :
    gnthD (v.set i r) i = r := by
  unfold gnthD
  rw [List.getD_eq_getElem?_getD, List.getElem?_set_self h, Option.getD_some]

theorem gnthD_set_ne {v : List PJD} {i k : ℕ} {r : PJD} (h : i ≠ k) :
    gnthD (v.set i r) k = gnthD v k := by
  unfold gnthD
  rw [List.getD_eq_getElem?_getD, List.getElem?_set_ne h, ← List.getD_eq_getElem?_getD]

theorem gnthD_of_get? {v : List PJD} {i : ℕ} {r : PJD} (h : v.get? i = some r) :
    gnthD v i = r := by
  rw [List.get?_eq_getElem?] at h
  unfold gnthD
  rw [List.getD_eq_getElem?_getD, h, Option.getD_some]

theorem pjKeep_refl (v : List PJD) : pjKeep v v := ⟨rfl, fun _ => rfl⟩

theorem pjKeep_trans {a b c : List PJD} (h1 : pjKeep a b) (h2 : pjKeep b c) :
    pjKeep a c :=
  ⟨h2.1.trans h1.1, fun k => (h2.2 k).trans (h1.2 k)⟩

theorem pjKeep_set {v : List PJD} {i : ℕ} {r : PJD}
    (h : r.pseudojet = (gnthD v i).pseudojet) : pjKeep v (v.set i r) := by
  refine ⟨List.length_set v i r, ?_⟩
  intro k
  by_cases hk : i = k
  · subst hk
    by_cases hi : i < v.length
    · rw [gnthD_set_self hi, h]
    · rw [List.set_eq_of_length_le (by omega)]
  · rw [gnthD_set_ne hk]

/-- `tile_coord` only produces in-range tile cells. -/
theorem tile_coord_lt {p : PseudoJet} {r c : ℕ} (h : tile_coord p = some (r, c)) :
    r < N_RAP_BINS ∧ c < N_PHI_BINS := by
  unfold tile_coord at h
  dsimp only at h
  split at h
  · next q heq =>
    split at h
    · next hq =>
      injection h with h2
      rw [Prod.mk.injEq] at h2
      obtain ⟨hr, hc⟩ := h2
      constructor
      · rw [← hr]
        have h4 : max 0 (min ((N_RAP_BINS : Int) - 1)
            ((p.rap.add (NF.num MAX_RAP)).floorToI32)) ≤ 9 := by
          apply max_le
          · norm_num
          · calc min ((N_RAP_BINS : Int) - 1) ((p.rap.add (NF.num MAX_RAP)).floorToI32)
                ≤ (N_RAP_BINS : Int) - 1 := min_le_left _ _
              _ ≤ 9 := by norm_num [N_RAP_BINS]
        have h5 : (max 0 (min ((N_RAP_BINS : Int) - 1)
            ((p.rap.add (NF.num MAX_RAP)).floorToI32))).toNat ≤ 9 :=
          Int.toNat_le.mpr (by exact_mod_cast h4)
        norm_num [N_RAP_BINS]
      · rw [← hc]
        have h4 : ⌊q⌋ < (N_PHI_BINS : Int) := by
          rw [Int.floor_lt]
          exact_mod_cast hq.2
        norm_num [N_PHI_BINS] at h4 ⊢
        omega
    · exact absurd h (by simp)
  · exact absurd h (by simp)

theorem setNNIsT_keep :
    ∀ (idxs : List ℕ) (v v' : List PJD) (newval : ℕ),
      setNNIsT v idxs newval = some v' → pjKeep v v' := by
  intro idxs
  induction idxs with
  | nil =>
    intro v v' newval h
    unfold setNNIsT at h
    rw [List.foldlM_nil] at h
    cases h
    exact pjKeep_refl v
  | cons i is ih =>
    intro v v' newval h
    unfold setNNIsT at h
    rw [List.foldlM_cons] at h
    simp only [Option.bind_eq_bind, Option.bind_eq_some, Option.pure_def,
      Option.some.injEq] at h
    obtain ⟨w, ⟨a, ha, haset⟩, hrest⟩ := h
    have hkeep : pjKeep v w := by
      rw [← haset]
      exact pjKeep_set (by rw [gnthD_of_get? ha])
    exact pjKeep_trans hkeep (ih _ v' newval hrest)

theorem replNNFEntry_keep {v v' : List PJD} {m oldv newv : ℕ}
    (h : replNNFEntry v m oldv newv = some v') : pjKeep v v' := by
  unfold replNNFEntry at h
  simp only [Option.bind_eq_bind, Option.bind_eq_some, Option.pure_def,
    Option.some.injEq] at h
  obtain ⟨r, hr, idx, hidx, hv'⟩ := h
  rw [← hv']
  exact pjKeep_set (by rw [gnthD_of_get? hr])

theorem foldlM_keepTiles {α : Type} (f : ClusterGeomTile → α → Option ClusterGeomTile)
    (hf : ∀ s a s', f s a = some s' →
      s'.tiles = s.tiles ∧ s'.distance = s.distance ∧ pjKeep s.pseudojets s'.pseudojets) :
    ∀ (L : List α) (s0 s1 : ClusterGeomTile), L.foldlM f s0 = some s1 →
      s1.tiles = s0.tiles ∧ s1.distance = s0.distance ∧
        pjKeep s0.pseudojets s1.pseudojets := by
  intro L
  induction L with
  | nil =>
    intro s0 s1 h
    rw [List.foldlM_nil] at h
    cases h
    exact ⟨rfl, rfl, pjKeep_refl _⟩
  | cons a L ih =>
    intro s0 s1 h
    rw [List.foldlM_cons] at h
    simp only [Option.bind_eq_bind, Option.bind_eq_some] at h
    obtain ⟨w, hw, hrest⟩ := h
    obtain ⟨ht, hd, hk⟩ := hf s0 a w hw
    obtain ⟨ht2, hd2, hk2⟩ := ih w s1 hrest
    exact ⟨ht2.trans ht, hd2.trans hd, pjKeep_trans hk hk2⟩

theorem initNearestStep_keep (s : ClusterGeomTile) (i : ℕ) (s' : ClusterGeomTile)
    (h : initNearestStep s i = some s') :
    s'.tiles = s.tiles ∧ s'.distance = s.distance ∧
      pjKeep s.pseudojets s'.pseudojets := by
  unfold initNearestStep at h
  simp only [Option.bind_eq_bind, Option.bind_eq_some, Option.pure_def] at h
  obtain ⟨rc, hrc, h⟩ := h
  obtain ⟨r, c⟩ := rc
  dsimp only at h
  split at h
  · injection h with h2
    rw [← h2]
    exact ⟨rfl, rfl, pjKeep_refl _⟩
  · split at h
    · injection h with h2
      rw [← h2]
      refine ⟨rfl, rfl, ?_⟩
      dsimp only
      refine pjKeep_trans ?_ (pjKeep_set ?_)
      refine pjKeep_trans ?_ (pjKeep_set ?_)
      refine pjKeep_set ?_
      all_goals rfl
    · exact absurd h (by simp)

theorem init_nearest_keep {s s1 : ClusterGeomTile}
    (h : ClusterGeomTile.init_nearest s = some s1) :
    s1.tiles = s.tiles ∧ s1.distance = s.distance ∧
      pjKeep s.pseudojets s1.pseudojets := by
  unfold ClusterGeomTile.init_nearest at h
  exact foldlM_keepTiles initNearestStep initNearestStep_keep _ s s1 h

/-- `tilePartition` only depends on the tiles, the length and the
four-momenta of the records. -/
theorem tilePartition_keep {s s' : ClusterGeomTile} (ht : s'.tiles = s.tiles)
    (hk : pjKeep s.pseudojets s'.pseudojets) (h : tilePartition s) :
    tilePartition s' := by
  obtain ⟨h1, h2⟩ := h
  constructor
  · intro r hr c hc x hx
    rw [ht] at hx
    rw [hk.1]
    exact h1 r hr c hc x hx
  · intro i hi
    rw [hk.1] at hi
    have h3 := h2 i hi
    rw [← hk.2 i] at h3
    rw [ht]
    exact h3

/-- The `init_tiles` fold inserts each enumerated index exactly once into
the tile of its pseudojet, and touches nothing else. -/
theorem initTiles_fold_spec :
    ∀ (L : List (ℕ × PJD)) (s0 s1 : ClusterGeomTile),
      L.foldlM initTilesStep s0 = some s1 →
      (L.map Prod.fst).Nodup →
      (∀ np ∈ L, ∀ r c, np.1 ∉ s0.tiles r c) →
      s1.pseudojets = s0.pseudojets ∧ s1.distance = s0.distance ∧
      (∀ np ∈ L, (tile_coord np.2.pseudojet).isSome) ∧
      (∀ r c x,
        ((∃ p, (x, p) ∈ L ∧ tile_coord p.pseudojet = some (r, c)) →
          (s1.tiles r c).count x = (s0.tiles r c).count x + 1) ∧
        (¬(∃ p, (x, p) ∈ L ∧ tile_coord p.pseudojet = some (r, c)) →
          (s1.tiles r c).count x = (s0.tiles r c).count x)) := by
  intro L
  induction L with
  | nil =>
    intro s0 s1 h _ _
    rw [List.foldlM_nil] at h
    cases h
    refine ⟨rfl, rfl, by simp, ?_⟩
    intro r c x
    constructor
    · rintro ⟨p, hp, -⟩
      exact absurd hp (List.not_mem_nil _)
    · intro _
      rfl
  | cons np L ih =>
    intro s0 s1 h hnodup habsent
    rw [List.foldlM_cons] at h
    simp only [Option.bind_eq_bind, Option.bind_eq_some] at h
    obtain ⟨w, hw, hrest⟩ := h
    unfold initTilesStep at hw
    simp only [Option.bind_eq_bind, Option.bind_eq_some, Option.pure_def,
      Option.some.injEq] at hw
    obtain ⟨rc, hrc, hwdef⟩ := hw
    obtain ⟨r0, c0⟩ := rc
    dsimp only at hwdef
    have hnd1 : np.1 ∉ L.map Prod.fst := by
      simp only [List.map_cons, List.nodup_cons] at hnodup
      exact hnodup.1
    have hnd2 : (L.map Prod.fst).Nodup := by
      simp only [List.map_cons, List.nodup_cons] at hnodup
      exact hnodup.2
    have habs_np : ∀ r c, np.1 ∉ s0.tiles r c :=
      habsent np (List.mem_cons_self _ _)
    have hwt : ∀ r c, w.tiles r c =
        if r = r0 ∧ c = c0 then idxInsert (s0.tiles r0 c0) np.1 else s0.tiles r c := by
      intro r c
      rw [← hwdef]
      dsimp only
      by_cases hcell : r = r0 ∧ c = c0
      · rw [if_pos hcell]
        obtain ⟨h1, h2⟩ := hcell
        subst h1
        subst h2
        exact updTiles_same _ _ _ _
      · rw [if_neg hcell]
        exact updTiles_other _ _ _ _ hcell
    have habs' : ∀ np' ∈ L, ∀ r c, np'.1 ∉ w.tiles r c := by
      intro np' hnp' r c hmem
      rw [hwt] at hmem
      by_cases hcell : r = r0 ∧ c = c0
      · rw [if_pos hcell] at hmem
        rcases idxInsert_mem hmem with h1 | h1
        · exact habsent np' (List.mem_cons_of_mem _ hnp') r0 c0 h1
        · apply hnd1
          rw [← h1]
          exact List.mem_map_of_mem Prod.fst hnp'
      · rw [if_neg hcell] at hmem
        exact habsent np' (List.mem_cons_of_mem _ hnp') r c hmem
    obtain ⟨hps, hd, hsome, hcount⟩ := ih w s1 hrest hnd2 habs'
    have hwps : w.pseudojets = s0.pseudojets := by rw [← hwdef]
    have hwd : w.distance = s0.distance := by rw [← hwdef]
    refine ⟨hps.trans hwps, hd.trans hwd, ?_, ?_⟩
    · intro np' hnp'
      rcases List.mem_cons.mp hnp' with h1 | h1
      · rw [h1, hrc]
        rfl
      · exact hsome np' h1
    · intro r c x
      have hw_cnt : (w.tiles r c).count x =
          (s0.tiles r c).count x + (if x = np.1 ∧ r = r0 ∧ c = c0 then 1 else 0) := by
        rw [hwt]
        by_cases hcell : r = r0 ∧ c = c0
        · rw [if_pos hcell]
          obtain ⟨h1, h2⟩ := hcell
          subst h1
          subst h2
          rw [idxInsert_count (habs_np _ _) x]
          by_cases hy : x = np.1
          · rw [if_pos hy, if_pos ⟨hy, rfl, rfl⟩]
          · rw [if_neg hy, if_neg (fun hcon => hy hcon.1)]
        · rw [if_neg hcell, if_neg (fun hcon => hcell ⟨hcon.2.1, hcon.2.2⟩)]
          omega
      constructor
      · rintro ⟨p, hp, hcoord⟩
        rcases List.mem_cons.mp hp with h1 | h1
        · have hx : x = np.1 := congrArg Prod.fst h1
          have hpp : p = np.2 := congrArg Prod.snd h1
          rw [hpp, hrc] at hcoord
          injection hcoord with h2
          rw [Prod.mk.injEq] at h2
          obtain ⟨hr0, hc0⟩ := h2
          have hnotL : ¬∃ p', (x, p') ∈ L ∧ tile_coord p'.pseudojet = some (r, c) := by
            rintro ⟨p', hp', -⟩
            apply hnd1
            exact List.mem_map.mpr ⟨(x, p'), hp', hx⟩
          rw [(hcount r c x).2 hnotL, hw_cnt, if_pos ⟨hx, hr0.symm, hc0.symm⟩]
        · have hxne : ¬(x = np.1) := by
            intro hx
            apply hnd1
            exact List.mem_map.mpr ⟨(x, p), h1, hx⟩
          rw [(hcount r c x).1 ⟨p, h1, hcoord⟩, hw_cnt,
            if_neg (fun hcon => hxne hcon.1)]
      · intro hnot
        have hnotL : ¬∃ p', (x, p') ∈ L ∧ tile_coord p'.pseudojet = some (r, c) :=
          fun ⟨p', h1, h2⟩ => hnot ⟨p', List.mem_cons_of_mem _ h1, h2⟩
        have hnothead : ¬(x = np.1 ∧ r = r0 ∧ c = c0) := by
          rintro ⟨h1, h2, h3⟩
          apply hnot
          refine ⟨np.2, ?_, ?_⟩
          · rw [h1]
            exact Prod.mk.eta ▸ List.mem_cons_self np L
          · rw [hrc, h2, h3]
        rw [(hcount r c x).2 hnotL, hw_cnt, if_neg hnothead]
        omega

/-- `ClusterGeomTile::new` establishes the tile-grid partition whenever it
succeeds. -/
theorem new_tile_partition {partons : List PseudoJet} {d : Distance}
    {st : ClusterGeomTile} (h : ClusterGeomTile.new partons d = some st) :
    tilePartition st := by
  unfold ClusterGeomTile.new at h
  simp only [Option.bind_eq_bind, Option.bind_eq_some] at h
  obtain ⟨stA, hA, hB⟩ := h
  unfold ClusterGeomTile.init_tiles at hA
  obtain ⟨hps, hd, hsome, hcount⟩ := initTiles_fold_spec _ _ stA hA
    (by rw [List.enum_map_fst]; exact List.nodup_range _)
    (by intro np _ r c hmem; exact List.not_mem_nil _ hmem)
  have hpartA : tilePartition stA := by
    constructor
    · intro r hr c hc x hx
      have hpos : 0 < (stA.tiles r c).count x := List.count_pos_iff.mpr hx
      by_cases hex : ∃ p, (x, p) ∈ (List.map (fun p => PJD.newTile p d) partons).enum ∧
          tile_coord p.pseudojet = some (r, c)
      · obtain ⟨p, hp, -⟩ := hex
        have h2 := List.mem_enum_iff_getElem?.mp hp
        obtain ⟨hlt, -⟩ := List.getElem?_eq_some_iff.mp h2
        rw [hps]
        exact hlt
      · rw [(hcount r c x).2 hex] at hpos
        simp at hpos
    · intro i hi
      rw [hps] at hi
      have hmem : (i, (List.map (fun p => PJD.newTile p d) partons)[i]) ∈
          (List.map (fun p => PJD.newTile p d) partons).enum :=
        List.mem_enum_iff_getElem?.mpr (List.getElem?_eq_getElem hi)
      have hg : gnthD stA.pseudojets i =
          (List.map (fun p => PJD.newTile p d) partons)[i] := by
        rw [hps]
        unfold gnthD
        rw [List.getD_eq_getElem _ _ hi]
      have hs := hsome _ hmem
      obtain ⟨rc, hrc⟩ := Option.isSome_iff_exists.mp hs
      obtain ⟨ri, ci⟩ := rc
      constructor
      · rw [hg, hrc]
        rfl
      · intro r hr c hc
        rw [hg, hrc]
        simp only [Option.getD_some]
        by_cases hcell : (ri, ci) = (r, c)
        · rw [if_pos hcell]
          have h2 := (hcount r c i).1 ⟨_, hmem, by rw [hrc, hcell]⟩
          rw [h2]
          rfl
        · rw [if_neg hcell]
          have h2 := (hcount r c i).2 ?_
          · rw [h2]
            rfl
          · rintro ⟨p, hp, hco⟩
            have h3 := List.mem_enum_iff_getElem?.mp hp
            rw [List.getElem?_eq_getElem hi] at h3
            have h4 : p = (List.map (fun p => PJD.newTile p d) partons)[i] :=
              (Option.some.inj h3).symm
            rw [h4] at hco
            rw [hco] at hrc
            exact hcell (Option.some.inj hrc.symm)
  obtain ⟨ht, hd2, hk⟩ := init_nearest_keep hB
  exact tilePartition_keep ht hk hpartA

/-- Endgame of the distinct-tile `swap` preservation proof: given the final
record list (four-momenta preserved slotwise) and the four tile-cell updates,
the partition holds for the swapped state. -/
theorem swap_tiles_partition_core
    (st : ClusterGeomTile) (i j ri ci rj cj : ℕ) (v4 : List PJD) (a b : PJD)
    (hpart : tilePartition st)
    (hil : i < st.pseudojets.length) (hjl : j < st.pseudojets.length)
    (hij : i ≠ j)
    (hci : tile_coord (gnthD st.pseudojets i).pseudojet = some (ri, ci))
    (hcj : tile_coord (gnthD st.pseudojets j).pseudojet = some (rj, cj))
    (hne : (ri, ci) ≠ (rj, cj))
    (kk : pjKeep st.pseudojets v4)
    (ha : v4.get? i = some a) (hb : v4.get? j = some b) :
    tilePartition { st with
      pseudojets := (v4.set i b).set j a
      tiles := updTiles (updTiles (updTiles (updTiles st.tiles ri ci
        (fun l => idxSwapRemove l i)) ri ci (fun l => idxInsert l j)) rj cj
        (fun l => idxSwapRemove l j)) rj cj (fun l => idxInsert l i) } := by
  have hlen4 : v4.length = st.pseudojets.length := kk.1
  have hapj : a.pseudojet = (gnthD st.pseudojets i).pseudojet := by
    rw [← gnthD_of_get? ha, kk.2 i]
  have hbpj : b.pseudojet = (gnthD st.pseudojets j).pseudojet := by
    rw [← gnthD_of_get? hb, kk.2 j]
  have hriB := tile_coord_lt hci
  have hrjB := tile_coord_lt hcj
  have hne1 : ¬(ri = rj ∧ ci = cj) := by
    rintro ⟨h1, h2⟩
    exact hne (by rw [h1, h2])
  have hne2 : ¬(rj = ri ∧ cj = ci) := by
    rintro ⟨h1, h2⟩
    exact hne (by rw [h1, h2])
  have hcnt_i : ∀ r, r < N_RAP_BINS → ∀ c, c < N_PHI_BINS →
      (st.tiles r c).count i = if (ri, ci) = (r, c) then 1 else 0 := by
    intro r hr c hc
    have h2 := (hpart.2 i hil).2 r hr c hc
    rw [hci] at h2
    simpa using h2
  have hcnt_j : ∀ r, r < N_RAP_BINS → ∀ c, c < N_PHI_BINS →
      (st.tiles r c).count j = if (rj, cj) = (r, c) then 1 else 0 := by
    intro r hr c hc
    have h2 := (hpart.2 j hjl).2 r hr c hc
    rw [hcj] at h2
    simpa using h2
  have hmem_i : i ∈ st.tiles ri ci := by
    apply List.count_pos_iff.mp
    rw [hcnt_i ri hriB.1 ci hriB.2, if_pos rfl]
    omega
  have hmem_j : j ∈ st.tiles rj cj := by
    apply List.count_pos_iff.mp
    rw [hcnt_j rj hrjB.1 cj hrjB.2, if_pos rfl]
    omega
  have hnm_j_ri : j ∉ idxSwapRemove (st.tiles ri ci) i := by
    intro hmem
    have h2 := List.count_pos_iff.mpr hmem
    rw [idxSwapRemove_count hmem_i j, if_neg (fun he => hij he.symm)] at h2
    rw [hcnt_j ri hriB.1 ci hriB.2, if_neg (fun he => hne he.symm)] at h2
    omega
  have hnm_i_rj : i ∉ idxSwapRemove (st.tiles rj cj) j := by
    intro hmem
    have h2 := List.count_pos_iff.mpr hmem
    rw [idxSwapRemove_count hmem_j i, if_neg hij] at h2
    rw [hcnt_i rj hrjB.1 cj hrjB.2, if_neg hne] at h2
    omega
  have cell_ri : updTiles (updTiles (updTiles (updTiles st.tiles ri ci
        (fun l => idxSwapRemove l i)) ri ci (fun l => idxInsert l j)) rj cj
        (fun l => idxSwapRemove l j)) rj cj (fun l => idxInsert l i) ri ci =
      idxInsert (idxSwapRemove (st.tiles ri ci) i) j := by
    rw [updTiles_other _ _ _ _ hne1, updTiles_other _ _ _ _ hne1,
      updTiles_same, updTiles_same]
  have cell_rj : updTiles (updTiles (updTiles (updTiles st.tiles ri ci
        (fun l => idxSwapRemove l i)) ri ci (fun l => idxInsert l j)) rj cj
        (fun l => idxSwapRemove l j)) rj cj (fun l => idxInsert l i) rj cj =
      idxInsert (idxSwapRemove (st.tiles rj cj) j) i := by
    rw [updTiles_same, updTiles_same,
      updTiles_other _ _ _ _ hne2, updTiles_other _ _ _ _ hne2]
  have cell_oth : ∀ r c, ¬(r = ri ∧ c = ci) → ¬(r = rj ∧ c = cj) →
      updTiles (updTiles (updTiles (updTiles st.tiles ri ci
        (fun l => idxSwapRemove l i)) ri ci (fun l => idxInsert l j)) rj cj
        (fun l => idxSwapRemove l j)) rj cj (fun l => idxInsert l i) r c =
      st.tiles r c := by
    intro r c h1 h2
    rw [updTiles_other _ _ _ _ h2, updTiles_other _ _ _ _ h2,
      updTiles_other _ _ _ _ h1, updTiles_other _ _ _ _ h1]
  have ncnt_ri : ∀ y, (idxInsert (idxSwapRemove (st.tiles ri ci) i) j).count y =
      ((st.tiles ri ci).count y - (if y = i then 1 else 0)) +
        (if y = j then 1 else 0) := by
    intro y
    rw [idxInsert_count hnm_j_ri y, idxSwapRemove_count hmem_i y]
  have ncnt_rj : ∀ y, (idxInsert (idxSwapRemove (st.tiles rj cj) j) i).count y =
      ((st.tiles rj cj).count y - (if y = j then 1 else 0)) +
        (if y = i then 1 else 0) := by
    intro y
    rw [idxInsert_count hnm_i_rj y, idxSwapRemove_count hmem_j y]
  have hlen2 : ((v4.set i b).set j a).length = st.pseudojets.length := by
    rw [List.length_set, List.length_set, hlen4]
  have g_i : gnthD ((v4.set i b).set j a) i = b := by
    rw [gnthD_set_ne (fun he => hij he.symm), gnthD_set_self (by rw [hlen4]; exact hil)]
  have g_j : gnthD ((v4.set i b).set j a) j = a :=
    gnthD_set_self (by rw [List.length_set, hlen4]; exact hjl)
  have g_k : ∀ k, k ≠ i → k ≠ j → gnthD ((v4.set i b).set j a) k = gnthD v4 k := by
    intro k hki hkj
    rw [gnthD_set_ne (fun he => hkj he.symm), gnthD_set_ne (fun he => hki he.symm)]
  constructor
  · intro r hr c hc x hx
    dsimp only at hx
    dsimp only
    rw [hlen2]
    by_cases hcell1 : r = ri ∧ c = ci
    · rw [hcell1.1, hcell1.2, cell_ri] at hx
      rcases idxInsert_mem hx with h1 | h1
      · exact hpart.1 ri hriB.1 ci hriB.2 x (idxSwapRemove_mem h1)
      · rw [h1]
        exact hjl
    · by_cases hcell2 : r = rj ∧ c = cj
      · rw [hcell2.1, hcell2.2, cell_rj] at hx
        rcases idxInsert_mem hx with h1 | h1
        · exact hpart.1 rj hrjB.1 cj hrjB.2 x (idxSwapRemove_mem h1)
        · rw [h1]
          exact hil
      · rw [cell_oth r c hcell1 hcell2] at hx
        exact hpart.1 r hr c hc x hx
  · intro k hk
    dsimp only at hk
    dsimp only
    rw [hlen2] at hk
    by_cases hki : k = i
    · subst hki
      refine ⟨?_, ?_⟩
      · rw [g_i, hbpj, hcj]
        rfl
      · intro r hr c hc
        rw [g_i, hbpj, hcj]
        simp only [Option.getD_some]
        by_cases hcell1 : r = ri ∧ c = ci
        · rw [hcell1.1, hcell1.2, cell_ri, ncnt_ri,
            hcnt_i ri hriB.1 ci hriB.2, if_pos rfl, if_pos rfl, if_neg hij,
            if_neg (fun he => hne he.symm)]
        · by_cases hcell2 : r = rj ∧ c = cj
          · rw [hcell2.1, hcell2.2, cell_rj, ncnt_rj,
              hcnt_i rj hrjB.1 cj hrjB.2, if_neg hne, if_pos rfl, if_neg hij,
              if_pos rfl]
          · rw [cell_oth r c hcell1 hcell2, hcnt_i r hr c hc,
              if_neg (fun he => hcell1 ⟨(congrArg Prod.fst he).symm,
                (congrArg Prod.snd he).symm⟩),
              if_neg (fun he => hcell2 ⟨(congrArg Prod.fst he).symm,
                (congrArg Prod.snd he).symm⟩)]
    · by_cases hkj : k = j
      · subst hkj
        refine ⟨?_, ?_⟩
        · rw [g_j, hapj, hci]
          rfl
        · intro r hr c hc
          rw [g_j, hapj, hci]
          simp only [Option.getD_some]
          by_cases hcell1 : r = ri ∧ c = ci
          · rw [hcell1.1, hcell1.2, cell_ri, ncnt_ri,
              hcnt_j ri hriB.1 ci hriB.2, if_neg (fun he => hne he.symm),
              if_neg (fun he => hij he.symm), if_pos rfl, if_pos rfl]
          · by_cases hcell2 : r = rj ∧ c = cj
            · rw [hcell2.1, hcell2.2, cell_rj, ncnt_rj,
                hcnt_j rj hrjB.1 cj hrjB.2, if_pos rfl, if_pos rfl,
                if_neg (fun he => hij he.symm), if_neg hne]
            · rw [cell_oth r c hcell1 hcell2, hcnt_j r hr c hc,
                if_neg (fun he => hcell2 ⟨(congrArg Prod.fst he).symm,
                  (congrArg Prod.snd he).symm⟩),
                if_neg (fun he => hcell1 ⟨(congrArg Prod.fst he).symm,
                  (congrArg Prod.snd he).symm⟩)]
      · refine ⟨?_, ?_⟩
        · rw [g_k k hki hkj, kk.2 k]
          exact ((hpart.2 k hk).1)
        · intro r hr c hc
          rw [g_k k hki hkj, kk.2 k]
          have hold := (hpart.2 k hk).2 r hr c hc
          by_cases hcell1 : r = ri ∧ c = ci
          · rw [hcell1.1, hcell1.2] at hold ⊢
            rw [cell_ri, ncnt_ri, if_neg hki, if_neg hkj]
            simp only [Nat.sub_zero, Nat.add_zero]
            exact hold
          · by_cases hcell2 : r = rj ∧ c = cj
            · rw [hcell2.1, hcell2.2] at hold ⊢
              rw [cell_rj, ncnt_rj, if_neg hkj, if_neg hki]
              simp only [Nat.sub_zero, Nat.add_zero]
              exact hold
            · rw [cell_oth r c hcell1 hcell2]
              exact hold

/-- `ClusterGeomTile::swap` preserves the tile-grid partition when the two
swapped pseudojets lie in distinct tiles. -/
theorem swap_distinct_tile_partition {st st' : ClusterGeomTile} {i j ri ci rj cj : ℕ}
    (hpart : tilePartition st)
    (hci : tile_coord (gnthD st.pseudojets i).pseudojet = some (ri, ci))
    (hcj : tile_coord (gnthD st.pseudojets j).pseudojet = some (rj, cj))
    (hne : (ri, ci) ≠ (rj, cj))
    (hswap : ClusterGeomTile.swap st i j = some st') :
    tilePartition st' := by
  have hij : i ≠ j := by
    intro he
    subst he
    rw [hci] at hcj
    exact hne (Option.some.inj hcj)
  unfold ClusterGeomTile.swap at hswap
  by_cases hrange : i < st.pseudojets.length ∧ j < st.pseudojets.length
  case neg =>
    rw [if_neg hrange] at hswap
    cases hswap
  rw [if_pos hrange, if_neg hij] at hswap
  obtain ⟨hil, hjl⟩ := hrange
  simp only [Option.bind_eq_bind, Option.bind_eq_some, Option.pure_def,
    Option.some.injEq] at hswap
  obtain ⟨vi, hvi, hswap⟩ := hswap
  obtain ⟨vj, hvj, hswap⟩ := hswap
  have hgi : gnthD st.pseudojets i = vi := gnthD_of_get? hvi
  have hgj : gnthD st.pseudojets j = vj := gnthD_of_get? hvj
  have hci' : tile_coord vi.pseudojet = some (ri, ci) := by
    rw [← hgi]
    exact hci
  have hcj' : tile_coord vj.pseudojet = some (rj, cj) := by
    rw [← hgj]
    exact hcj
  obtain ⟨rci, hrci, hswap⟩ := hswap
  have heqi : rci = (ri, ci) := Option.some.inj (hrci.symm.trans hci')
  subst heqi
  obtain ⟨rcj, hrcj, hswap⟩ := hswap
  have heqj : rcj = (rj, cj) := Option.some.inj (hrcj.symm.trans hcj')
  subst heqj
  dsimp only at hswap
  obtain ⟨v1, hv1, hswap⟩ := hswap
  obtain ⟨v2, hv2, hswap⟩ := hswap
  have k1 : pjKeep st.pseudojets v1 := setNNIsT_keep _ _ _ _ hv1
  have k2 : pjKeep v1 v2 := setNNIsT_keep _ _ _ _ hv2
  have kk0 : pjKeep st.pseudojets v2 := pjKeep_trans k1 k2
  split at hswap
  · simp only [Option.bind_eq_bind, Option.bind_eq_some, Option.some.injEq] at hswap
    obtain ⟨v3, hv3, hswap⟩ := hswap
    have k3 : pjKeep v2 v3 := replNNFEntry_keep hv3
    split at hswap
    · simp only [Option.bind_eq_bind, Option.bind_eq_some, Option.some.injEq] at hswap
      obtain ⟨v4, hv4, a, ha, b, hb, hst'⟩ := hswap
      have k4 : pjKeep v3 v4 := replNNFEntry_keep hv4
      rw [← hst']
      exact swap_tiles_partition_core st i j ri ci rj cj v4 a b hpart hil hjl hij
        hci hcj hne (pjKeep_trans kk0 (pjKeep_trans k3 k4)) ha hb
    · simp only [Option.some_bind, Option.bind_eq_some, Option.some.injEq] at hswap
      obtain ⟨a, ha, b, hb, hst'⟩ := hswap
      rw [← hst']
      exact swap_tiles_partition_core st i j ri ci rj cj v3 a b hpart hil hjl hij
        hci hcj hne (pjKeep_trans kk0 k3) ha hb
  · simp only [Option.some_bind, Option.bind_eq_bind, Option.bind_eq_some,
      Option.some.injEq] at hswap
    split at hswap
    · simp only [Option.bind_eq_bind, Option.bind_eq_some, Option.some.injEq] at hswap
      obtain ⟨v4, hv4, a, ha, b, hb, hst'⟩ := hswap
      have k4 : pjKeep v2 v4 := replNNFEntry_keep hv4
      rw [← hst']
      exact swap_tiles_partition_core st i j ri ci rj cj v4 a b hpart hil hjl hij
        hci hcj hne (pjKeep_trans kk0 k4) ha hb
    · simp only [Option.bind_eq_bind, Option.bind_eq_some, Option.some.injEq] at hswap
      obtain ⟨a, ha, b, hb, hst'⟩ := hswap
      rw [← hst']
      exact swap_tiles_partition_core st i j ri ci rj cj v2 a b hpart hil hjl hij
        hci hcj hne kk0 ha hb

/-! ## Reverse-adjacency lemmas (geometric engine) -/

theorem gnthD_dropLast {v : List PJD} {k : ℕ} (h : k < v.length - 1) :
    gnthD v.dropLast k = gnthD v k := by
  unfold gnthD
  rw [List.getD_eq_getElem?_getD, List.getD_eq_getElem?_getD,
    List.getElem?_dropLast, if_pos h]

theorem get?_lt {v : List PJD} {i : ℕ} {r : PJD} (h : v.get? i = some r) :
    i < v.length := by
  rw [List.get?_eq_getElem?] at h
  exact (List.getElem?_eq_some_iff.mp h).1

/-- Effect of the pointer-renaming loop `setNNIs`: only the
`nearest_neighbour_idx` of the listed records changes, to `newval`. -/
theorem setNNIs_spec :
    ∀ (idxs : List ℕ) (v v' : List PJD) (newval : ℕ),
      setNNIs v idxs newval = some v' →
      v'.length = v.length ∧
      (∀ k, nnfOf v' k = nnfOf v k) ∧
      (∀ k, k ∈ idxs → nniOf v' k = newval) ∧
      (∀ k, k ∉ idxs → nniOf v' k = nniOf v k) := by
  intro idxs
  induction idxs with
  | nil =>
    intro v v' newval h
    unfold setNNIs at h
    rw [List.foldlM_nil] at h
    cases h
    exact ⟨rfl, fun _ => rfl, fun k hk => absurd hk (List.not_mem_nil _), fun _ _ => rfl⟩
  | cons i is ih =>
    intro v v' newval h
    unfold setNNIs at h
    rw [List.foldlM_cons] at h
    simp only [Option.bind_eq_bind, Option.bind_eq_some, Option.pure_def,
      Option.some.injEq] at h
    obtain ⟨w, ⟨r, hr, hrw⟩, hrest⟩ := h
    have hil : i < v.length := get?_lt hr
    have hgr : gnthD v i = r := gnthD_of_get? hr
    have hw := ih w v' newval hrest
    have hwlen : w.length = v.length := by
      rw [← hrw]
      exact List.length_set v i _
    have hwnnf : ∀ k, nnfOf w k = nnfOf v k := by
      intro k
      rw [← hrw]
      unfold nnfOf
      by_cases hk : i = k
      · subst hk
        rw [gnthD_set_self hil, hgr]
      · rw [gnthD_set_ne hk]
    have hwnni_i : nniOf w i = newval := by
      rw [← hrw]
      unfold nniOf
      rw [gnthD_set_self hil]
    have hwnni_o : ∀ k, k ≠ i → nniOf w k = nniOf v k := by
      intro k hk
      rw [← hrw]
      unfold nniOf
      rw [gnthD_set_ne (fun he => hk he.symm)]
    refine ⟨hw.1.trans hwlen, fun k => (hw.2.1 k).trans (hwnnf k), ?_, ?_⟩
    · intro k hk
      by_cases hkis : k ∈ is
      · exact hw.2.2.1 k hkis
      · have hki : k = i := by
          rcases List.mem_cons.mp hk with h1 | h1
          · exact h1
          · exact absurd h1 hkis
        rw [hw.2.2.2 k hkis, hki, hwnni_i]
    · intro k hk
      have hki : k ≠ i := fun he => hk (he ▸ List.mem_cons_self i is)
      have hkis : k ∉ is := fun he => hk (List.mem_cons_of_mem _ he)
      rw [hw.2.2.2 k hkis, hwnni_o k hki]

/-- Effect of `replNNFEntry`: the reverse list of record `m` exchanges one
`oldv` entry for a `newv` entry; nothing else changes. -/
theorem replNNFEntry_spec {v v' : List PJD} {m oldv newv : ℕ}
    (h : replNNFEntry v m oldv newv = some v') :
    v'.length = v.length ∧ m < v.length ∧
    (∀ k, nniOf v' k = nniOf v k) ∧
    (∀ k, k ≠ m → nnfOf v' k = nnfOf v k) ∧
    oldv ∈ nnfOf v m ∧
    (∀ y, (nnfOf v' m).count y =
      (nnfOf v m).count y - (if y = oldv then 1 else 0) +
        (if y = newv then 1 else 0)) := by
  unfold replNNFEntry at h
  simp only [Option.bind_eq_bind, Option.bind_eq_some, Option.pure_def,
    Option.some.injEq] at h
  obtain ⟨r, hr, idx, hidx, hv'⟩ := h
  have hml : m < v.length := get?_lt hr
  have hgr : gnthD v m = r := gnthD_of_get? hr
  obtain ⟨hidxl, hpidx, -⟩ := List.findIdx?_eq_some_iff_getElem.mp hidx
  have hold : r.nearest_neighbour_for[idx] = oldv := by simpa using hpidx
  refine ⟨by rw [← hv']; exact List.length_set v m _, hml, ?_, ?_, ?_, ?_⟩
  · intro k
    rw [← hv']
    unfold nniOf
    by_cases hk : m = k
    · subst hk
      rw [gnthD_set_self hml, hgr]
    · rw [gnthD_set_ne hk]
  · intro k hk
    rw [← hv']
    unfold nnfOf
    rw [gnthD_set_ne (fun he => hk he.symm)]
  · unfold nnfOf
    rw [hgr, ← hold]
    exact List.getElem_mem hidxl
  · intro y
    rw [← hv']
    unfold nnfOf
    rw [gnthD_set_self hml]
    show (r.nearest_neighbour_for.set idx newv).count y = _
    rw [hgr]
    have hcs := List.count_set newv y r.nearest_neighbour_for idx hidxl
    rw [hold] at hcs
    rw [hcs]
    simp only [beq_iff_eq]
    by_cases h1 : y = oldv
    · rw [if_pos h1.symm, if_pos h1]
      by_cases h2 : y = newv
      · rw [if_pos h2.symm, if_pos h2]
      · rw [if_neg (fun he => h2 he.symm), if_neg h2]
    · rw [if_neg (fun he => h1 he.symm), if_neg h1]
      by_cases h2 : y = newv
      · rw [if_pos h2.symm, if_pos h2]
      · rw [if_neg (fun he => h2 he.symm), if_neg h2]

theorem scanFoldAux (v : List PJD) (pos : ℕ) :
    ∀ (ks : List ℕ) (acc : NF × ℕ),
      (ks.foldl (fun (acc : NF × ℕ) x =>
        if (gnthD v pos).delta_r2 (gnthD v x) < acc.1
        then ((gnthD v pos).delta_r2 (gnthD v x), x) else acc) acc).2 = acc.2 ∨
      (ks.foldl (fun (acc : NF × ℕ) x =>
        if (gnthD v pos).delta_r2 (gnthD v x) < acc.1
        then ((gnthD v pos).delta_r2 (gnthD v x), x) else acc) acc).2 ∈ ks := by
  intro ks
  induction ks with
  | nil =>
    intro acc
    left
    rfl
  | cons x xs ih =>
    intro acc
    rw [List.foldl_cons]
    rcases ih (if (gnthD v pos).delta_r2 (gnthD v x) < acc.1
        then ((gnthD v pos).delta_r2 (gnthD v x), x) else acc) with h | h
    · rw [h]
      by_cases hc : (gnthD v pos).delta_r2 (gnthD v x) < acc.1
      · rw [if_pos hc]
        right
        exact List.mem_cons_self _ _
      · rw [if_neg hc]
        left
        rfl
    · right
      exact List.mem_cons_of_mem _ h

theorem mem_others_spec {len pos k : ℕ}
    (hk : k ∈ List.range pos ++ (List.range len).drop (pos + 1)) :
    k < len ∧ k ≠ pos ∨ (k < pos ∧ pos > len) := by
  rcases List.mem_append.mp hk with h1 | h1
  · have h2 := List.mem_range.mp h1
    by_cases hp : pos ≤ len
    · exact Or.inl ⟨by omega, by omega⟩
    · exact Or.inr ⟨h2, by omega⟩
  · obtain ⟨n, hn, h2⟩ := List.mem_iff_getElem.mp h1
    rw [List.getElem_drop] at h2
    rw [List.getElem_range] at h2
    have h3 : (List.drop (pos + 1) (List.range len)).length =
        (List.range len).length - (pos + 1) := List.length_drop _ _
    rw [List.length_range] at h3
    left
    omega

/-- The rescan of `update_nearest_at_idx` yields the sentinel or a distinct
active index. -/
theorem scanAllOthers_spec (v : List PJD) (pos : ℕ) (hpos : pos < v.length) :
    scanAllOthers v pos = usizeMAX ∨
    (scanAllOthers v pos < v.length ∧ scanAllOthers v pos ≠ pos) := by
  unfold scanAllOthers
  dsimp only
  split
  · left
    rfl
  · next k ks heq =>
    have hmem : ∀ y, y ∈ List.range pos ++ (List.range v.length).drop (pos + 1) →
        y < v.length ∧ y ≠ pos := by
      intro y hy
      rcases mem_others_spec hy with h1 | h1
      · exact h1
      · omega
    rcases scanFoldAux v pos ks ((gnthD v pos).delta_r2 (gnthD v k), k) with h | h
    · rw [h]
      right
      exact hmem k (by rw [heq]; exact List.mem_cons_self _ _)
    · right
      exact hmem _ (by rw [heq]; exact List.mem_cons_of_mem _ h)

/-- The init-time scan yields the sentinel or a distinct active index. -/
theorem scanNearestInit_spec (v : List PJD) (pos : ℕ) (hpos : pos < v.length) :
    (scanNearestInit v pos).2 = usizeMAX ∨
    ((scanNearestInit v pos).2 < v.length ∧ (scanNearestInit v pos).2 ≠ pos) := by
  unfold scanNearestInit
  rcases scanFoldAux v pos (List.range pos ++ (List.range v.length).drop (pos + 1))
      (NF.num f64MAX, usizeMAX) with h | h
  · rw [h]
    left
    rfl
  · rcases mem_others_spec h with h1 | h1
    · right
      exact h1
    · omega

theorem count_append_single (l : List ℕ) (x y : ℕ) :
    (l ++ [x]).count y = l.count y + (if y = x then 1 else 0) := by
  rw [List.count_append, List.count_singleton]
  simp only [beq_iff_eq]
  by_cases h : y = x
  · rw [if_pos h.symm, if_pos h]
  · rw [if_neg (fun he => h he.symm), if_neg h]

/-- Effect of `remove_nearest_link`: one occurrence of `x` disappears from
the reverse list of its nearest neighbour, leaving `x` in no reverse list;
forward pointers and all other counts are untouched. -/
theorem remove_nearest_link_spec {st st' : ClusterGeom} {x : ℕ}
    (hI1 : ∀ i, i < st.pseudojets.length → ∀ j, j < st.pseudojets.length →
      (nnfOf st.pseudojets i).count j =
        if nniOf st.pseudojets j = i then 1 else 0)
    (h : st.remove_nearest_link x = some st') :
    st'.pseudojets.length = st.pseudojets.length ∧
    (∀ k, nniOf st'.pseudojets k = nniOf st.pseudojets k) ∧
    (∀ k y, y ≠ x →
      (nnfOf st'.pseudojets k).count y = (nnfOf st.pseudojets k).count y) ∧
    (∀ i, i < st.pseudojets.length → (nnfOf st'.pseudojets i).count x = 0) ∧
    (∀ k y, y ∈ nnfOf st'.pseudojets k → y ∈ nnfOf st.pseudojets k) ∧
    x < st.pseudojets.length := by
  unfold ClusterGeom.remove_nearest_link at h
  split at h
  case isFalse => cases h
  case isTrue hx =>
  simp only [Option.bind_eq_bind, Option.bind_eq_some, Option.pure_def,
    Option.some.injEq] at h
  obtain ⟨vpos, hvpos, h⟩ := h
  have hgx : gnthD st.pseudojets x = vpos := gnthD_of_get? hvpos
  have hnx : nniOf st.pseudojets x = vpos.nearest_neighbour_idx := by
    unfold nniOf
    rw [hgx]
  split at h
  case isTrue hnl =>
    simp only [Option.bind_eq_bind, Option.bind_eq_some, Option.some.injEq] at h
    obtain ⟨vn, hvn, idx, hidx, hst'⟩ := h
    have hgm : gnthD st.pseudojets vpos.nearest_neighbour_idx = vn := gnthD_of_get? hvn
    have hsw : (vn.nearest_neighbour_for.set idx
        (vn.nearest_neighbour_for.getLast?.getD 0)).dropLast =
        idxSwapRemove vn.nearest_neighbour_for x := by
      unfold idxSwapRemove
      rw [hidx]
    obtain ⟨hidxl, hpidx, -⟩ := List.findIdx?_eq_some_iff_getElem.mp hidx
    have hmemx : x ∈ vn.nearest_neighbour_for := by
      have h2 : vn.nearest_neighbour_for[idx] = x := by simpa using hpidx
      rw [← h2]
      exact List.getElem_mem hidxl
    have hc1 : (nnfOf st.pseudojets vpos.nearest_neighbour_idx).count x = 1 := by
      rw [hI1 _ hnl x hx, hnx, if_pos rfl]
    have hnnf' : ∀ k, nnfOf st'.pseudojets k =
        if k = vpos.nearest_neighbour_idx
        then idxSwapRemove vn.nearest_neighbour_for x
        else nnfOf st.pseudojets k := by
      intro k
      rw [← hst']
      unfold nnfOf
      by_cases hk : k = vpos.nearest_neighbour_idx
      · rw [if_pos hk, hk, gnthD_set_self hnl]
        exact hsw
      · rw [if_neg hk, gnthD_set_ne (fun he => hk he.symm)]
    have hnni' : ∀ k, nniOf st'.pseudojets k = nniOf st.pseudojets k := by
      intro k
      rw [← hst']
      unfold nniOf
      by_cases hk : vpos.nearest_neighbour_idx = k
      · rw [← hk, gnthD_set_self hnl, hk, ← hk, hgm]
      · rw [gnthD_set_ne hk]
    have hvnf : nnfOf st.pseudojets vpos.nearest_neighbour_idx =
        vn.nearest_neighbour_for := by
      unfold nnfOf
      rw [hgm]
    refine ⟨by rw [← hst']; exact List.length_set _ _ _, hnni', ?_, ?_, ?_, hx⟩
    · intro k y hy
      rw [hnnf' k]
      by_cases hk : k = vpos.nearest_neighbour_idx
      · rw [if_pos hk, idxSwapRemove_count hmemx y, if_neg hy, hk, hvnf]
        omega
      · rw [if_neg hk]
    · intro i hi
      rw [hnnf' i]
      by_cases hk : i = vpos.nearest_neighbour_idx
      · rw [if_pos hk, idxSwapRemove_count hmemx x, if_pos rfl]
        have hc1a : vn.nearest_neighbour_for.count x = 1 := by
          rw [← hvnf]
          exact hc1
        omega
      · rw [if_neg hk, hI1 i hi x hx, hnx, if_neg (fun he => hk he.symm)]
    · intro k y hy
      rw [hnnf' k] at hy
      by_cases hk : k = vpos.nearest_neighbour_idx
      · rw [if_pos hk] at hy
        rw [hk, hvnf]
        exact idxSwapRemove_mem hy
      · rw [if_neg hk] at hy
        exact hy
  case isFalse hnl =>
    cases h
    refine ⟨rfl, fun _ => rfl, fun _ _ _ => rfl, ?_, fun _ _ hy => hy, hx⟩
    intro i hi
    rw [hI1 i hi x hx, hnx, if_neg (fun he => hnl (by rw [he]; exact hi))]

/-- Effect of `update_nearest_at_idx`: the core invariant is preserved, only
`x`'s forward pointer changes, and its new value is active or the sentinel. -/
theorem update_at_idx_spec {st st' : ClusterGeom} {x : ℕ}
    (hc : geomCore st.pseudojets)
    (h : st.update_nearest_at_idx x = some st') :
    geomCore st'.pseudojets ∧
    st'.pseudojets.length = st.pseudojets.length ∧
    (∀ k, k ≠ x → nniOf st'.pseudojets k = nniOf st.pseudojets k) ∧
    (nniOf st'.pseudojets x < st.pseudojets.length ∨
      nniOf st'.pseudojets x = usizeMAX) ∧
    x < st.pseudojets.length := by
  obtain ⟨h0, hI1, hI2, hI4⟩ := hc
  unfold ClusterGeom.update_nearest_at_idx at h
  split at h
  case isFalse => cases h
  case isTrue hx =>
  simp only [Option.bind_eq_bind, Option.bind_eq_some, Option.pure_def,
    Option.some.injEq] at h
  obtain ⟨st1, hrnl, a1, ha1, h⟩ := h
  obtain ⟨hlen1, hnni1, hcnt1, hcnt1x, hmem1, -⟩ := remove_nearest_link_spec hI1 hrnl
  have hx1 : x < st1.pseudojets.length := by omega
  have hga1 : gnthD st1.pseudojets x = a1 := gnthD_of_get? ha1
  have hscan := scanAllOthers_spec st1.pseudojets x hx1
  set n := scanAllOthers st1.pseudojets x with hndef
  have hI1s : ∀ i, i < st1.pseudojets.length → ∀ j, j < st1.pseudojets.length →
      j ≠ x → (nnfOf st1.pseudojets i).count j =
        if nniOf st1.pseudojets j = i then 1 else 0 := by
    intro i hi j hj hjx
    rw [hcnt1 i j hjx, hnni1 j]
    exact hI1 i (by omega) j (by omega)
  have hI2s : ∀ i, i < st1.pseudojets.length → ∀ y ∈ nnfOf st1.pseudojets i,
      y < st1.pseudojets.length := by
    intro i hi y hy
    rw [hlen1]
    exact hI2 i (by omega) y (hmem1 i y hy)
  split at h
  case isTrue hlt =>
    split at h
    case isTrue hltlen =>
      simp only [Option.bind_eq_bind, Option.bind_eq_some, Option.some.injEq] at h
      obtain ⟨vn, hvn, vpos2, hvpos2, vn2, hvn2, hst'⟩ := h
      have hnn : n < st1.pseudojets.length ∧ n ≠ x := by
        rcases hscan with h1 | h1
        · omega
        · exact h1
      obtain ⟨hnlen, hnx⟩ := hnn
      have hgvn : gnthD st1.pseudojets n = vn := by
        have h2 := gnthD_of_get? hvn
        rw [gnthD_set_ne (fun he => hnx he.symm)] at h2
        exact h2
      have hvpos2eq : vpos2 = { a1 with nearest_neighbour_idx := n } := by
        have h2 := gnthD_of_get? hvpos2
        rw [gnthD_set_ne hnx, gnthD_set_self hx1] at h2
        exact h2.symm
      have hlen3 : st'.pseudojets.length = st1.pseudojets.length := by
        rw [← hst']
        dsimp only
        simp only [List.length_set]
      have hnnf3x : nnfOf st'.pseudojets x = nnfOf st1.pseudojets x := by
        rw [← hst']
        dsimp only
        unfold nnfOf
        rw [gnthD_set_self (by simp only [List.length_set]; exact hx1)]
        show vpos2.nearest_neighbour_for = _
        rw [hvpos2eq]
        show a1.nearest_neighbour_for = _
        rw [hga1]
      have hnnf3n : nnfOf st'.pseudojets n = nnfOf st1.pseudojets n ++ [x] := by
        rw [← hst']
        dsimp only
        unfold nnfOf
        rw [gnthD_set_ne (fun he => hnx he.symm),
          gnthD_set_self (by simp only [List.length_set]; exact hnlen)]
        show vn.nearest_neighbour_for ++ [x] = _
        rw [hgvn]
      have hnnf3o : ∀ k, k ≠ x → k ≠ n →
          nnfOf st'.pseudojets k = nnfOf st1.pseudojets k := by
        intro k hkx hkn
        rw [← hst']
        dsimp only
        unfold nnfOf
        rw [gnthD_set_ne (fun he => hkx he.symm),
          gnthD_set_ne (fun he => hkn he.symm),
          gnthD_set_ne (fun he => hkx he.symm)]
      have hnni3x : nniOf st'.pseudojets x = n := by
        rw [← hst']
        dsimp only
        unfold nniOf
        rw [gnthD_set_self (by simp only [List.length_set]; exact hx1)]
        show vpos2.nearest_neighbour_idx = n
        rw [hvpos2eq]
      have hnni3o : ∀ k, k ≠ x → nniOf st'.pseudojets k = nniOf st1.pseudojets k := by
        intro k hkx
        rw [← hst']
        dsimp only
        unfold nniOf
        rw [gnthD_set_ne (fun he => hkx he.symm)]
        by_cases hkn : k = n
        · subst hkn
          rw [gnthD_set_self (by simp only [List.length_set]; exact hnlen)]
          show vn.nearest_neighbour_idx = _
          rw [hgvn]
        · rw [gnthD_set_ne (fun he => hkn he.symm),
            gnthD_set_ne (fun he => hkx he.symm)]
      refine ⟨⟨?_, ?_, ?_, ?_⟩, by omega, ?_, ?_, hx⟩
      · rw [hlen3, hlen1]
        exact h0
      · intro i hi j hj
        rw [hlen3] at hi hj
        by_cases hjx : j = x
        · rw [hjx, hnni3x]
          by_cases hin : i = n
          · rw [hin, hnnf3n, count_append_single, hcnt1x n (by omega), if_pos rfl,
              if_pos rfl]
          · by_cases hix : i = x
            · rw [hix, hnnf3x, hcnt1x x (by omega), if_neg hnx]
            · rw [hnnf3o i hix hin, hcnt1x i (by omega),
                if_neg (fun he => hin he.symm)]
        · rw [hnni3o j hjx]
          by_cases hin : i = n
          · subst hin
            rw [hnnf3n, count_append_single, if_neg hjx, Nat.add_zero]
            exact hI1s n hnlen j (by omega) hjx
          · by_cases hix : i = x
            · rw [hix, hnnf3x]
              exact hI1s x hx1 j (by omega) hjx
            · rw [hnnf3o i hix hin]
              exact hI1s i (by omega) j (by omega) hjx
      · intro i hi y hy
        rw [hlen3] at hi
        rw [hlen3, hlen1]
        by_cases hin : i = n
        · subst hin
          rw [hnnf3n] at hy
          rcases List.mem_append.mp hy with h1 | h1
          · have h2 := hI2s n hnlen y h1
            omega
          · rw [List.mem_singleton] at h1
            omega
        · by_cases hix : i = x
          · rw [hix, hnnf3x] at hy
            have h2 := hI2s x hx1 y hy
            omega
          · rw [hnnf3o i hix hin] at hy
            have h2 := hI2s i (by omega) y hy
            omega
      · intro j hj
        rw [hlen3] at hj
        by_cases hjx : j = x
        · rw [hjx, hnni3x]
          exact hnx
        · rw [hnni3o j hjx, hnni1 j]
          exact hI4 j (by omega)
      · intro k hk
        rw [hnni3o k hk, hnni1 k]
      · left
        rw [hnni3x]
        omega
    case isFalse => cases h
  case isFalse hge =>
    simp only [Option.bind_eq_bind, Option.bind_eq_some, Option.some.injEq] at h
    obtain ⟨vpos2, hvpos2, hst'⟩ := h
    have hnus : n = usizeMAX := by
      rcases hscan with h1 | h1
      · exact h1
      · exfalso
        apply hge
        have h2 : n < st1.pseudojets.length := h1.1
        omega
    have hvpos2eq : vpos2 = { a1 with nearest_neighbour_idx := n } := by
      have h2 := gnthD_of_get? hvpos2
      rw [gnthD_set_self hx1] at h2
      exact h2.symm
    have hlen3 : st'.pseudojets.length = st1.pseudojets.length := by
      rw [← hst']
      dsimp only
      simp only [List.length_set]
    have hnnf3 : ∀ k, nnfOf st'.pseudojets k = nnfOf st1.pseudojets k := by
      intro k
      rw [← hst']
      dsimp only
      unfold nnfOf
      by_cases hkx : k = x
      · subst hkx
        rw [gnthD_set_self (by simp only [List.length_set]; exact hx1)]
        show vpos2.nearest_neighbour_for = _
        rw [hvpos2eq]
        show a1.nearest_neighbour_for = _
        rw [hga1]
      · rw [gnthD_set_ne (fun he => hkx he.symm),
          gnthD_set_ne (fun he => hkx he.symm)]
    have hnni3x : nniOf st'.pseudojets x = n := by
      rw [← hst']
      dsimp only
      unfold nniOf
      rw [gnthD_set_self (by simp only [List.length_set]; exact hx1)]
      show vpos2.nearest_neighbour_idx = n
      rw [hvpos2eq]
    have hnni3o : ∀ k, k ≠ x → nniOf st'.pseudojets k = nniOf st1.pseudojets k := by
      intro k hkx
      rw [← hst']
      dsimp only
      unfold nniOf
      rw [gnthD_set_ne (fun he => hkx he.symm),
        gnthD_set_ne (fun he => hkx he.symm)]
    refine ⟨⟨?_, ?_, ?_, ?_⟩, by omega, ?_, ?_, hx⟩
    · rw [hlen3, hlen1]
      exact h0
    · intro i hi j hj
      rw [hlen3] at hi hj
      rw [hnnf3 i]
      by_cases hjx : j = x
      · rw [hjx, hnni3x, hcnt1x i (by omega), if_neg (fun he => by omega)]
      · rw [hnni3o j hjx]
        exact hI1s i (by omega) j (by omega) hjx
    · intro i hi y hy
      rw [hlen3] at hi
      rw [hlen3, hlen1]
      rw [hnnf3 i] at hy
      have h2 := hI2s i (by omega) y hy
      omega
    · intro j hj
      rw [hlen3] at hj
      by_cases hjx : j = x
      · rw [hjx, hnni3x]
        omega
      · rw [hnni3o j hjx, hnni1 j]
        exact hI4 j (by omega)
    · intro k hk
      rw [hnni3o k hk, hnni1 k]
    · right
      rw [hnni3x]
      exact hnus

/-- `ClusterGeom::update_nearest` (a fold of `update_nearest_at_idx`):
the core invariant is preserved, the forward pointers of the rescanned
indices end up active or sentinel, and all other forward pointers are
untouched. -/
theorem update_nearest_spec :
    ∀ (pos : List ℕ) (st st' : ClusterGeom),
      geomCore st.pseudojets →
      ClusterGeom.update_nearest st pos = some st' →
      geomCore st'.pseudojets ∧
      st'.pseudojets.length = st.pseudojets.length ∧
      (∀ k, k ∈ pos → nniOf st'.pseudojets k < st.pseudojets.length ∨
        nniOf st'.pseudojets k = usizeMAX) ∧
      (∀ k, k ∉ pos → nniOf st'.pseudojets k = nniOf st.pseudojets k) := by
  intro pos
  induction pos with
  | nil =>
    intro st st' hc h
    unfold ClusterGeom.update_nearest at h
    rw [List.foldlM_nil] at h
    cases h
    exact ⟨hc, rfl, fun k hk => absurd hk (List.not_mem_nil k), fun _ _ => rfl⟩
  | cons x xs ih =>
    intro st st' hc h
    unfold ClusterGeom.update_nearest at h
    rw [List.foldlM_cons] at h
    simp only [Option.bind_eq_bind, Option.bind_eq_some] at h
    obtain ⟨st1, h1, hrest⟩ := h
    obtain ⟨hc1, hl1, hko, hkx, hxlt⟩ := update_at_idx_spec hc h1
    have hrest' : ClusterGeom.update_nearest st1 xs = some st' := by
      unfold ClusterGeom.update_nearest
      exact hrest
    obtain ⟨hc', hl', hmem', hnot'⟩ := ih st1 st' hc1 hrest'
    refine ⟨hc', hl'.trans hl1, ?_, ?_⟩
    · intro k hk
      by_cases hkxs : k ∈ xs
      · rcases hmem' k hkxs with h2 | h2
        · left
          rw [hl1] at h2
          exact h2
        · right
          exact h2
      · have hkx' : k = x := by
          rcases List.mem_cons.mp hk with h2 | h2
          · exact h2
          · exact absurd h2 hkxs
        rw [hnot' k hkxs, hkx']
        exact hkx
    · intro k hk
      have hknx : k ≠ x := fun he => hk (he ▸ List.mem_cons_self x xs)
      have hknxs : k ∉ xs := fun he => hk (List.mem_cons_of_mem x he)
      rw [hnot' k hknxs, hko k hknx]

/-- `swapPerm` is an involution. -/
theorem swapPerm_invol (i j : ℕ) : ∀ x, swapPerm i j (swapPerm i j x) = x := by
  intro x
  unfold swapPerm
  split_ifs <;> omega

/-- `swapPerm` preserves the active range. -/
theorem swapPerm_lt {i j len : ℕ} (hi : i < len) (hj : j < len) :
    ∀ x, x < len → swapPerm i j x < len := by
  intro x hx
  unfold swapPerm
  split_ifs <;> omega

/-- `ClusterGeom::swap` preserves the full invariant: the final state is the
initial one with every index relabelled by the transposition of `i` and `j`,
on both forward pointers and reverse-list multisets. -/
theorem swap_spec {st st' : ClusterGeom} {i j : ℕ}
    (hinv : geomInv st.pseudojets)
    (h : st.swap i j = some st') :
    geomInv st'.pseudojets ∧ st'.pseudojets.length = st.pseudojets.length := by
  obtain ⟨h0, hI1, hI2, hI3, hI4⟩ := hinv
  unfold ClusterGeom.swap at h
  split at h
  case isFalse => cases h
  case isTrue hij =>
  obtain ⟨hil, hjl⟩ := hij
  split at h
  case isTrue heq =>
    cases h
    exact ⟨⟨h0, hI1, hI2, hI3, hI4⟩, rfl⟩
  case isFalse hne =>
  simp only [Option.bind_eq_bind, Option.bind_eq_some, Option.pure_def,
    Option.some.injEq] at h
  obtain ⟨vi, hvi, h⟩ := h
  obtain ⟨vj, hvj, h⟩ := h
  obtain ⟨v1, hv1, h⟩ := h
  obtain ⟨v2, hv2, h⟩ := h
  have hmain : ∃ v3, (if vi.nearest_neighbour_idx < v2.length
        then replNNFEntry v2 vi.nearest_neighbour_idx i j else some v2) = some v3 ∧
      ∃ v4, (if vj.nearest_neighbour_idx < v3.length
        then replNNFEntry v3 vj.nearest_neighbour_idx j i else some v3) = some v4 ∧
      ∃ a, v4.get? i = some a ∧ ∃ b, v4.get? j = some b ∧
        { st with pseudojets := (v4.set i b).set j a } = st' := by
    split at h
    case isTrue hc1 =>
      rw [Option.bind_eq_some] at h
      obtain ⟨v3, hv3, h⟩ := h
      refine ⟨v3, by rw [if_pos hc1]; exact hv3, ?_⟩
      split at h
      case isTrue hc2 =>
        rw [Option.bind_eq_some] at h
        obtain ⟨v4, hv4, h⟩ := h
        refine ⟨v4, by rw [if_pos hc2]; exact hv4, ?_⟩
        rw [Option.bind_eq_some] at h
        obtain ⟨a, ha, h⟩ := h
        rw [Option.bind_eq_some] at h
        obtain ⟨b, hb, h⟩ := h
        exact ⟨a, ha, b, hb, Option.some.inj h⟩
      case isFalse hc2 =>
        rw [Option.some_bind] at h
        refine ⟨v3, by rw [if_neg hc2], ?_⟩
        rw [Option.bind_eq_some] at h
        obtain ⟨a, ha, h⟩ := h
        rw [Option.bind_eq_some] at h
        obtain ⟨b, hb, h⟩ := h
        exact ⟨a, ha, b, hb, Option.some.inj h⟩
    case isFalse hc1 =>
      rw [Option.some_bind] at h
      refine ⟨v2, by rw [if_neg hc1], ?_⟩
      split at h
      case isTrue hc2 =>
        rw [Option.bind_eq_some] at h
        obtain ⟨v4, hv4, h⟩ := h
        refine ⟨v4, by rw [if_pos hc2]; exact hv4, ?_⟩
        rw [Option.bind_eq_some] at h
        obtain ⟨a, ha, h⟩ := h
        rw [Option.bind_eq_some] at h
        obtain ⟨b, hb, h⟩ := h
        exact ⟨a, ha, b, hb, Option.some.inj h⟩
      case isFalse hc2 =>
        rw [Option.some_bind] at h
        refine ⟨v2, by rw [if_neg hc2], ?_⟩
        rw [Option.bind_eq_some] at h
        obtain ⟨a, ha, h⟩ := h
        rw [Option.bind_eq_some] at h
        obtain ⟨b, hb, h⟩ := h
        exact ⟨a, ha, b, hb, Option.some.inj h⟩
  obtain ⟨v3, hv3, v4, hv4, a, ha, b, hb, hst'⟩ := hmain
  have hgvi : gnthD st.pseudojets i = vi := gnthD_of_get? hvi
  have hgvj : gnthD st.pseudojets j = vj := gnthD_of_get? hvj
  have hvinnf : vi.nearest_neighbour_for = nnfOf st.pseudojets i := by
    unfold nnfOf
    rw [hgvi]
  have hvjnnf : vj.nearest_neighbour_for = nnfOf st.pseudojets j := by
    unfold nnfOf
    rw [hgvj]
  have hvini : vi.nearest_neighbour_idx = nniOf st.pseudojets i := by
    unfold nniOf
    rw [hgvi]
  have hvjni : vj.nearest_neighbour_idx = nniOf st.pseudojets j := by
    unfold nniOf
    rw [hgvj]
  obtain ⟨hl1, hf1, hm1, hn1⟩ :=
    setNNIs_spec vi.nearest_neighbour_for st.pseudojets v1 j hv1
  obtain ⟨hl2, hf2, hm2, hn2⟩ :=
    setNNIs_spec vj.nearest_neighbour_for v1 v2 i hv2
  have hnnf2 : ∀ k, nnfOf v2 k = nnfOf st.pseudojets k := fun k => (hf2 k).trans (hf1 k)
  have hnni2 : ∀ k, k < st.pseudojets.length →
      nniOf v2 k = swapPerm i j (nniOf st.pseudojets k) := by
    intro k hk
    by_cases hki : nniOf st.pseudojets k = i
    · have hmemi : k ∈ vi.nearest_neighbour_for := by
        rw [hvinnf]
        refine List.count_pos_iff.mp ?_
        rw [hI1 i hil k hk, if_pos hki]
        omega
      have hnotj : k ∉ vj.nearest_neighbour_for := by
        rw [hvjnnf]
        intro hmem
        have h1 : 0 < (nnfOf st.pseudojets j).count k := List.count_pos_iff.mpr hmem
        rw [hI1 j hjl k hk, if_neg (fun he => hne (hki.symm.trans he))] at h1
        omega
      rw [hn2 k hnotj, hm1 k hmemi]
      unfold swapPerm
      rw [if_pos hki]
    · by_cases hkj : nniOf st.pseudojets k = j
      · have hmemj : k ∈ vj.nearest_neighbour_for := by
          rw [hvjnnf]
          refine List.count_pos_iff.mp ?_
          rw [hI1 j hjl k hk, if_pos hkj]
          omega
        rw [hm2 k hmemj]
        unfold swapPerm
        rw [if_neg hki, if_pos hkj]
      · have hnoti : k ∉ vi.nearest_neighbour_for := by
          rw [hvinnf]
          intro hmem
          have h1 : 0 < (nnfOf st.pseudojets i).count k := List.count_pos_iff.mpr hmem
          rw [hI1 i hil k hk, if_neg hki] at h1
          omega
        have hnotj : k ∉ vj.nearest_neighbour_for := by
          rw [hvjnnf]
          intro hmem
          have h1 : 0 < (nnfOf st.pseudojets j).count k := List.count_pos_iff.mpr hmem
          rw [hI1 j hjl k hk, if_neg hkj] at h1
          omega
        rw [hn2 k hnotj, hn1 k hnoti]
        unfold swapPerm
        rw [if_neg hki, if_neg hkj]
  have h3' : v3.length = v2.length ∧ (∀ k, nniOf v3 k = nniOf v2 k) ∧
      (∀ m y, (nnfOf v3 m).count y +
          (if m = vi.nearest_neighbour_idx ∧ vi.nearest_neighbour_idx < v2.length ∧ y = i
            then 1 else 0) =
        (nnfOf v2 m).count y +
          (if m = vi.nearest_neighbour_idx ∧ vi.nearest_neighbour_idx < v2.length ∧ y = j
            then 1 else 0)) := by
    split at hv3
    case isTrue hlt =>
      obtain ⟨hl3, hml3, hni3, hfp3, hold3, hcnt3⟩ := replNNFEntry_spec hv3
      refine ⟨hl3, hni3, ?_⟩
      intro m y
      by_cases hm : m = vi.nearest_neighbour_idx
      · subst hm
        have hc := hcnt3 y
        have hge := List.count_pos_iff.mpr hold3
        by_cases hyi : y = i
        · rw [hyi] at hc ⊢
          split_ifs at hc ⊢ <;> omega
        · by_cases hyj : y = j
          · rw [hyj] at hc ⊢
            split_ifs at hc ⊢ <;> omega
          · split_ifs at hc ⊢ <;> omega
      · rw [hfp3 m hm, if_neg (fun hc => hm hc.1), if_neg (fun hc => hm hc.1)]
    case isFalse hge =>
      obtain rfl : v2 = v3 := Option.some.inj hv3
      refine ⟨rfl, fun _ => rfl, ?_⟩
      intro m y
      rw [if_neg (fun hc => hge hc.2.1), if_neg (fun hc => hge hc.2.1)]
  have h4' : v4.length = v3.length ∧ (∀ k, nniOf v4 k = nniOf v3 k) ∧
      (∀ m y, (nnfOf v4 m).count y +
          (if m = vj.nearest_neighbour_idx ∧ vj.nearest_neighbour_idx < v3.length ∧ y = j
            then 1 else 0) =
        (nnfOf v3 m).count y +
          (if m = vj.nearest_neighbour_idx ∧ vj.nearest_neighbour_idx < v3.length ∧ y = i
            then 1 else 0)) := by
    split at hv4
    case isTrue hlt =>
      obtain ⟨hl4, hml4, hni4, hfp4, hold4, hcnt4⟩ := replNNFEntry_spec hv4
      refine ⟨hl4, hni4, ?_⟩
      intro m y
      by_cases hm : m = vj.nearest_neighbour_idx
      · subst hm
        have hc := hcnt4 y
        have hge := List.count_pos_iff.mpr hold4
        by_cases hyi : y = i
        · rw [hyi] at hc ⊢
          split_ifs at hc ⊢ <;> omega
        · by_cases hyj : y = j
          · rw [hyj] at hc ⊢
            split_ifs at hc ⊢ <;> omega
          · split_ifs at hc ⊢ <;> omega
      · rw [hfp4 m hm, if_neg (fun hc => hm hc.1), if_neg (fun hc => hm hc.1)]
    case isFalse hge =>
      obtain rfl : v3 = v4 := Option.some.inj hv4
      refine ⟨rfl, fun _ => rfl, ?_⟩
      intro m y
      rw [if_neg (fun hc => hge hc.2.1), if_neg (fun hc => hge hc.2.1)]
  obtain ⟨hl3, hni3, hc3⟩ := h3'
  obtain ⟨hl4, hni4, hc4'⟩ := h4'
  have hlen2 : v2.length = st.pseudojets.length := hl2.trans hl1
  have hlen4 : v4.length = st.pseudojets.length := by omega
  have hnni4 : ∀ k, nniOf v4 k = nniOf v2 k := fun k => (hni4 k).trans (hni3 k)
  have hcnt4 : ∀ m, m < st.pseudojets.length → ∀ y, y < st.pseudojets.length →
      (nnfOf v4 m).count y = (nnfOf st.pseudojets m).count (swapPerm i j y) := by
    intro m hm y hy
    have h3c := hc3 m y
    have h4c := hc4' m y
    rw [hnnf2 m] at h3c
    rw [hvini] at h3c
    rw [hvjni] at h4c
    have e1 := hI1 m hm y hy
    by_cases hyi : y = i
    · rw [hyi] at h3c h4c e1 ⊢
      have hsp : swapPerm i j i = j := by
        unfold swapPerm
        rw [if_pos rfl]
      rw [hsp]
      have e2 := hI1 m hm j hjl
      split_ifs at h3c h4c e1 e2 <;> omega
    · by_cases hyj : y = j
      · rw [hyj] at h3c h4c e1 ⊢
        have hsp : swapPerm i j j = i := by
          unfold swapPerm
          rw [if_neg (fun he => hne he.symm), if_pos rfl]
        rw [hsp]
        have e2 := hI1 m hm i hil
        split_ifs at h3c h4c e1 e2 <;> omega
      · have hsp : swapPerm i j y = y := by
          unfold swapPerm
          rw [if_neg hyi, if_neg hyj]
        rw [hsp]
        split_ifs at h3c h4c <;> omega
  have hmem4 : ∀ m, m < st.pseudojets.length →
      ∀ y, y ∈ nnfOf v4 m → y < st.pseudojets.length := by
    intro m hm y hy
    by_cases hyi : y = i
    · omega
    · by_cases hyj : y = j
      · omega
      · have hpos : 0 < (nnfOf v4 m).count y := List.count_pos_iff.mpr hy
        have h3c := hc3 m y
        have h4c := hc4' m y
        rw [hnnf2 m] at h3c
        have hcc : 0 < (nnfOf st.pseudojets m).count y := by
          split_ifs at h3c h4c <;> omega
        exact hI2 m hm y (List.count_pos_iff.mp hcc)
  have hga : gnthD v4 i = a := gnthD_of_get? ha
  have hgb : gnthD v4 j = b := gnthD_of_get? hb
  have hil4 : i < v4.length := by omega
  have hjl4 : j < v4.length := by omega
  have hg5 : ∀ k, gnthD st'.pseudojets k = gnthD v4 (swapPerm i j k) := by
    intro k
    rw [← hst']
    dsimp only
    unfold swapPerm
    by_cases hki : k = i
    · subst hki
      rw [if_pos rfl, gnthD_set_ne (fun he => hne he.symm), gnthD_set_self hil4, hgb]
    · by_cases hkj : k = j
      · subst hkj
        rw [if_neg hki, if_pos rfl,
          gnthD_set_self (by simp only [List.length_set]; exact hjl4), hga]
      · rw [if_neg hki, if_neg hkj, gnthD_set_ne (fun he => hkj he.symm),
          gnthD_set_ne (fun he => hki he.symm)]
  have hnnf5 : ∀ k, nnfOf st'.pseudojets k = nnfOf v4 (swapPerm i j k) := by
    intro k
    unfold nnfOf
    rw [hg5 k]
  have hnni5 : ∀ k, nniOf st'.pseudojets k = nniOf v4 (swapPerm i j k) := by
    intro k
    unfold nniOf
    rw [hg5 k]
  have hlen5 : st'.pseudojets.length = st.pseudojets.length := by
    rw [← hst']
    dsimp only
    simp only [List.length_set]
    exact hlen4
  refine ⟨⟨?_, ?_, ?_, ?_, ?_⟩, hlen5⟩
  · rw [hlen5]
    exact h0
  · intro p hp q hq
    rw [hlen5] at hp hq
    have hsp := swapPerm_lt hil hjl p hp
    have hsq := swapPerm_lt hil hjl q hq
    rw [hnnf5 p, hnni5 q, hnni4 (swapPerm i j q), hnni2 (swapPerm i j q) hsq,
      hcnt4 (swapPerm i j p) hsp q hq, hI1 (swapPerm i j p) hsp (swapPerm i j q) hsq]
    by_cases hcond : nniOf st.pseudojets (swapPerm i j q) = swapPerm i j p
    · rw [if_pos hcond, if_pos (by rw [hcond, swapPerm_invol i j p])]
    · rw [if_neg hcond, if_neg (fun he => hcond (by
        rw [← swapPerm_invol i j (nniOf st.pseudojets (swapPerm i j q)), he]))]
  · intro p hp y hy
    rw [hlen5] at hp
    rw [hnnf5 p] at hy
    rw [hlen5]
    exact hmem4 (swapPerm i j p) (swapPerm_lt hil hjl p hp) y hy
  · intro q hq
    rw [hlen5] at hq
    rw [hnni5 q, hnni4 (swapPerm i j q), hnni2 (swapPerm i j q) (swapPerm_lt hil hjl q hq)]
    rcases hI3 (swapPerm i j q) (swapPerm_lt hil hjl q hq) with h1 | h1
    · left
      rw [hlen5]
      exact swapPerm_lt hil hjl _ h1
    · right
      rw [h1]
      unfold swapPerm
      rw [if_neg (by omega), if_neg (by omega)]
  · intro q hq
    rw [hlen5] at hq
    rw [hnni5 q, hnni4 (swapPerm i j q), hnni2 (swapPerm i j q) (swapPerm_lt hil hjl q hq)]
    intro he
    exact hI4 (swapPerm i j q) (swapPerm_lt hil hjl q hq)
      (by rw [← swapPerm_invol i j (nniOf st.pseudojets (swapPerm i j q)), he])

/-- `ClusterGeom::remove` preserves the full invariant and shrinks the
vector by one: after the swap to the end, the unlink, the pop and the rescan
of the records that pointed at the removed slot, the reverse-adjacency
correspondence holds again. -/
theorem remove_spec {st st' : ClusterGeom} {idx : ℕ} {p : PJD}
    (hinv : geomInv st.pseudojets)
    (h : st.remove idx = some (p, st')) :
    geomInv st'.pseudojets ∧
    st'.pseudojets.length = st.pseudojets.length - 1 := by
  unfold ClusterGeom.remove at h
  split at h
  case isFalse => cases h
  case isTrue hidx =>
  simp only [Option.bind_eq_bind, Option.bind_eq_some, Option.pure_def,
    Option.some.injEq, Prod.mk.injEq] at h
  obtain ⟨st1, hsw, st2, hrnl, popped, hpop, st4, hupd, hp, hst'⟩ := h
  obtain ⟨hinv1, hlen1⟩ := swap_spec hinv hsw
  obtain ⟨h10, h11, h12, h13, h14⟩ := hinv1
  set x := st1.pseudojets.length - 1 with hxdef
  obtain ⟨hl2, hn2, hc2, hcx2, hm2, hx2⟩ := remove_nearest_link_spec h11 hrnl
  have hgx : gnthD st2.pseudojets x = popped := by
    rw [List.getLast?_eq_getElem?] at hpop
    unfold gnthD
    rw [List.getD_eq_getElem?_getD]
    have hx' : x = st2.pseudojets.length - 1 := by omega
    rw [hx', hpop]
    rfl
  have hvdlen : st2.pseudojets.dropLast.length = x := by
    rw [List.length_dropLast]
    omega
  have hnnf_d : ∀ k, k < x → nnfOf st2.pseudojets.dropLast k = nnfOf st2.pseudojets k := by
    intro k hk
    unfold nnfOf
    rw [gnthD_dropLast (by omega)]
  have hnni_d : ∀ k, k < x → nniOf st2.pseudojets.dropLast k = nniOf st2.pseudojets k := by
    intro k hk
    unfold nniOf
    rw [gnthD_dropLast (by omega)]
  have hcore : geomCore st2.pseudojets.dropLast := by
    refine ⟨?_, ?_, ?_, ?_⟩
    · rw [hvdlen]
      omega
    · intro i hi j hj
      rw [hvdlen] at hi hj
      rw [hnnf_d i hi, hc2 i j (by omega), h11 i (by omega) j (by omega),
        hnni_d j hj, hn2 j]
    · intro i hi y hy
      rw [hvdlen] at hi
      rw [hnnf_d i hi] at hy
      have hy1 : y ∈ nnfOf st1.pseudojets i := hm2 i y hy
      have hylt : y < st1.pseudojets.length := h12 i (by omega) y hy1
      have hyne : y ≠ x := by
        intro he
        have hz := hcx2 i (by omega)
        rw [List.count_eq_zero] at hz
        exact hz (he ▸ hy)
      rw [hvdlen]
      omega
    · intro jj hj
      rw [hvdlen] at hj
      rw [hnni_d jj hj, hn2 jj]
      exact h14 jj (by omega)
  have hpnnf : popped.nearest_neighbour_for = nnfOf st2.pseudojets x := by
    unfold nnfOf
    rw [hgx]
  have hpoint : ∀ jj, jj < x → nniOf st2.pseudojets jj = x →
      jj ∈ popped.nearest_neighbour_for := by
    intro jj hjx hjeq
    rw [hpnnf]
    refine List.count_pos_iff.mp ?_
    rw [hc2 x jj (by omega), h11 x hx2 jj (by omega),
      if_pos (by rw [← hn2 jj]; exact hjeq)]
    omega
  obtain ⟨hc4, hl4, hmem4, hnot4⟩ := update_nearest_spec popped.nearest_neighbour_for
    { st2 with pseudojets := st2.pseudojets.dropLast } st4 hcore hupd
  dsimp only at hc4 hl4 hmem4 hnot4
  subst hst'
  have hst4len : st4.pseudojets.length = x := hl4.trans hvdlen
  obtain ⟨hg0, hg1, hg2, hg4⟩ := hc4
  refine ⟨⟨hg0, hg1, hg2, ?_, hg4⟩, ?_⟩
  · intro jj hj
    by_cases hjp : jj ∈ popped.nearest_neighbour_for
    · rcases hmem4 jj hjp with h1 | h1
      · left
        omega
      · right
        exact h1
    · rw [hnot4 jj hjp]
      have hjx : jj < x := by omega
      rw [hnni_d jj hjx, hn2 jj]
      rcases h13 jj (by omega) with h1 | h1
      · left
        have hne1 : nniOf st1.pseudojets jj ≠ x := by
          intro he
          exact hjp (hpoint jj hjx (by rw [hn2 jj]; exact he))
        omega
      · right
        exact h1
  · omega

/-- One pass of the `ClusterGeom::push` scan loop preserves the loop
invariant, and touches no forward pointer other than that of the scanned
index. -/
theorem pushStep_spec {len : ℕ} {acc acc1 : ClusterGeom × PJD × NF × ℕ} {n : ℕ}
    (hn : n < len) (hfresh : nniOf acc.1.pseudojets n ≠ len)
    (hinv : pushInv len acc)
    (h : pushStep len acc n = some acc1) :
    pushInv len acc1 ∧
    (∀ k, k ≠ n → nniOf acc1.1.pseudojets k = nniOf acc.1.pseudojets k) := by
  obtain ⟨stc, rec, bestd, besti⟩ := acc
  unfold pushInv at hinv
  dsimp only at hinv hfresh
  obtain ⟨hlen, hA, hB, hC, hD, hE, hF, hG⟩ := hinv
  unfold pushStep at h
  dsimp only at h
  simp only [Option.bind_eq_bind, Option.bind_eq_some, Option.pure_def,
    Option.some.injEq] at h
  obtain ⟨vn, hvn, h⟩ := h
  split at h
  case isTrue hd =>
    simp only [Option.bind_eq_bind, Option.bind_eq_some, Option.pure_def,
      Option.some.injEq] at h
    obtain ⟨st2, hrnl, vn2, hvn2, heq⟩ := h
    subst heq
    have hA' : ∀ i, i < stc.pseudojets.length → ∀ j, j < stc.pseudojets.length →
        (nnfOf stc.pseudojets i).count j =
          if nniOf stc.pseudojets j = i then 1 else 0 := by
      rw [hlen]
      exact hA
    obtain ⟨hl2, hn2, hc2, hcx2, hm2, hx2⟩ := remove_nearest_link_spec hA' hrnl
    have hgn2 : gnthD st2.pseudojets n = vn2 := gnthD_of_get? hvn2
    have hl2' : st2.pseudojets.length = len := by rw [hl2, hlen]
    have hnnf3 : ∀ k,
        nnfOf (st2.pseudojets.set n { vn2 with nearest_neighbour_idx := len }) k =
          nnfOf st2.pseudojets k := by
      intro k
      by_cases hk : k = n
      · rw [hk]
        unfold nnfOf
        rw [gnthD_set_self (by omega), hgn2]
      · unfold nnfOf
        rw [gnthD_set_ne (fun he => hk he.symm)]
    have hnni3n :
        nniOf (st2.pseudojets.set n { vn2 with nearest_neighbour_idx := len }) n
          = len := by
      unfold nniOf
      rw [gnthD_set_self (by omega)]
    have hnni3o : ∀ k, k ≠ n →
        nniOf (st2.pseudojets.set n { vn2 with nearest_neighbour_idx := len }) k =
          nniOf st2.pseudojets k := by
      intro k hk
      unfold nniOf
      rw [gnthD_set_ne (fun he => hk he.symm)]
    constructor
    · unfold pushInv
      dsimp only
      refine ⟨?_, ?_, ?_, ?_, ?_, ?_, ?_, ?_⟩
      · simp only [List.length_set]
        exact hl2'
      · intro i hi j hj
        rw [hnnf3 i]
        by_cases hj2 : j = n
        · rw [hj2, hcx2 i (by omega), hnni3n, if_neg (by omega)]
        · rw [hnni3o j hj2, hn2 j, hc2 i j hj2, hA i hi j hj]
      · intro j hj
        by_cases hj2 : j = n
        · rw [hj2, count_append_single, if_pos rfl, hB n hn, if_neg hfresh,
            hnni3n, if_pos rfl]
        · rw [count_append_single, if_neg hj2, hB j hj, hnni3o j hj2, hn2 j,
            Nat.add_zero]
      · intro i hi y hy
        rw [hnnf3 i] at hy
        exact hC i hi y (hm2 i y hy)
      · intro y hy
        rcases List.mem_append.mp hy with h1 | h1
        · exact hD y h1
        · rw [List.mem_singleton] at h1
          omega
      · intro j hj
        by_cases hj2 : j = n
        · rw [hj2, hnni3n]
          omega
        · rw [hnni3o j hj2, hn2 j]
          exact hE j hj
      · intro j hj
        by_cases hj2 : j = n
        · rw [hj2, hnni3n]
          right
          left
          rfl
        · rw [hnni3o j hj2, hn2 j]
          exact hF j hj
      · by_cases hdb : stc.distance.distance rec.pseudojet vn.pseudojet < bestd
        · rw [if_pos hdb]
          left
          exact hn
        · rw [if_neg hdb]
          exact hG
    · intro k hk
      dsimp only
      rw [hnni3o k hk, hn2 k]
  case isFalse hd =>
    have heq := Option.some.inj h
    subst heq
    constructor
    · unfold pushInv
      dsimp only
      refine ⟨hlen, hA, hB, hC, hD, hE, hF, ?_⟩
      by_cases hdb : stc.distance.distance rec.pseudojet vn.pseudojet < bestd
      · rw [if_pos hdb]
        left
        exact hn
      · rw [if_neg hdb]
        exact hG
    · intro k hk
      rfl

/-- The `ClusterGeom::push` scan loop preserves the loop invariant along any
duplicate-free list of active indices none of which has been re-pointed yet. -/
theorem push_fold_inv (len : ℕ) :
    ∀ (l : List ℕ) (acc res : ClusterGeom × PJD × NF × ℕ),
      (∀ n ∈ l, n < len) → l.Nodup →
      (∀ n ∈ l, nniOf acc.1.pseudojets n ≠ len) →
      pushInv len acc →
      l.foldlM (pushStep len) acc = some res →
      pushInv len res := by
  intro l
  induction l with
  | nil =>
    intro acc res h1 h2 h3 hinv h
    rw [List.foldlM_nil] at h
    cases h
    exact hinv
  | cons x xs ih =>
    intro acc res hlt hnd hfresh hinv h
    rw [List.foldlM_cons] at h
    simp only [Option.bind_eq_bind, Option.bind_eq_some] at h
    obtain ⟨acc1, hstep, hrest⟩ := h
    obtain ⟨hinv1, hpres⟩ := pushStep_spec (hlt x (List.mem_cons_self x xs))
      (hfresh x (List.mem_cons_self x xs)) hinv hstep
    refine ih acc1 res (fun n hn => hlt n (List.mem_cons_of_mem x hn))
      (List.nodup_cons.mp hnd).2 ?_ hinv1 hrest
    intro n hn
    have hnx : n ≠ x := by
      intro he
      exact (List.nodup_cons.mp hnd).1 (he ▸ hn)
    rw [hpres n hnx]
    exact hfresh n (List.mem_cons_of_mem x hn)

/-- Reading strictly below the appended slot. -/
theorem gnthD_append_lt {v : List PJD} {r : PJD} {k : ℕ} (h : k < v.length) :
    gnthD (v ++ [r]) k = gnthD v k := by
  unfold gnthD
  rw [List.getD_eq_getElem?_getD, List.getD_eq_getElem?_getD, List.getElem?_append_left h]

/-- Reading the appended slot. -/
theorem gnthD_append_last {v : List PJD} {r : PJD} :
    gnthD (v ++ [r]) v.length = r := by
  unfold gnthD
  rw [List.getD_eq_getElem?_getD, List.getElem?_append_right (le_refl v.length),
    Nat.sub_self]
  rfl

/-- Assembling the final state of `ClusterGeom::push` when a nearest
neighbour was found: the new record occupies slot `len` with its collected
reverse list, and the nearest record gains a back-edge to the new slot. -/
theorem push_assemble {v : List PJD} {R1 r2 : PJD} {len bsti : ℕ} (rnnf : List ℕ)
    (hvlen : v.length = len)
    (hmax : len + 1 < usizeMAX)
    (hbl : bsti < len)
    (hA : ∀ i, i < len → ∀ j, j < len →
      (nnfOf v i).count j = if nniOf v j = i then 1 else 0)
    (hB : ∀ j, j < len → rnnf.count j = if nniOf v j = len then 1 else 0)
    (hC : ∀ i, i < len → ∀ y ∈ nnfOf v i, y < len)
    (hD : ∀ y ∈ rnnf, y < len)
    (hE : ∀ j, j < len → nniOf v j ≠ j)
    (hF : ∀ j, j < len → nniOf v j < len ∨ nniOf v j = len ∨ nniOf v j = usizeMAX)
    (hR1f : R1.nearest_neighbour_for = nnfOf v bsti ++ [len])
    (hR1i : R1.nearest_neighbour_idx = nniOf v bsti)
    (hr2f : r2.nearest_neighbour_for = rnnf)
    (hr2i : r2.nearest_neighbour_idx = bsti) :
    geomInv ((v.set bsti R1) ++ [r2]) ∧ ((v.set bsti R1) ++ [r2]).length = len + 1 := by
  have hsetlen : (v.set bsti R1).length = len := by
    rw [List.length_set, hvlen]
  have hwlen : ((v.set bsti R1) ++ [r2]).length = len + 1 := by
    rw [List.length_append, hsetlen, List.length_singleton]
  have hgk : ∀ k, k < len → k ≠ bsti →
      gnthD ((v.set bsti R1) ++ [r2]) k = gnthD v k := by
    intro k hk hkb
    rw [gnthD_append_lt (by omega), gnthD_set_ne (fun he => hkb he.symm)]
  have hglast : gnthD ((v.set bsti R1) ++ [r2]) len = r2 := by
    rw [← hsetlen, gnthD_append_last]
  have hgb : gnthD ((v.set bsti R1) ++ [r2]) bsti = R1 := by
    rw [gnthD_append_lt (by omega), gnthD_set_self (by omega)]
  have hnfk : ∀ k, k < len → k ≠ bsti →
      nnfOf ((v.set bsti R1) ++ [r2]) k = nnfOf v k := by
    intro k hk hkb
    unfold nnfOf
    rw [hgk k hk hkb]
  have hnik : ∀ k, k < len → k ≠ bsti →
      nniOf ((v.set bsti R1) ++ [r2]) k = nniOf v k := by
    intro k hk hkb
    unfold nniOf
    rw [hgk k hk hkb]
  have hnfl : nnfOf ((v.set bsti R1) ++ [r2]) len = rnnf := by
    unfold nnfOf
    rw [hglast, hr2f]
  have hnil : nniOf ((v.set bsti R1) ++ [r2]) len = bsti := by
    unfold nniOf
    rw [hglast, hr2i]
  have hnfb : nnfOf ((v.set bsti R1) ++ [r2]) bsti = nnfOf v bsti ++ [len] := by
    unfold nnfOf
    rw [hgb, hR1f]
    rfl
  have hnib : nniOf ((v.set bsti R1) ++ [r2]) bsti = nniOf v bsti := by
    unfold nniOf
    rw [hgb, hR1i]
    rfl
  have hniall : ∀ k, k < len → nniOf ((v.set bsti R1) ++ [r2]) k = nniOf v k := by
    intro k hk
    by_cases hkb : k = bsti
    · rw [hkb, hnib]
    · exact hnik k hk hkb
  refine ⟨⟨?_, ?_, ?_, ?_, ?_⟩, hwlen⟩
  · rw [hwlen]
    omega
  · intro i hi j hj
    rw [hwlen] at hi hj
    by_cases hje : j = len
    · rw [hje, hnil]
      by_cases hie : i = len
      · rw [hie, hnfl, if_neg (by omega), List.count_eq_zero]
        intro hmem
        exact absurd (hD len hmem) (lt_irrefl len)
      · have hil : i < len := by omega
        by_cases hib : i = bsti
        · rw [hib, hnfb, count_append_single, if_pos rfl,
            List.count_eq_zero.mpr
              (fun hmem => absurd (hC bsti hbl len hmem) (lt_irrefl len)),
            if_pos rfl]
        · rw [hnfk i hil hib,
            List.count_eq_zero.mpr
              (fun hmem => absurd (hC i hil len hmem) (lt_irrefl len)),
            if_neg (fun he => hib he.symm)]
    · have hjl2 : j < len := by omega
      rw [hniall j hjl2]
      by_cases hie : i = len
      · rw [hie, hnfl]
        exact hB j hjl2
      · have hil : i < len := by omega
        by_cases hib : i = bsti
        · rw [hib, hnfb, count_append_single, if_neg (by omega), Nat.add_zero]
          exact hA bsti hbl j hjl2
        · rw [hnfk i hil hib]
          exact hA i hil j hjl2
  · intro i hi y hy
    rw [hwlen] at hi
    rw [hwlen]
    by_cases hie : i = len
    · rw [hie, hnfl] at hy
      have := hD y hy
      omega
    · have hil : i < len := by omega
      by_cases hib : i = bsti
      · rw [hib, hnfb] at hy
        rcases List.mem_append.mp hy with h1 | h1
        · have := hC bsti hbl y h1
          omega
        · rw [List.mem_singleton] at h1
          omega
      · rw [hnfk i hil hib] at hy
        have := hC i hil y hy
        omega
  · intro j hj
    rw [hwlen] at hj
    rw [hwlen]
    by_cases hje : j = len
    · rw [hje, hnil]
      left
      omega
    · have hjl2 : j < len := by omega
      rw [hniall j hjl2]
      rcases hF j hjl2 with h1 | h1 | h1
      · left
        omega
      · left
        omega
      · right
        exact h1
  · intro j hj
    rw [hwlen] at hj
    by_cases hje : j = len
    · rw [hje, hnil]
      omega
    · have hjl2 : j < len := by omega
      rw [hniall j hjl2]
      exact hE j hjl2

/-- Assembling the final state of `ClusterGeom::push` when no record is
active: the new record is appended with the `usize::MAX` sentinel. -/
theorem push_assemble_sentinel {v : List PJD} {r2 : PJD} {len : ℕ} (rnnf : List ℕ)
    (hvlen : v.length = len)
    (hmax : len + 1 < usizeMAX)
    (hA : ∀ i, i < len → ∀ j, j < len →
      (nnfOf v i).count j = if nniOf v j = i then 1 else 0)
    (hB : ∀ j, j < len → rnnf.count j = if nniOf v j = len then 1 else 0)
    (hC : ∀ i, i < len → ∀ y ∈ nnfOf v i, y < len)
    (hD : ∀ y ∈ rnnf, y < len)
    (hE : ∀ j, j < len → nniOf v j ≠ j)
    (hF : ∀ j, j < len → nniOf v j < len ∨ nniOf v j = len ∨ nniOf v j = usizeMAX)
    (hr2f : r2.nearest_neighbour_for = rnnf)
    (hr2i : r2.nearest_neighbour_idx = usizeMAX) :
    geomInv (v ++ [r2]) ∧ (v ++ [r2]).length = len + 1 := by
  have hwlen : (v ++ [r2]).length = len + 1 := by
    rw [List.length_append, hvlen, List.length_singleton]
  have hgk : ∀ k, k < len → gnthD (v ++ [r2]) k = gnthD v k := by
    intro k hk
    rw [gnthD_append_lt (by omega)]
  have hglast : gnthD (v ++ [r2]) len = r2 := by
    rw [← hvlen, gnthD_append_last]
  have hnfk : ∀ k, k < len → nnfOf (v ++ [r2]) k = nnfOf v k := by
    intro k hk
    unfold nnfOf
    rw [hgk k hk]
  have hnik : ∀ k, k < len → nniOf (v ++ [r2]) k = nniOf v k := by
    intro k hk
    unfold nniOf
    rw [hgk k hk]
  have hnfl : nnfOf (v ++ [r2]) len = rnnf := by
    unfold nnfOf
    rw [hglast, hr2f]
  have hnil : nniOf (v ++ [r2]) len = usizeMAX := by
    unfold nniOf
    rw [hglast, hr2i]
  refine ⟨⟨?_, ?_, ?_, ?_, ?_⟩, hwlen⟩
  · rw [hwlen]
    omega
  · intro i hi j hj
    rw [hwlen] at hi hj
    by_cases hje : j = len
    · rw [hje]
      by_cases hie : i = len
      · rw [hie, hnfl, hnil, if_neg (by omega), List.count_eq_zero]
        intro hmem
        exact absurd (hD len hmem) (lt_irrefl len)
      · have hil : i < len := by omega
        rw [hnfk i hil, hnil, if_neg (by omega), List.count_eq_zero]
        intro hmem
        exact absurd (hC i hil len hmem) (lt_irrefl len)
    · have hjl2 : j < len := by omega
      rw [hnik j hjl2]
      by_cases hie : i = len
      · rw [hie, hnfl]
        exact hB j hjl2
      · have hil : i < len := by omega
        rw [hnfk i hil]
        exact hA i hil j hjl2
  · intro i hi y hy
    rw [hwlen] at hi
    rw [hwlen]
    by_cases hie : i = len
    · rw [hie, hnfl] at hy
      have := hD y hy
      omega
    · have hil : i < len := by omega
      rw [hnfk i hil] at hy
      have := hC i hil y hy
      omega
  · intro j hj
    rw [hwlen] at hj
    rw [hwlen]
    by_cases hje : j = len
    · rw [hje, hnil]
      right
      rfl
    · have hjl2 : j < len := by omega
      rw [hnik j hjl2]
      rcases hF j hjl2 with h1 | h1 | h1
      · left
        omega
      · left
        omega
      · right
        exact h1
  · intro j hj
    rw [hwlen] at hj
    by_cases hje : j = len
    · rw [hje, hnil]
      omega
    · have hjl2 : j < len := by omega
      rw [hnik j hjl2]
      exact hE j hjl2

/-- `ClusterGeom::push` preserves the full invariant and grows the vector by
one (the hypothesis mirrors the `usize` bound on vector lengths). -/
theorem push_spec {st st' : ClusterGeom} {pj : PseudoJet}
    (hinv : geomInv st.pseudojets)
    (hsp : st.pseudojets.length + 1 < usizeMAX)
    (h : st.push pj = some st') :
    geomInv st'.pseudojets ∧
    st'.pseudojets.length = st.pseudojets.length + 1 := by
  obtain ⟨h0, hI1, hI2, hI3, hI4⟩ := hinv
  have hnotlen : ∀ n, n < st.pseudojets.length →
      nniOf st.pseudojets n ≠ st.pseudojets.length := by
    intro n hn he
    rcases hI3 n hn with h1 | h1
    · omega
    · omega
  unfold ClusterGeom.push at h
  simp only [Option.bind_eq_bind, Option.bind_eq_some, Option.pure_def,
    Option.some.injEq] at h
  obtain ⟨r, hfold, h⟩ := h
  obtain ⟨stf, recf, bdf, bsti⟩ := r
  dsimp only at h
  have hinv0 : pushInv st.pseudojets.length
      (st, { pseudojet := pj, beam_dist := st.distance.beam_distance pj
             nearest_dist := NF.num f64MAX, nearest_neighbour_idx := 0
             nearest_neighbour_for := [] }, NF.num f64MAX, usizeMAX) := by
    unfold pushInv
    dsimp only
    refine ⟨rfl, hI1, ?_, hI2, ?_, hI4, ?_, ?_⟩
    · intro j hj
      rw [if_neg (hnotlen j hj)]
      rfl
    · intro y hy
      exact absurd hy (List.not_mem_nil y)
    · intro j hj
      rcases hI3 j hj with h1 | h1
      · left
        exact h1
      · right
        right
        exact h1
    · right
      rfl
  have hinvf := push_fold_inv st.pseudojets.length (List.range st.pseudojets.length)
    _ _ (fun n hn => List.mem_range.mp hn) (List.nodup_range _)
    (fun n hn => hnotlen n (List.mem_range.mp hn)) hinv0 hfold
  unfold pushInv at hinvf
  dsimp only at hinvf
  obtain ⟨hflen, hfA, hfB, hfC, hfD, hfE, hfF, hfG⟩ := hinvf
  split at h
  case isTrue hba =>
    split at h
    case isFalse hblen => cases h
    case isTrue hblen =>
      simp only [Option.bind_eq_bind, Option.bind_eq_some, Option.pure_def,
        Option.some.injEq] at h
      obtain ⟨vb, hvb, vb2, hvb2, heq⟩ := h
      subst heq
      have hgvb : gnthD stf.pseudojets bsti = vb := gnthD_of_get? hvb
      dsimp only
      refine push_assemble recf.nearest_neighbour_for hflen hsp (by omega)
        hfA hfB hfC hfD hfE hfF ?_ ?_ rfl rfl
      · show vb.nearest_neighbour_for ++ [stf.pseudojets.length] =
          nnfOf stf.pseudojets bsti ++ [st.pseudojets.length]
        unfold nnfOf
        rw [hgvb, hflen]
      · show vb.nearest_neighbour_idx = nniOf stf.pseudojets bsti
        unfold nniOf
        rw [hgvb]
  case isFalse hba =>
    have heq := Option.some.inj h
    subst heq
    dsimp only
    have hbmax : bsti = usizeMAX := by
      rcases hfG with h1 | h1
      · exfalso
        apply hba
        omega
      · exact h1
    exact push_assemble_sentinel recf.nearest_neighbour_for hflen hsp
      hfA hfB hfC hfD hfE hfF rfl hbmax

/-- Effect of one `ClusterGeom::new` loop iteration on the neighbour graph:
index `i` gets a fresh forward pointer (active and distinct from `i`, or the
sentinel), the nearest record gains a back-edge to `i`, and nothing else
changes. -/
theorem geomNewStep_effect (d : Distance) (v : List PJD) (i : ℕ)
    (hi : i < v.length) :
    ∃ n, (n = usizeMAX ∨ (n < v.length ∧ n ≠ i)) ∧
      (geomNewStep d v i).length = v.length ∧
      nniOf (geomNewStep d v i) i = n ∧
      (∀ k, k ≠ i → nniOf (geomNewStep d v i) k = nniOf v k) ∧
      (if n < usizeMAX then
          nnfOf (geomNewStep d v i) n = nnfOf v n ++ [i] ∧
          (∀ k, k ≠ n → nnfOf (geomNewStep d v i) k = nnfOf v k)
        else ∀ k, nnfOf (geomNewStep d v i) k = nnfOf v k) := by
  unfold geomNewStep
  set u := v.set i { gnthD v i with beam_dist := d.beam_distance (gnthD v i).pseudojet }
    with hu
  set n := (scanNearestInit u i).2 with hn
  set v2 := u.set i { gnthD u i with nearest_neighbour_idx := n } with hv2
  have hul : u.length = v.length := by
    rw [hu, List.length_set]
  have hv2l : v2.length = v.length := by
    rw [hv2, List.length_set, hul]
  have hsc : n = usizeMAX ∨ (n < v.length ∧ n ≠ i) := by
    rcases scanNearestInit_spec u i (by omega) with h1 | h1
    · left
      rw [hn]
      exact h1
    · right
      rw [hn]
      constructor
      · rw [← hul]
        exact h1.1
      · exact h1.2
  have hnfu : ∀ k, nnfOf u k = nnfOf v k := by
    intro k
    by_cases hk : k = i
    · rw [hk, hu]
      unfold nnfOf
      rw [gnthD_set_self hi]
    · rw [hu]
      unfold nnfOf
      rw [gnthD_set_ne (fun he => hk he.symm)]
  have hnfv2 : ∀ k, nnfOf v2 k = nnfOf v k := by
    intro k
    by_cases hk : k = i
    · rw [hk, hv2]
      unfold nnfOf
      rw [gnthD_set_self (by omega)]
      exact hnfu i
    · rw [hv2]
      unfold nnfOf
      rw [gnthD_set_ne (fun he => hk he.symm)]
      exact hnfu k
  have hniu : ∀ k, k ≠ i → nniOf u k = nniOf v k := by
    intro k hk
    rw [hu]
    unfold nniOf
    rw [gnthD_set_ne (fun he => hk he.symm)]
  have hniv2o : ∀ k, k ≠ i → nniOf v2 k = nniOf v k := by
    intro k hk
    rw [hv2]
    unfold nniOf
    rw [gnthD_set_ne (fun he => hk he.symm)]
    exact hniu k hk
  have hniv2i : nniOf v2 i = n := by
    rw [hv2]
    unfold nniOf
    rw [gnthD_set_self (by omega)]
  refine ⟨n, hsc, ?_⟩
  by_cases hlt : n < usizeMAX
  · have hni : n ≠ i := by
      rcases hsc with h1 | h1
      · omega
      · exact h1.2
    have hnl : n < v.length := by
      rcases hsc with h1 | h1
      · omega
      · exact h1.1
    rw [if_pos hlt, if_pos hlt]
    set v3 := v2.set i { gnthD v2 i with nearest_dist := d.distance (gnthD v2 i).pseudojet (gnthD v2 n).pseudojet } with hv3
    have hv3l : v3.length = v.length := by
      rw [hv3, List.length_set, hv2l]
    have hnfv3 : ∀ k, nnfOf v3 k = nnfOf v k := by
      intro k
      by_cases hk : k = i
      · rw [hk, hv3]
        unfold nnfOf
        rw [gnthD_set_self (by omega)]
        exact hnfv2 i
      · rw [hv3]
        unfold nnfOf
        rw [gnthD_set_ne (fun he => hk he.symm)]
        exact hnfv2 k
    have hniv3o : ∀ k, k ≠ i → nniOf v3 k = nniOf v k := by
      intro k hk
      rw [hv3]
      unfold nniOf
      rw [gnthD_set_ne (fun he => hk he.symm)]
      exact hniv2o k hk
    have hniv3i : nniOf v3 i = n := by
      rw [hv3]
      unfold nniOf
      rw [gnthD_set_self (by omega)]
      exact hniv2i
    refine ⟨?_, ?_, ?_, ?_, ?_⟩
    · rw [List.length_set, hv3l]
    · unfold nniOf
      rw [gnthD_set_ne hni]
      exact hniv3i
    · intro k hk
      by_cases hkn : k = n
      · rw [hkn]
        unfold nniOf
        rw [gnthD_set_self (by show n < v3.length; omega)]
        exact hniv3o n hni
      · unfold nniOf
        rw [gnthD_set_ne (fun he => hkn he.symm)]
        exact hniv3o k hk
    · unfold nnfOf
      rw [gnthD_set_self (by show n < v3.length; omega)]
      exact congrArg (· ++ [i]) (hnfv3 n)
    · intro k hkn
      unfold nnfOf
      rw [gnthD_set_ne (fun he => hkn he.symm)]
      exact hnfv3 k
  · rw [if_neg hlt, if_neg hlt]
    refine ⟨?_, ?_, ?_, ?_⟩
    · rw [List.length_set, hv2l]
    · unfold nniOf
      rw [gnthD_set_self (by show i < v2.length; omega)]
      exact hniv2i
    · intro k hk
      unfold nniOf
      rw [gnthD_set_ne (fun he => hk he.symm)]
      exact hniv2o k hk
    · intro k
      by_cases hk : k = i
      · rw [hk]
        unfold nnfOf
        rw [gnthD_set_self (by show i < v2.length; omega)]
        exact hnfv2 i
      · unfold nnfOf
        rw [gnthD_set_ne (fun he => hk he.symm)]
        exact hnfv2 k

/-- The `ClusterGeom::new` loop invariant advances by one index per
iteration: back-edges record exactly the already-processed forward
pointers. -/
theorem geomNewStep_inv {d : Distance} {v : List PJD} {len i : ℕ}
    (hlen : v.length = len) (hmax : len < usizeMAX) (hi : i < len)
    (hA : ∀ k, k < len → ∀ j, j < len →
      (nnfOf v k).count j = if j < i ∧ nniOf v j = k then 1 else 0)
    (hC : ∀ k, k < len → ∀ y ∈ nnfOf v k, y < i)
    (hD : ∀ j, j < len → j < i →
      (nniOf v j < len ∨ nniOf v j = usizeMAX) ∧ nniOf v j ≠ j) :
    (geomNewStep d v i).length = len ∧
    (∀ k, k < len → ∀ j, j < len →
      (nnfOf (geomNewStep d v i) k).count j =
        if j < i + 1 ∧ nniOf (geomNewStep d v i) j = k then 1 else 0) ∧
    (∀ k, k < len → ∀ y ∈ nnfOf (geomNewStep d v i) k, y < i + 1) ∧
    (∀ j, j < len → j < i + 1 →
      (nniOf (geomNewStep d v i) j < len ∨ nniOf (geomNewStep d v i) j = usizeMAX) ∧
      nniOf (geomNewStep d v i) j ≠ j) := by
  obtain ⟨n, hbound, hwlen, hnii, hnio, hnf⟩ := geomNewStep_effect d v i (by omega)
  rw [hlen] at hwlen
  by_cases hlt : n < usizeMAX
  · rw [if_pos hlt] at hnf
    obtain ⟨hnfn, hnfo⟩ := hnf
    have hnn : n < len ∧ n ≠ i := by
      rcases hbound with h1 | h1
      · omega
      · refine ⟨by omega, h1.2⟩
    refine ⟨hwlen, ?_, ?_, ?_⟩
    · intro k hk j hj
      by_cases hji : j = i
      · rw [hji, hnii]
        by_cases hkn : k = n
        · rw [hkn, hnfn, count_append_single, if_pos rfl,
            List.count_eq_zero.mpr
              (fun hmem => absurd (hC n (by omega) i hmem) (lt_irrefl i)),
            if_pos ⟨by omega, rfl⟩]
        · rw [hnfo k hkn, hA k hk i (by omega), if_neg (by omega),
            if_neg (fun hc => hkn hc.2.symm)]
      · have hcong : ∀ m, (if j < i ∧ nniOf v j = m then 1 else 0) =
            (if j < i + 1 ∧ nniOf v j = m then 1 else 0) := by
          intro m
          by_cases hz : nniOf v j = m
          · by_cases hj2 : j < i
            · rw [if_pos ⟨hj2, hz⟩, if_pos ⟨by omega, hz⟩]
            · rw [if_neg (fun hc => hj2 hc.1),
                if_neg (fun hc => absurd hc.1 (by omega))]
          · rw [if_neg (fun hc => hz hc.2), if_neg (fun hc => hz hc.2)]
        rw [hnio j hji]
        by_cases hkn : k = n
        · rw [hkn, hnfn, count_append_single, if_neg hji, Nat.add_zero,
            hA n (by omega) j hj, hcong n]
        · rw [hnfo k hkn, hA k hk j hj, hcong k]
    · intro k hk y hy
      by_cases hkn : k = n
      · rw [hkn, hnfn] at hy
        rcases List.mem_append.mp hy with h1 | h1
        · have := hC n (by omega) y h1
          omega
        · rw [List.mem_singleton] at h1
          omega
      · rw [hnfo k hkn] at hy
        have := hC k hk y hy
        omega
    · intro j hj hji1
      by_cases hji : j = i
      · rw [hji, hnii]
        exact ⟨Or.inl (by omega), by omega⟩
      · rw [hnio j hji]
        exact hD j hj (by omega)
  · rw [if_neg hlt] at hnf
    have hnmax : n = usizeMAX := by
      rcases hbound with h1 | h1
      · exact h1
      · exfalso
        apply hlt
        omega
    refine ⟨hwlen, ?_, ?_, ?_⟩
    · intro k hk j hj
      rw [hnf k]
      by_cases hji : j = i
      · rw [hji, hnii, hA k hk i (by omega), if_neg (by omega),
          if_neg (fun hc => absurd hc.2 (by omega))]
      · have hcong : ∀ m, (if j < i ∧ nniOf v j = m then 1 else 0) =
            (if j < i + 1 ∧ nniOf v j = m then 1 else 0) := by
          intro m
          by_cases hz : nniOf v j = m
          · by_cases hj2 : j < i
            · rw [if_pos ⟨hj2, hz⟩, if_pos ⟨by omega, hz⟩]
            · rw [if_neg (fun hc => hj2 hc.1),
                if_neg (fun hc => absurd hc.1 (by omega))]
          · rw [if_neg (fun hc => hz hc.2), if_neg (fun hc => hz hc.2)]
        rw [hnio j hji, hA k hk j hj, hcong k]
    · intro k hk y hy
      rw [hnf k] at hy
      have := hC k hk y hy
      omega
    · intro j hj hji1
      by_cases hji : j = i
      · rw [hji, hnii, hnmax]
        exact ⟨Or.inr rfl, by omega⟩
      · rw [hnio j hji]
        exact hD j hj (by omega)

/-- The `ClusterGeom::new` loop invariant over the whole index range, by
induction on the processed prefix. -/
theorem geomNew_fold (d : Distance) {init : List PJD} {len : ℕ}
    (hmax : len < usizeMAX) (hlen : init.length = len)
    (hA0 : ∀ k, k < len → nnfOf init k = []) :
    ∀ i, i ≤ len →
      ((List.range i).foldl (geomNewStep d) init).length = len ∧
      (∀ k, k < len → ∀ j, j < len →
        (nnfOf ((List.range i).foldl (geomNewStep d) init) k).count j =
          if j < i ∧ nniOf ((List.range i).foldl (geomNewStep d) init) j = k
          then 1 else 0) ∧
      (∀ k, k < len → ∀ y ∈ nnfOf ((List.range i).foldl (geomNewStep d) init) k,
        y < i) ∧
      (∀ j, j < len → j < i →
        (nniOf ((List.range i).foldl (geomNewStep d) init) j < len ∨
          nniOf ((List.range i).foldl (geomNewStep d) init) j = usizeMAX) ∧
        nniOf ((List.range i).foldl (geomNewStep d) init) j ≠ j) := by
  intro i
  induction i with
  | zero =>
    intro hi0
    simp only [List.range_zero, List.foldl_nil]
    refine ⟨hlen, ?_, ?_, ?_⟩
    · intro k hk j hj
      rw [hA0 k hk, if_neg (fun hc => absurd hc.1 (by omega))]
      rfl
    · intro k hk y hy
      rw [hA0 k hk] at hy
      exact absurd hy (List.not_mem_nil y)
    · intro j hj hj0
      omega
  | succ i ih =>
    intro hi1
    obtain ⟨hl, hA, hC, hD⟩ := ih (by omega)
    rw [List.range_succ, List.foldl_append, List.foldl_cons, List.foldl_nil]
    exact geomNewStep_inv hl hmax (by omega) hA hC hD

/-- `ClusterGeom::new` establishes the reverse-adjacency invariant for every
input (the hypothesis mirrors the `usize` bound on vector lengths). -/
theorem geom_new_spec (partons : List PseudoJet) (d : Distance)
    (hmax : partons.length < usizeMAX) :
    geomInv (ClusterGeom.new partons d).pseudojets := by
  unfold ClusterGeom.new
  dsimp only
  have hlen : (partons.map fun p => { PJD.defaultGeom with pseudojet := p }).length
      = partons.length := List.length_map _ _
  have hA0 : ∀ k, k < partons.length →
      nnfOf (partons.map fun p => { PJD.defaultGeom with pseudojet := p }) k = [] := by
    intro k hk
    unfold nnfOf gnthD
    rw [List.getD_eq_getElem?_getD, List.getElem?_map, List.getElem?_eq_getElem hk]
    rfl
  obtain ⟨hl, hA, hC, hD⟩ :=
    geomNew_fold d hmax hlen hA0 partons.length (le_refl partons.length)
  rw [hlen]
  refine ⟨?_, ?_, ?_, ?_, ?_⟩
  · rw [hl]
    exact hmax
  · intro k hk j hj
    rw [hl] at hk hj
    rw [hA k hk j hj]
    by_cases hz :
        nniOf ((List.range partons.length).foldl (geomNewStep d)
          (partons.map fun p => { PJD.defaultGeom with pseudojet := p })) j = k
    · rw [if_pos ⟨hj, hz⟩, if_pos hz]
    · rw [if_neg (fun hc => hz hc.2), if_neg hz]
  · intro k hk y hy
    rw [hl] at hk
    rw [hl]
    exact lt_of_lt_of_le (hC k hk y hy) (le_refl _)
  · intro j hj
    rw [hl] at hj
    rw [hl]
    exact (hD j hj hj).1
  · intro j hj
    rw [hl] at hj
    exact (hD j hj hj).2

/-- A successful `ClusterGeom::remove` implies its index was in range. -/
theorem remove_lt {st : ClusterGeom} {idx : ℕ} {p : PJD} {st' : ClusterGeom}
    (h : st.remove idx = some (p, st')) : idx < st.pseudojets.length := by
  unfold ClusterGeom.remove at h
  split at h
  case isTrue hidx => exact hidx
  case isFalse => cases h

/-- `ClusterGeom`'s `Iterator::next` preserves the invariant on every emitted
step (one `remove` for a jet, two `remove`s and a `push` for a merge). -/
theorem geom_next_spec {fns : CacheFns} {st st' : ClusterGeom} {s : ClusterStep}
    (hinv : geomInv st.pseudojets)
    (h : ClusterGeom.next fns st = StepRes.step s st') :
    geomInv st'.pseudojets := by
  unfold ClusterGeom.next at h
  split at h
  · cases h
  case h_2 i hmin =>
  split at h
  · cases h
  case h_2 pi st1 hrm1 =>
  have hi1 := remove_lt hrm1
  obtain ⟨hinv1, hlen1⟩ := remove_spec hinv hrm1
  by_cases hbeam : pi.beam_dist < pi.nearest_dist
  case pos =>
    rw [if_pos hbeam] at h
    cases h
    exact hinv1
  case neg =>
  rw [if_neg hbeam] at h
  dsimp only at h
  split at h
  · cases h
  case h_2 pj st2 hrm2 =>
  have hi2 := remove_lt hrm2
  obtain ⟨hinv2, hlen2⟩ := remove_spec hinv1 hrm2
  split at h
  · cases h
  case h_2 st3 hpush =>
  cases h
  obtain ⟨h0, -, -, -, -⟩ := hinv
  exact (push_spec hinv2 (by omega) hpush).1

/-- The tiled `remove_nearest_link` leaves the tile grid, the distance and
all four-momenta unchanged. -/
theorem tile_rnl_keep {s s' : ClusterGeomTile} {pos : ℕ}
    (h : s.remove_nearest_link pos = some s') :
    s'.tiles = s.tiles ∧ s'.distance = s.distance ∧
      pjKeep s.pseudojets s'.pseudojets := by
  unfold ClusterGeomTile.remove_nearest_link at h
  split at h
  case isFalse => cases h
  case isTrue hpos =>
  simp only [Option.bind_eq_bind, Option.bind_eq_some, Option.pure_def,
    Option.some.injEq] at h
  obtain ⟨vpos, hvpos, h⟩ := h
  split at h
  case isTrue hni =>
    simp only [Option.bind_eq_bind, Option.bind_eq_some, Option.pure_def,
      Option.some.injEq] at h
    obtain ⟨vn, hvn, idx, hidx, heq⟩ := h
    rw [← heq]
    exact ⟨rfl, rfl, pjKeep_set (by rw [gnthD_of_get? hvn])⟩
  case isFalse hni =>
    cases h
    exact ⟨rfl, rfl, pjKeep_refl _⟩

/-- The tiled `update_nearest_at_idx` leaves the tile grid, the distance and
all four-momenta unchanged (it only rewires nearest pointers and cached
distances). -/
theorem tile_upd_at_idx_keep {s s' : ClusterGeomTile} {pos : ℕ}
    (h : s.update_nearest_at_idx pos = some s') :
    s'.tiles = s.tiles ∧ s'.distance = s.distance ∧
      pjKeep s.pseudojets s'.pseudojets := by
  unfold ClusterGeomTile.update_nearest_at_idx at h
  split at h
  case isFalse => cases h
  case isTrue hpos =>
  simp only [Option.bind_eq_bind, Option.bind_eq_some, Option.pure_def,
    Option.some.injEq] at h
  obtain ⟨st1, hrnl, h⟩ := h
  obtain ⟨hk1t, hk1d, hk1⟩ := tile_rnl_keep hrnl
  obtain ⟨rc, hrc, h⟩ := h
  obtain ⟨r, c⟩ := rc
  dsimp only at h
  obtain ⟨vpos, hvpos, h⟩ := h
  split at h
  · split at h
    · simp only [Option.bind_eq_bind, Option.bind_eq_some, Option.pure_def,
        Option.some.injEq] at h
      obtain ⟨vn, hvn, vpos2, hvpos2, vn2, hvn2, heq⟩ := h
      rw [← heq]
      refine ⟨?_, ?_, ?_⟩
      · dsimp only
        rw [hk1t]
      · dsimp only
        rw [hk1d]
      · dsimp only
        refine pjKeep_trans (pjKeep_trans (pjKeep_trans hk1 (pjKeep_set ?_))
          (pjKeep_set ?_)) (pjKeep_set ?_)
        · rw [gnthD_of_get? hvpos]
        · rw [gnthD_of_get? hvn]
        · rw [gnthD_of_get? hvpos2]
    · cases h
  · simp only [Option.bind_eq_bind, Option.bind_eq_some, Option.pure_def,
      Option.some.injEq] at h
    obtain ⟨vpos2, hvpos2, heq⟩ := h
    rw [← heq]
    refine ⟨?_, ?_, ?_⟩
    · dsimp only
      rw [hk1t]
    · dsimp only
      rw [hk1d]
    · dsimp only
      refine pjKeep_trans (pjKeep_trans hk1 (pjKeep_set ?_)) (pjKeep_set ?_)
      · rw [gnthD_of_get? hvpos]
      · rw [gnthD_of_get? hvpos2]

/-- The tiled `update_nearest` leaves the tile grid, the distance and all
four-momenta unchanged. -/
theorem tile_update_nearest_keep {s s' : ClusterGeomTile} {pos : List ℕ}
    (h : s.update_nearest pos = some s') :
    s'.tiles = s.tiles ∧ s'.distance = s.distance ∧
      pjKeep s.pseudojets s'.pseudojets := by
  unfold ClusterGeomTile.update_nearest at h
  exact foldlM_keepTiles (fun st idx => st.update_nearest_at_idx idx)
    (fun s a s' h => tile_upd_at_idx_keep h) pos s s' h

/-- Endgame of a same-tile `ClusterGeomTile::swap`: every index other than
`j` still sits in exactly its own tile, while `j` has been dropped from the
grid entirely (the insert after the first `swap_remove` is a no-op on the
shared cell, so the second `swap_remove` deletes `j` with no reinsertion). -/
theorem swap_same_tile_core {st st' : ClusterGeomTile} {i j r c : ℕ}
    {v4 : List PJD} {a b : PJD}
    (hpart : tilePartition st)
    (hil : i < st.pseudojets.length) (hjl : j < st.pseudojets.length)
    (hij : i ≠ j)
    (hci : tile_coord (gnthD st.pseudojets i).pseudojet = some (r, c))
    (hcj : tile_coord (gnthD st.pseudojets j).pseudojet = some (r, c))
    (kk : pjKeep st.pseudojets v4)
    (ha : v4.get? i = some a) (hb : v4.get? j = some b)
    (hps : st'.pseudojets = (v4.set i b).set j a)
    (hts : st'.tiles = updTiles (updTiles (updTiles (updTiles st.tiles r c
      (fun l => idxSwapRemove l i)) r c (fun l => idxInsert l j)) r c
      (fun l => idxSwapRemove l j)) r c (fun l => idxInsert l i)) :
    st'.pseudojets.length = st.pseudojets.length ∧
    (∀ r', r' < N_RAP_BINS → ∀ c', c' < N_PHI_BINS →
      ∀ y ∈ st'.tiles r' c', y < st.pseudojets.length) ∧
    (∀ r', r' < N_RAP_BINS → ∀ c', c' < N_PHI_BINS →
      (st'.tiles r' c').count j = 0) ∧
    (∀ k, k < st.pseudojets.length → k ≠ j →
      (tile_coord (gnthD st'.pseudojets k).pseudojet).isSome ∧
      ∀ r', r' < N_RAP_BINS → ∀ c', c' < N_PHI_BINS →
        (st'.tiles r' c').count k =
          if (tile_coord (gnthD st'.pseudojets k).pseudojet).getD (0, 0) = (r', c')
          then 1 else 0) := by
  have hlen4 : v4.length = st.pseudojets.length := kk.1
  have hapj : a.pseudojet = (gnthD st.pseudojets i).pseudojet := by
    rw [← gnthD_of_get? ha, kk.2 i]
  have hbpj : b.pseudojet = (gnthD st.pseudojets j).pseudojet := by
    rw [← gnthD_of_get? hb, kk.2 j]
  have hrB := tile_coord_lt hci
  have hcnt_i : ∀ r', r' < N_RAP_BINS → ∀ c', c' < N_PHI_BINS →
      (st.tiles r' c').count i = if (r, c) = (r', c') then 1 else 0 := by
    intro r' hr' c' hc'
    have h2 := (hpart.2 i hil).2 r' hr' c' hc'
    rw [hci] at h2
    simpa using h2
  have hcnt_j : ∀ r', r' < N_RAP_BINS → ∀ c', c' < N_PHI_BINS →
      (st.tiles r' c').count j = if (r, c) = (r', c') then 1 else 0 := by
    intro r' hr' c' hc'
    have h2 := (hpart.2 j hjl).2 r' hr' c' hc'
    rw [hcj] at h2
    simpa using h2
  have hmem_i : i ∈ st.tiles r c := by
    apply List.count_pos_iff.mp
    rw [hcnt_i r hrB.1 c hrB.2, if_pos rfl]
    omega
  have hcnt1 : ∀ y, (idxSwapRemove (st.tiles r c) i).count y =
      (st.tiles r c).count y - (if y = i then 1 else 0) :=
    idxSwapRemove_count hmem_i
  have hmem_j1 : j ∈ idxSwapRemove (st.tiles r c) i := by
    apply List.count_pos_iff.mp
    rw [hcnt1 j, if_neg (fun he => hij he.symm), hcnt_j r hrB.1 c hrB.2, if_pos rfl]
    omega
  have hl2 : idxInsert (idxSwapRemove (st.tiles r c) i) j =
      idxSwapRemove (st.tiles r c) i := by
    unfold idxInsert
    rw [if_pos hmem_j1]
  have hcnt3 : ∀ y, (idxSwapRemove (idxSwapRemove (st.tiles r c) i) j).count y =
      (st.tiles r c).count y - (if y = i then 1 else 0) - (if y = j then 1 else 0) := by
    intro y
    rw [idxSwapRemove_count hmem_j1 y, hcnt1 y]
  have hnm_i3 : i ∉ idxSwapRemove (idxSwapRemove (st.tiles r c) i) j := by
    intro hmem
    have h2 := List.count_pos_iff.mpr hmem
    rw [hcnt3 i, if_pos rfl, if_neg hij, hcnt_i r hrB.1 c hrB.2, if_pos rfl] at h2
    omega
  have hcnt4 : ∀ y,
      (idxInsert (idxSwapRemove (idxSwapRemove (st.tiles r c) i) j) i).count y =
      ((st.tiles r c).count y - (if y = i then 1 else 0) - (if y = j then 1 else 0)) +
        (if y = i then 1 else 0) := by
    intro y
    rw [idxInsert_count hnm_i3 y, hcnt3 y]
  have cell_rc : st'.tiles r c =
      idxInsert (idxSwapRemove (idxSwapRemove (st.tiles r c) i) j) i := by
    rw [hts, updTiles_same, updTiles_same, updTiles_same, updTiles_same, hl2]
  have cell_oth : ∀ r' c', ¬(r' = r ∧ c' = c) → st'.tiles r' c' = st.tiles r' c' := by
    intro r' c' hne
    rw [hts, updTiles_other _ _ _ _ hne, updTiles_other _ _ _ _ hne,
      updTiles_other _ _ _ _ hne, updTiles_other _ _ _ _ hne]
  have hlen2 : st'.pseudojets.length = st.pseudojets.length := by
    rw [hps, List.length_set, List.length_set, hlen4]
  have g_i : gnthD st'.pseudojets i = b := by
    rw [hps, gnthD_set_ne (fun he => hij he.symm),
      gnthD_set_self (by rw [hlen4]; exact hil)]
  have g_k : ∀ k, k ≠ i → k ≠ j → gnthD st'.pseudojets k = gnthD v4 k := by
    intro k hki hkj
    rw [hps, gnthD_set_ne (fun he => hkj he.symm), gnthD_set_ne (fun he => hki he.symm)]
  refine ⟨hlen2, ?_, ?_, ?_⟩
  · intro r' hr' c' hc' y hy
    by_cases hcell : r' = r ∧ c' = c
    · rw [hcell.1, hcell.2, cell_rc] at hy
      rcases idxInsert_mem hy with h1 | h1
      · exact hpart.1 r hrB.1 c hrB.2 y (idxSwapRemove_mem (idxSwapRemove_mem h1))
      · rw [h1]
        exact hil
    · rw [cell_oth r' c' hcell] at hy
      exact hpart.1 r' hr' c' hc' y hy
  · intro r' hr' c' hc'
    by_cases hcell : r' = r ∧ c' = c
    · rw [hcell.1, hcell.2, cell_rc, hcnt4 j, hcnt_j r hrB.1 c hrB.2]
      rw [if_pos rfl, if_neg (fun he => hij he.symm), if_pos rfl]
    · rw [cell_oth r' c' hcell, hcnt_j r' hr' c' hc',
        if_neg (fun he => hcell ⟨(congrArg Prod.fst he).symm,
          (congrArg Prod.snd he).symm⟩)]
  · intro k hk hkj
    by_cases hki : k = i
    · constructor
      · rw [hki, g_i, hbpj, hcj]
        rfl
      · intro r' hr' c' hc'
        rw [hki, g_i, hbpj, hcj]
        simp only [Option.getD_some]
        by_cases hcell : r' = r ∧ c' = c
        · rw [hcell.1, hcell.2, cell_rc, hcnt4 i, hcnt_i r hrB.1 c hrB.2]
          rw [if_pos rfl, if_neg hij, if_pos rfl]
        · rw [cell_oth r' c' hcell, hcnt_i r' hr' c' hc']
    · constructor
      · rw [g_k k hki hkj, kk.2 k]
        exact (hpart.2 k hk).1
      · intro r' hr' c' hc'
        rw [g_k k hki hkj, kk.2 k]
        have hold := (hpart.2 k hk).2 r' hr' c' hc'
        by_cases hcell : r' = r ∧ c' = c
        · rw [hcell.1, hcell.2] at hold ⊢
          rw [cell_rc, hcnt4 k, if_neg hki, if_neg hkj]
          simp only [Nat.sub_zero, Nat.add_zero]
          exact hold
        · rw [cell_oth r' c' hcell]
          exact hold

/-- Combined endgame of a tiled swap of distinct indices `i` and `x`: every
index other than `x` ends in exactly its own tile, and `x` occurs at most
once, in its own tile (exactly once for distinct tiles, never for a shared
tile). -/
theorem tile_swap_cases_end {st st1 : ClusterGeomTile} {i x ri ci rj cj : ℕ}
    {v4 : List PJD} {a b : PJD}
    (hpart : tilePartition st)
    (hil : i < st.pseudojets.length) (hxl : x < st.pseudojets.length)
    (hix : i ≠ x)
    (hci : tile_coord (gnthD st.pseudojets i).pseudojet = some (ri, ci))
    (hcj : tile_coord (gnthD st.pseudojets x).pseudojet = some (rj, cj))
    (hkk : pjKeep st.pseudojets v4)
    (ha : v4.get? i = some a) (hb : v4.get? x = some b)
    (heq : { st with
        pseudojets := (v4.set i b).set x a
        tiles := updTiles (updTiles (updTiles (updTiles st.tiles ri ci
          (fun l => idxSwapRemove l i)) ri ci (fun l => idxInsert l x)) rj cj
          (fun l => idxSwapRemove l x)) rj cj (fun l => idxInsert l i) } = st1) :
    st1.pseudojets.length = st.pseudojets.length ∧
    (∀ r', r' < N_RAP_BINS → ∀ c', c' < N_PHI_BINS →
      ∀ y ∈ st1.tiles r' c', y < st.pseudojets.length) ∧
    (∀ k, k < st.pseudojets.length → k ≠ x →
      (tile_coord (gnthD st1.pseudojets k).pseudojet).isSome ∧
      ∀ r', r' < N_RAP_BINS → ∀ c', c' < N_PHI_BINS →
        (st1.tiles r' c').count k =
          if (tile_coord (gnthD st1.pseudojets k).pseudojet).getD (0, 0) = (r', c')
          then 1 else 0) ∧
    (∀ r', r' < N_RAP_BINS → ∀ c', c' < N_PHI_BINS →
      (st1.tiles r' c').count x ≤
        if (tile_coord (gnthD st1.pseudojets x).pseudojet).getD (0, 0) = (r', c')
        then 1 else 0) := by
  by_cases hsame : (ri, ci) = (rj, cj)
  · have hr : ri = rj := congrArg Prod.fst hsame
    have hc : ci = cj := congrArg Prod.snd hsame
    rw [← hr, ← hc] at hcj
    have hps : st1.pseudojets = (v4.set i b).set x a := by
      rw [← heq]
    have hts : st1.tiles = updTiles (updTiles (updTiles (updTiles st.tiles ri ci
        (fun l => idxSwapRemove l i)) ri ci (fun l => idxInsert l x)) ri ci
        (fun l => idxSwapRemove l x)) ri ci (fun l => idxInsert l i) := by
      rw [← heq]
      dsimp only
      rw [← hr, ← hc]
    obtain ⟨h1, h2, h3, h4⟩ :=
      swap_same_tile_core hpart hil hxl hix hci hcj hkk ha hb hps hts
    refine ⟨h1, h2, h4, ?_⟩
    intro r' hr' c' hc'
    rw [h3 r' hr' c' hc']
    exact Nat.zero_le _
  · have hne : (ri, ci) ≠ (rj, cj) := hsame
    have hp0 := swap_tiles_partition_core st i x ri ci rj cj v4 a b hpart hil hxl hix
      hci hcj hne hkk ha hb
    rw [heq] at hp0
    have hl1 : st1.pseudojets.length = st.pseudojets.length := by
      rw [← heq]
      dsimp only
      rw [List.length_set, List.length_set, hkk.1]
    refine ⟨hl1, ?_, ?_, ?_⟩
    · intro r' hr' c' hc' y hy
      have h2 := hp0.1 r' hr' c' hc' y hy
      omega
    · intro k hk hkx
      exact hp0.2 k (by omega)
    · intro r' hr' c' hc'
      exact le_of_eq ((hp0.2 x (by omega)).2 r' hr' c' hc')

/-- Case analysis of a successful tiled `swap st i x`: for the reflexive
swap and for distinct indices in distinct tiles the partition is intact; for
a shared tile only the index `x` is dropped from the grid.  Uniformly: every
active index other than `x` sits in exactly its own tile, and `x` occurs at
most once, in its own tile. -/
theorem tile_swap_cases {st st1 : ClusterGeomTile} {i x : ℕ}
    (hpart : tilePartition st)
    (h : ClusterGeomTile.swap st i x = some st1) :
    st1.pseudojets.length = st.pseudojets.length ∧
    (∀ r', r' < N_RAP_BINS → ∀ c', c' < N_PHI_BINS →
      ∀ y ∈ st1.tiles r' c', y < st.pseudojets.length) ∧
    (∀ k, k < st.pseudojets.length → k ≠ x →
      (tile_coord (gnthD st1.pseudojets k).pseudojet).isSome ∧
      ∀ r', r' < N_RAP_BINS → ∀ c', c' < N_PHI_BINS →
        (st1.tiles r' c').count k =
          if (tile_coord (gnthD st1.pseudojets k).pseudojet).getD (0, 0) = (r', c')
          then 1 else 0) ∧
    (∀ r', r' < N_RAP_BINS → ∀ c', c' < N_PHI_BINS →
      (st1.tiles r' c').count x ≤
        if (tile_coord (gnthD st1.pseudojets x).pseudojet).getD (0, 0) = (r', c')
        then 1 else 0) := by
  unfold ClusterGeomTile.swap at h
  by_cases hrange : i < st.pseudojets.length ∧ x < st.pseudojets.length
  case neg =>
    rw [if_neg hrange] at h
    cases h
  rw [if_pos hrange] at h
  obtain ⟨hil, hxl⟩ := hrange
  by_cases hix : i = x
  case pos =>
    rw [if_pos hix] at h
    cases h
    refine ⟨rfl, ?_, ?_, ?_⟩
    · intro r' hr' c' hc' y hy
      exact hpart.1 r' hr' c' hc' y hy
    · intro k hk hkx
      exact hpart.2 k hk
    · intro r' hr' c' hc'
      exact le_of_eq ((hpart.2 x hxl).2 r' hr' c' hc')
  case neg =>
  rw [if_neg hix] at h
  simp only [Option.bind_eq_bind, Option.bind_eq_some, Option.pure_def,
    Option.some.injEq] at h
  obtain ⟨vi, hvi, h⟩ := h
  obtain ⟨vj, hvj, h⟩ := h
  have hgi : gnthD st.pseudojets i = vi := gnthD_of_get? hvi
  have hgj : gnthD st.pseudojets x = vj := gnthD_of_get? hvj
  obtain ⟨rci, hrci, h⟩ := h
  obtain ⟨ri, ci⟩ := rci
  obtain ⟨rcj, hrcj, h⟩ := h
  obtain ⟨rj, cj⟩ := rcj
  have hci : tile_coord (gnthD st.pseudojets i).pseudojet = some (ri, ci) := by
    rw [hgi]
    exact hrci
  have hcj : tile_coord (gnthD st.pseudojets x).pseudojet = some (rj, cj) := by
    rw [hgj]
    exact hrcj
  dsimp only at h
  obtain ⟨v1, hv1, h⟩ := h
  obtain ⟨v2, hv2, h⟩ := h
  have kk0 : pjKeep st.pseudojets v2 :=
    pjKeep_trans (setNNIsT_keep _ _ _ _ hv1) (setNNIsT_keep _ _ _ _ hv2)
  split at h
  · simp only [Option.bind_eq_bind, Option.bind_eq_some, Option.some.injEq] at h
    obtain ⟨v3, hv3, h⟩ := h
    have k3 : pjKeep v2 v3 := replNNFEntry_keep hv3
    split at h
    · simp only [Option.bind_eq_bind, Option.bind_eq_some, Option.some.injEq] at h
      obtain ⟨v4, hv4, a, ha, b, hb, hst1⟩ := h
      have k4 : pjKeep v3 v4 := replNNFEntry_keep hv4
      exact tile_swap_cases_end hpart hil hxl hix hci hcj
        (pjKeep_trans kk0 (pjKeep_trans k3 k4)) ha hb hst1
    · simp only [Option.some_bind, Option.bind_eq_some, Option.some.injEq] at h
      obtain ⟨a, ha, b, hb, hst1⟩ := h
      exact tile_swap_cases_end hpart hil hxl hix hci hcj
        (pjKeep_trans kk0 k3) ha hb hst1
  · simp only [Option.some_bind, Option.bind_eq_bind, Option.bind_eq_some,
      Option.some.injEq] at h
    split at h
    · simp only [Option.bind_eq_bind, Option.bind_eq_some, Option.some.injEq] at h
      obtain ⟨v4, hv4, a, ha, b, hb, hst1⟩ := h
      have k4 : pjKeep v2 v4 := replNNFEntry_keep hv4
      exact tile_swap_cases_end hpart hil hxl hix hci hcj
        (pjKeep_trans kk0 k4) ha hb hst1
    · simp only [Option.bind_eq_bind, Option.bind_eq_some, Option.some.injEq] at h
      obtain ⟨a, ha, b, hb, hst1⟩ := h
      exact tile_swap_cases_end hpart hil hxl hix hci hcj kk0 ha hb hst1

/-- `ClusterGeomTile::remove` preserves the tile partition and shrinks the
vector by one: after the swap to the end (which at worst drops the swapped-to
index from the grid), the unlink, the tile deletion, the pop and the rescan,
the partition holds again. -/
theorem tile_remove_spec {st st' : ClusterGeomTile} {idx : ℕ} {p : PJD}
    (hpart : tilePartition st)
    (h : st.remove idx = some (p, st')) :
    tilePartition st' ∧ st'.pseudojets.length = st.pseudojets.length - 1 := by
  unfold ClusterGeomTile.remove at h
  split at h
  case isFalse => cases h
  case isTrue hidx =>
  simp only [Option.bind_eq_bind, Option.bind_eq_some, Option.pure_def,
    Option.some.injEq, Prod.mk.injEq] at h
  obtain ⟨st1, hsw, h⟩ := h
  obtain ⟨st2, hrnl, h⟩ := h
  obtain ⟨rc, hrc, h⟩ := h
  obtain ⟨r, c⟩ := rc
  dsimp only at h
  obtain ⟨popped, hpop, h⟩ := h
  obtain ⟨st5, hupd, hpeq, hsteq⟩ := h
  obtain ⟨hL1, hU2, hU3, hU4⟩ := tile_swap_cases hpart hsw
  obtain ⟨ht2, hd2, hk2⟩ := tile_rnl_keep hrnl
  have hlen1 : 1 ≤ st.pseudojets.length := by omega
  have hk21 : st2.pseudojets.length = st1.pseudojets.length := hk2.1
  have hlen2 : st2.pseudojets.length = st.pseudojets.length := by omega
  have hxeq : st2.pseudojets.length - 1 = st.pseudojets.length - 1 := by omega
  have hrc2 : tile_coord (gnthD st2.pseudojets (st.pseudojets.length - 1)).pseudojet
      = some (r, c) := by
    rw [← hxeq]
    exact hrc
  have hrcs1 : tile_coord (gnthD st1.pseudojets (st.pseudojets.length - 1)).pseudojet
      = some (r, c) := by
    rw [← hk2.2 (st.pseudojets.length - 1)]
    exact hrc2
  have hrB : r < N_RAP_BINS ∧ c < N_PHI_BINS := tile_coord_lt hrcs1
  have hU4' : ∀ r', r' < N_RAP_BINS → ∀ c', c' < N_PHI_BINS →
      (st1.tiles r' c').count (st.pseudojets.length - 1) ≤
        if (r, c) = (r', c') then 1 else 0 := by
    intro r' hr' c' hc'
    have h2 := hU4 r' hr' c' hc'
    rw [hrcs1] at h2
    simpa using h2
  have hdel0 : ∀ r', r' < N_RAP_BINS → ∀ c', c' < N_PHI_BINS →
      (updTiles st2.tiles r c
        (fun l => idxSwapRemove l (st2.pseudojets.length - 1)) r' c').count
        (st.pseudojets.length - 1) = 0 := by
    intro r' hr' c' hc'
    by_cases hcell : r' = r ∧ c' = c
    · rw [hcell.1, hcell.2, updTiles_same, hxeq, ht2]
      by_cases hm : (st.pseudojets.length - 1) ∈ st1.tiles r c
      · rw [idxSwapRemove_count hm, if_pos rfl]
        have hle := hU4' r hrB.1 c hrB.2
        rw [if_pos rfl] at hle
        have hge := List.count_pos_iff.mpr hm
        omega
      · rw [idxSwapRemove_of_not_mem hm, List.count_eq_zero.mpr hm]
    · rw [updTiles_other _ _ _ _ hcell, ht2]
      have hle := hU4' r' hr' c' hc'
      rw [if_neg (fun he => hcell ⟨(congrArg Prod.fst he).symm,
        (congrArg Prod.snd he).symm⟩)] at hle
      omega
  have hdelk : ∀ k, k ≠ st.pseudojets.length - 1 →
      ∀ r', r' < N_RAP_BINS → ∀ c', c' < N_PHI_BINS →
      (updTiles st2.tiles r c
        (fun l => idxSwapRemove l (st2.pseudojets.length - 1)) r' c').count k =
        (st1.tiles r' c').count k := by
    intro k hk r' hr' c' hc'
    by_cases hcell : r' = r ∧ c' = c
    · rw [hcell.1, hcell.2, updTiles_same, hxeq, ht2]
      by_cases hm : (st.pseudojets.length - 1) ∈ st1.tiles r c
      · rw [idxSwapRemove_count hm, if_neg hk, Nat.sub_zero]
      · rw [idxSwapRemove_of_not_mem hm]
    · rw [updTiles_other _ _ _ _ hcell, ht2]
  have hdelmem : ∀ r', r' < N_RAP_BINS → ∀ c', c' < N_PHI_BINS →
      ∀ y ∈ updTiles st2.tiles r c
        (fun l => idxSwapRemove l (st2.pseudojets.length - 1)) r' c',
        y < st.pseudojets.length := by
    intro r' hr' c' hc' y hy
    by_cases hcell : r' = r ∧ c' = c
    · rw [hcell.1, hcell.2, updTiles_same, ht2] at hy
      exact hU2 r hrB.1 c hrB.2 y (idxSwapRemove_mem hy)
    · rw [updTiles_other _ _ _ _ hcell, ht2] at hy
      exact hU2 r' hr' c' hc' y hy
  rw [← hsteq]
  obtain ⟨ht5, hd5, hk5⟩ := tile_update_nearest_keep hupd
  constructor
  · refine tilePartition_keep ht5 hk5 ?_
    constructor
    · intro r' hr' c' hc' y hy
      dsimp only at hy ⊢
      rw [List.length_dropLast]
      have hylt := hdelmem r' hr' c' hc' y hy
      have hyne : y ≠ st.pseudojets.length - 1 := by
        intro he
        have h0 := hdel0 r' hr' c' hc'
        rw [List.count_eq_zero] at h0
        exact h0 (he ▸ hy)
      omega
    · intro k hk
      dsimp only at hk ⊢
      rw [List.length_dropLast] at hk
      have hg : gnthD st2.pseudojets.dropLast k = gnthD st2.pseudojets k :=
        gnthD_dropLast (by omega)
      have hcoordk : tile_coord (gnthD st2.pseudojets k).pseudojet =
          tile_coord (gnthD st1.pseudojets k).pseudojet := by
        rw [hk2.2 k]
      obtain ⟨hks, hkc⟩ := hU3 k (by omega) (by omega)
      constructor
      · rw [hg, hcoordk]
        exact hks
      · intro r' hr' c' hc'
        rw [hg, hcoordk]
        rw [hdelk k (by omega) r' hr' c' hc']
        exact hkc r' hr' c' hc'
  · rw [hk5.1]
    dsimp only
    rw [List.length_dropLast]
    omega

/-- The scan loop of `ClusterGeomTile::push` leaves the tile grid, the
distance and all four-momenta unchanged (it only rewires nearest pointers). -/
theorem tile_push_fold_keep (len : ℕ) :
    ∀ (L : List ℕ) (acc res : ClusterGeomTile × PJD × NF × ℕ),
      L.foldlM
        (fun (acc : ClusterGeomTile × PJD × NF × ℕ) n => do
          let (st, newrec, bestd, besti) := acc
          let vn ← st.pseudojets.get? n
          let d := st.distance.distance newrec.pseudojet vn.pseudojet
          let (bestd, besti) := if d < bestd then (d, n) else (bestd, besti)
          if d < vn.nearest_dist then do
            let st ← st.remove_nearest_link n
            let vn2 ← st.pseudojets.get? n
            let v1 := st.pseudojets.set n { vn2 with nearest_neighbour_idx := len }
            let st : ClusterGeomTile := { st with pseudojets := v1 }
            let newrec : PJD :=
              { newrec with nearest_neighbour_for := newrec.nearest_neighbour_for ++ [n] }
            pure (st, newrec, bestd, besti)
          else pure (st, newrec, bestd, besti))
        acc = some res →
      res.1.tiles = acc.1.tiles ∧ res.1.distance = acc.1.distance ∧
        pjKeep acc.1.pseudojets res.1.pseudojets ∧
        res.2.1.pseudojet = acc.2.1.pseudojet := by
  intro L
  induction L with
  | nil =>
    intro acc res h
    rw [List.foldlM_nil] at h
    cases h
    exact ⟨rfl, rfl, pjKeep_refl _, rfl⟩
  | cons n L ih =>
    intro acc res h
    rw [List.foldlM_cons] at h
    simp only [Option.bind_eq_bind, Option.bind_eq_some] at h
    obtain ⟨acc1, hstep, hrest⟩ := h
    obtain ⟨htr, hdr, hkr, hpr⟩ := ih acc1 res hrest
    obtain ⟨stc, rec, bd, bi⟩ := acc
    dsimp only at hstep ⊢
    simp only [Option.bind_eq_bind, Option.bind_eq_some, Option.pure_def,
      Option.some.injEq] at hstep
    obtain ⟨vn, hvn, hstep⟩ := hstep
    split at hstep
    case isTrue hd =>
      simp only [Option.bind_eq_bind, Option.bind_eq_some, Option.pure_def,
        Option.some.injEq] at hstep
      obtain ⟨st2, hrnl, vn2, hvn2, heq⟩ := hstep
      obtain ⟨ht1, hd1, hk1⟩ := tile_rnl_keep hrnl
      rw [← heq] at htr hdr hkr hpr
      dsimp only at htr hdr hkr hpr
      refine ⟨?_, ?_, ?_, ?_⟩
      · rw [htr, ht1]
      · rw [hdr, hd1]
      · refine pjKeep_trans (pjKeep_trans hk1 (pjKeep_set ?_)) hkr
        rw [gnthD_of_get? hvn2]
      · exact hpr
    case isFalse hd =>
      have heq := Option.some.inj hstep
      rw [← heq] at htr hdr hkr hpr
      exact ⟨htr, hdr, hkr, hpr⟩

/-- Appending the new record of `ClusterGeomTile::push` and inserting its
index into its tile preserves the tile partition. -/
theorem tile_push_assemble {s : ClusterGeomTile} {v : List PJD} {nr : PJD} {r c : ℕ}
    (hpart : tilePartition s)
    (hkeep : pjKeep s.pseudojets v)
    (hrc : tile_coord nr.pseudojet = some (r, c)) :
    tilePartition
      { pseudojets := v ++ [nr]
        distance := s.distance
        tiles := updTiles s.tiles r c (fun l => idxInsert l v.length) } := by
  have hvlen : v.length = s.pseudojets.length := hkeep.1
  have hrB : r < N_RAP_BINS ∧ c < N_PHI_BINS := tile_coord_lt hrc
  have hnotin : ∀ r', r' < N_RAP_BINS → ∀ c', c' < N_PHI_BINS →
      v.length ∉ s.tiles r' c' := by
    intro r' hr' c' hc' hmem
    have h2 := hpart.1 r' hr' c' hc' _ hmem
    omega
  have hcnt0 : ∀ r', r' < N_RAP_BINS → ∀ c', c' < N_PHI_BINS →
      (s.tiles r' c').count v.length = 0 := by
    intro r' hr' c' hc'
    exact List.count_eq_zero.mpr (hnotin r' hr' c' hc')
  have hglt : ∀ k, k < v.length → gnthD (v ++ [nr]) k = gnthD v k := by
    intro k hk
    exact gnthD_append_lt hk
  have hglast : gnthD (v ++ [nr]) v.length = nr := gnthD_append_last
  constructor
  · intro r' hr' c' hc' y hy
    dsimp only at hy ⊢
    rw [List.length_append, List.length_singleton]
    by_cases hcell : r' = r ∧ c' = c
    · rw [hcell.1, hcell.2, updTiles_same] at hy
      rcases idxInsert_mem hy with h1 | h1
      · have h2 := hpart.1 r hrB.1 c hrB.2 y h1
        omega
      · omega
    · rw [updTiles_other _ _ _ _ hcell] at hy
      have h2 := hpart.1 r' hr' c' hc' y hy
      omega
  · intro k hk
    dsimp only at hk ⊢
    rw [List.length_append, List.length_singleton] at hk
    by_cases hkl : k = v.length
    · constructor
      · rw [hkl, hglast, hrc]
        rfl
      · intro r' hr' c' hc'
        rw [hkl, hglast, hrc]
        simp only [Option.getD_some]
        by_cases hcell : r' = r ∧ c' = c
        · rw [hcell.1, hcell.2, updTiles_same,
            idxInsert_count (hnotin r hrB.1 c hrB.2), if_pos rfl,
            hcnt0 r hrB.1 c hrB.2, if_pos rfl]
        · rw [updTiles_other _ _ _ _ hcell, hcnt0 r' hr' c' hc',
            if_neg (fun he => hcell ⟨(congrArg Prod.fst he).symm,
              (congrArg Prod.snd he).symm⟩)]
    · have hks : k < s.pseudojets.length := by omega
      obtain ⟨hksi, hksc⟩ := hpart.2 k hks
      constructor
      · rw [hglt k (by omega), hkeep.2 k]
        exact hksi
      · intro r' hr' c' hc'
        rw [hglt k (by omega), hkeep.2 k]
        by_cases hcell : r' = r ∧ c' = c
        · rw [hcell.1, hcell.2, updTiles_same,
            idxInsert_count (hnotin r hrB.1 c hrB.2), if_neg hkl, Nat.add_zero]
          exact hksc r hrB.1 c hrB.2
        · rw [updTiles_other _ _ _ _ hcell]
          exact hksc r' hr' c' hc'

/-- `ClusterGeomTile::push` preserves the tile partition and grows the
vector by one: the new index is inserted exactly once, into the tile of the
pushed pseudojet. -/
theorem tile_push_spec {st st' : ClusterGeomTile} {pj : PseudoJet}
    (hpart : tilePartition st)
    (h : st.push pj = some st') :
    tilePartition st' ∧ st'.pseudojets.length = st.pseudojets.length + 1 := by
  unfold ClusterGeomTile.push at h
  simp only [Option.bind_eq_bind, Option.bind_eq_some, Option.pure_def,
    Option.some.injEq] at h
  obtain ⟨rc, hrc, h⟩ := h
  obtain ⟨r, c⟩ := rc
  dsimp only at h
  obtain ⟨res, hfold, h⟩ := h
  obtain ⟨stf, recf, bdf, bi⟩ := res
  dsimp only at h
  obtain ⟨hft, hfd, hfk, hfp⟩ := tile_push_fold_keep st.pseudojets.length _ _ _ hfold
  dsimp only at hft hfd hfk hfp
  have hpartf : tilePartition stf := tilePartition_keep hft hfk hpart
  split at h
  case isTrue hblt =>
    split at h
    case isFalse hblen => cases h
    case isTrue hblen =>
      simp only [Option.bind_eq_bind, Option.bind_eq_some, Option.pure_def,
        Option.some.injEq] at h
      obtain ⟨vb, hvb, vb2, hvb2, heq⟩ := h
      rw [← heq]
      refine ⟨tile_push_assemble hpartf (pjKeep_set ?_) ?_, ?_⟩
      · rw [gnthD_of_get? hvb]
      · show tile_coord recf.pseudojet = some (r, c)
        rw [hfp]
        exact hrc
      · dsimp only
        rw [List.length_append, List.length_singleton, List.length_set, hfk.1]
  case isFalse hblt =>
    have heq := Option.some.inj h
    rw [← heq]
    refine ⟨tile_push_assemble hpartf (pjKeep_refl _) ?_, ?_⟩
    · show tile_coord recf.pseudojet = some (r, c)
      rw [hfp]
      exact hrc
    · dsimp only
      rw [List.length_append, List.length_singleton, hfk.1]

/-- `ClusterGeomTile`'s `Iterator::next` preserves the tile partition: every
emitted successor state again partitions the live indices over the tile grid. -/
theorem tile_next_spec {fns : CacheFns} {st st' : ClusterGeomTile} {s : ClusterStep}
    (hpart : tilePartition st)
    (h : ClusterGeomTile.next fns st = StepRes.step s st') :
    tilePartition st' := by
  unfold ClusterGeomTile.next at h
  split at h
  · cases h
  case h_2 i hmin =>
  split at h
  · cases h
  case h_2 pi st1 hrm1 =>
  obtain ⟨hpart1, hlen1⟩ := tile_remove_spec hpart hrm1
  by_cases hbeam : pi.beam_dist < pi.nearest_dist
  case pos =>
    rw [if_pos hbeam] at h
    cases h
    exact hpart1
  case neg =>
  rw [if_neg hbeam] at h
  dsimp only at h
  split at h
  · cases h
  case h_2 pj st2 hrm2 =>
  obtain ⟨hpart2, hlen2⟩ := tile_remove_spec hpart1 hrm2
  split at h
  · cases h
  case h_2 st3 hpush =>
  cases h
  exact (tile_push_spec hpart2 hpush).1

/-! ## Claim theorems -/

/-- Claim C1: the claim states that the naive, geometric and tiled engines
emit identical step sequences for every input and distance measure.  The code
violates this: on the two beam-axis partons `(1,0,0,1)`, `(1,0,0,-1)` with
`anti_kt_f(0.4)`, the naive engine emits the two steps `Jet`, `Jet`, while
both geometric engines panic at their first step (their `remove` assertion
fails with `idx = usize::MAX`, because the beam distance `1/pt2 = +inf`
exceeds the `N64::max_value()` nearest-distance sentinel, so the combine
branch is taken with no nearest neighbour). -/
theorem C1_engine_divergence_on_beam_axis_input :
    runNaive stubFns 2 (ClusterNaive.new [beamJet1, beamJet2] (anti_kt r04)) =
      some [ClusterStep.jet beamJet1, ClusterStep.jet beamJet2] ∧
    ClusterGeom.next stubFns (ClusterGeom.new [beamJet1, beamJet2] (anti_kt r04)) =
      StepRes.crash ∧
    (ClusterGeomTile.new [beamJet1, beamJet2] (anti_kt r04)).map
      (fun st => ClusterGeomTile.next stubFns st) = some StepRes.crash :=
  ⟨naive_run_eval, geom_next_eval, tile_next_eval⟩

/-- Claim C2: the claim states that the cluster-step iterator always yields
exactly N items and then `None`.  The geometric engine violates this: on the
two beam-axis partons `(1,0,0,1)`, `(1,0,0,-1)` with `anti_kt_f(0.4)` its
first `next` call panics instead of yielding a step, so the run produces no
step sequence at all (modelled as `none`), not 2 items. -/
theorem C2_geom_engine_panics_on_beam_axis_input :
    ClusterGeom.next stubFns (ClusterGeom.new [beamJet1, beamJet2] (anti_kt r04)) =
      StepRes.crash ∧
    runGeom stubFns 2 (ClusterGeom.new [beamJet1, beamJet2] (anti_kt r04)) = none :=
  ⟨geom_next_eval, geom_run_eval⟩

/-- Claim C3: for every input list of pseudojets and every distance measure,
the componentwise (float) sum of the four-momenta of all emitted `Jet` steps
equals the componentwise sum of the input four-momenta.  Proved for the
naive engine (the engine the claim's code citations name) on inputs whose
components are all finite, with the engine run to completion (fuel = N): the
emitted jets partition the inputs into merge trees, `AddAssign` adds the
components, and for finite components the float sums agree exactly. -/
theorem C3_four_momentum_conservation (fns : CacheFns) (partons : List PseudoJet)
    (d : Distance) (hfin : ∀ p ∈ partons, finiteComps p) :
    ∃ steps,
      runNaive fns partons.length (ClusterNaive.new partons d) = some steps ∧
      steps.length = partons.length ∧
      compSum (fun p => p.e) (jetsOf steps) = compSum (fun p => p.e) partons ∧
      compSum (fun p => p.px) (jetsOf steps) = compSum (fun p => p.px) partons ∧
      compSum (fun p => p.py) (jetsOf steps) = compSum (fun p => p.py) partons ∧
      compSum (fun p => p.pz) (jetsOf steps) = compSum (fun p => p.pz) partons := by
  obtain ⟨steps, hrun, hlen, hjets, hsum⟩ :=
    naive_run_spec fns finiteComps (finiteComps_add_assign fns) partons.length
      (ClusterNaive.new partons d) rfl (calc_distances_inv partons d) hfin
  refine ⟨steps, hrun, hlen, ?_, ?_, ?_, ?_⟩
  · rw [compSum_eq_num _ (jetsOf steps) (fun p hp => (hjets p hp).1),
      compSum_eq_num _ partons (fun p hp => (hfin p hp).1)]
    exact congrArg NF.num (hsum (fun p => qval p.e)
      (fun a b ha hb => by dsimp only; rw [add_assign_e]; exact qval_add ha.1 hb.1))
  · rw [compSum_eq_num _ (jetsOf steps) (fun p hp => (hjets p hp).2.1),
      compSum_eq_num _ partons (fun p hp => (hfin p hp).2.1)]
    exact congrArg NF.num (hsum (fun p => qval p.px)
      (fun a b ha hb => by dsimp only; rw [add_assign_px]; exact qval_add ha.2.1 hb.2.1))
  · rw [compSum_eq_num _ (jetsOf steps) (fun p hp => (hjets p hp).2.2.1),
      compSum_eq_num _ partons (fun p hp => (hfin p hp).2.2.1)]
    exact congrArg NF.num (hsum (fun p => qval p.py)
      (fun a b ha hb => by dsimp only; rw [add_assign_py]; exact qval_add ha.2.2.1 hb.2.2.1))
  · rw [compSum_eq_num _ (jetsOf steps) (fun p hp => (hjets p hp).2.2.2),
      compSum_eq_num _ partons (fun p hp => (hfin p hp).2.2.2)]
    exact congrArg NF.num (hsum (fun p => qval p.pz)
      (fun a b ha hb => by dsimp only; rw [add_assign_pz]; exact qval_add ha.2.2.2 hb.2.2.2))

/-- Witness for C3 at a concrete two-parton input. -/
theorem C3_four_momentum_conservation_witness :
    (∀ p ∈ [beamJet1, beamJet2], finiteComps p) ∧
    ∃ steps,
      runNaive stubFns 2 (ClusterNaive.new [beamJet1, beamJet2] (anti_kt r04)) =
        some steps ∧
      steps.length = 2 ∧
      compSum (fun p => p.e) (jetsOf steps) =
        compSum (fun p => p.e) [beamJet1, beamJet2] ∧
      compSum (fun p => p.px) (jetsOf steps) =
        compSum (fun p => p.px) [beamJet1, beamJet2] ∧
      compSum (fun p => p.py) (jetsOf steps) =
        compSum (fun p => p.py) [beamJet1, beamJet2] ∧
      compSum (fun p => p.pz) (jetsOf steps) =
        compSum (fun p => p.pz) [beamJet1, beamJet2] :=
  ⟨by with_unfolding_all decide,
    C3_four_momentum_conservation stubFns [beamJet1, beamJet2] (anti_kt r04)
      (by with_unfolding_all decide)⟩

/-- Claim C4: constructing a pseudojet from four components any of which is
NaN fails with `InvalidMomentum` (the pseudojet is never produced).  The
rejecting constructor `n64` lives in the external `noisy_float` crate and is
modelled from the spec. -/
theorem C4_nan_component_rejected (fns : CacheFns) (e px py pz : F)
    (h : e = F.nan ∨ px = F.nan ∨ py = F.nan ∨ pz = F.nan) :
    pseudojet_f fns e px py pz = Except.error JetError.InvalidMomentum := by
  rcases h with h | h | h | h
  · subst h; rfl
  · subst h; cases e <;> rfl
  · subst h; cases e <;> cases px <;> rfl
  · subst h; cases e <;> cases px <;> cases py <;> rfl

/-- Witness for C4 at a concrete NaN input. -/
theorem C4_nan_component_rejected_witness :
    pseudojet_f stubFns F.nan (F.val (NF.num 0)) (F.val (NF.num 0)) (F.val (NF.num 0)) =
      Except.error JetError.InvalidMomentum :=
  C4_nan_component_rejected stubFns _ _ _ _ (Or.inl rfl)

/-- Claim C5: `ClusterHistory::new` selects the naive engine when `N ≤ 24`,
the untiled geometric engine when `25 ≤ N ≤ 49`, and the tiled geometric
engine when `N ≥ 50` (all thresholds inclusive). -/
theorem C5_dispatch_thresholds (partons : List PseudoJet) (d : Distance) :
    (partons.length ≤ 24 →
      ClusterHistory.new partons d =
        some (ClusterHistory.naiveH (ClusterNaive.new partons d))) ∧
    (25 ≤ partons.length ∧ partons.length ≤ 49 →
      ClusterHistory.new partons d =
        some (ClusterHistory.geomH (ClusterGeom.new partons d))) ∧
    (50 ≤ partons.length →
      ClusterHistory.new partons d =
        (ClusterGeomTile.new partons d).map ClusterHistory.tileH) := by
  unfold ClusterHistory.new START_TILE_THRESHOLD START_GEOM_THRESHOLD END_GEOM_THRESHOLD
  refine ⟨fun h => ?_, fun h => ?_, fun h => ?_⟩
  · rw [if_neg (by omega), if_neg (by omega)]
  · rw [if_neg (by omega), if_pos (by omega)]
  · rw [if_pos (by omega)]

/-- Witness for C5 at the three dispatch regimes (N = 10, 30, 60). -/
theorem C5_dispatch_thresholds_witness :
    ClusterHistory.new (List.replicate 10 PseudoJet.defaultPJ) (anti_kt r04) =
      some (ClusterHistory.naiveH
        (ClusterNaive.new (List.replicate 10 PseudoJet.defaultPJ) (anti_kt r04))) ∧
    ClusterHistory.new (List.replicate 30 PseudoJet.defaultPJ) (anti_kt r04) =
      some (ClusterHistory.geomH
        (ClusterGeom.new (List.replicate 30 PseudoJet.defaultPJ) (anti_kt r04))) ∧
    ClusterHistory.new (List.replicate 60 PseudoJet.defaultPJ) (anti_kt r04) =
      (ClusterGeomTile.new (List.replicate 60 PseudoJet.defaultPJ) (anti_kt r04)).map
        ClusterHistory.tileH :=
  ⟨(C5_dispatch_thresholds _ _).1 (by simp),
   (C5_dispatch_thresholds _ _).2.1 (by simp),
   (C5_dispatch_thresholds _ _).2.2 (by simp)⟩

/-- Claim C6: after construction and after every compound add or subtract
mutation, `0 ≤ φ < 2π`; for φ-normalised pseudojets `delta_phi_abs ∈ [0, π]`
and `delta_phi ∈ (-π, π]` (with `atan2` having its IEEE range `[-π, π]`). -/
theorem C6_phi_normalisation (fns : CacheFns)
    (hatan : ∀ y x, NF.num (-piF) ≤ fns.atan2 y x ∧ fns.atan2 y x ≤ NF.num piF) :
    (∀ e px py pz, phiNormalized (PseudoJet.fromComp fns e px py pz)) ∧
    (∀ p q, phiNormalized (PseudoJet.add_assign fns p q)) ∧
    (∀ p q, phiNormalized (PseudoJet.sub_assign fns p q)) ∧
    (∀ p q, phiNormalized p → phiNormalized q →
      (NF.num 0 ≤ p.delta_phi_abs q ∧ p.delta_phi_abs q ≤ NF.num piF) ∧
      (NF.num (-piF) < p.delta_phi q ∧ p.delta_phi q ≤ NF.num piF)) :=
  ⟨fun _ _ _ _ => init_phi_range fns hatan _,
   fun _ _ => init_phi_range fns hatan _,
   fun _ _ => init_phi_range fns hatan _,
   fun p q hp hq => ⟨delta_phi_abs_range p q hp hq, delta_phi_range p q hp hq⟩⟩

/-- Witness for C6 at a concrete input with the stub cache functions. -/
theorem C6_phi_normalisation_witness :
    phiNormalized (PseudoJet.fromComp stubFns (NF.num 1) (NF.num 1) (NF.num 0) (NF.num 0)) :=
  (C6_phi_normalisation stubFns
    (fun _ _ => ⟨NF.num_le_num.mpr (by norm_num [piF]),
                 NF.num_le_num.mpr (by norm_num [piF])⟩)).1 _ _ _ _

/-- Claim C7: after construction and after every add/subtract mutation the
cached scalars equal the stated functions of the four components:
`inv_pt2 = 1/(px²+py²)` (`+inf` when `px²+py² = 0`), `rap = ln((e+pz)/(e-pz))/2`
(`0` when `e = pz = 0`), and `φ = 0` when `px²+py² = 0`. -/
theorem C7_cached_scalars_consistent (fns : CacheFns) :
    (∀ a b c d : ℚ,
      cachesConsistent fns
        (PseudoJet.fromComp fns (NF.num a) (NF.num b) (NF.num c) (NF.num d)) a b c d) ∧
    (∀ (p q : PseudoJet) (a b c d : ℚ),
      p.e.add q.e = NF.num a → p.px.add q.px = NF.num b →
      p.py.add q.py = NF.num c → p.pz.add q.pz = NF.num d →
      cachesConsistent fns (PseudoJet.add_assign fns p q) a b c d) ∧
    (∀ (p q : PseudoJet) (a b c d : ℚ),
      p.e.sub q.e = NF.num a → p.px.sub q.px = NF.num b →
      p.py.sub q.py = NF.num c → p.pz.sub q.pz = NF.num d →
      cachesConsistent fns (PseudoJet.sub_assign fns p q) a b c d) :=
  ⟨fun a b c d => init_caches_spec fns _ a b c d rfl rfl rfl rfl,
   fun _ _ a b c d he hx hy hz => init_caches_spec fns _ a b c d he hx hy hz,
   fun _ _ a b c d he hx hy hz => init_caches_spec fns _ a b c d he hx hy hz⟩

/-- Witness for C7: a concrete mutation whose summed components are
`(3, 0, 0, 0)`. -/
theorem C7_cached_scalars_consistent_witness :
    cachesConsistent stubFns
      (PseudoJet.add_assign stubFns
        (PseudoJet.fromComp stubFns (NF.num 1) (NF.num 0) (NF.num 0) (NF.num 0))
        (PseudoJet.fromComp stubFns (NF.num 2) (NF.num 0) (NF.num 0) (NF.num 0)))
      3 0 0 0 :=
  (C7_cached_scalars_consistent stubFns).2.1 _ _ 3 0 0 0
    (by with_unfolding_all decide) (by with_unfolding_all decide)
    (by with_unfolding_all decide) (by with_unfolding_all decide)

/-- Claim C10: `pt2()` returns `1.0 / inv_pt2()` (it divides by the cached
scalar rather than recomputing `px²+py²`); in particular for `px = py = 0`
the cache is `+inf` and `pt2()` is exactly `0`. -/
theorem C10_pt2_reciprocal_of_cached_inv_pt2 :
    (∀ p : PseudoJet, p.pt2 = (NF.num 1).div p.inv_pt2) ∧
    (∀ (fns : CacheFns) (e pz : NF),
      (PseudoJet.fromComp fns e (NF.num 0) (NF.num 0) pz).inv_pt2 = NF.pinf ∧
      (PseudoJet.fromComp fns e (NF.num 0) (NF.num 0) pz).pt2 = NF.num 0) := by
  refine ⟨fun p => rfl, fun fns e pz => ⟨?_, ?_⟩⟩
  · simp [PseudoJet.fromComp, PseudoJet.init_pt2_phi_rap, NF.div]
  · simp [PseudoJet.fromComp, PseudoJet.init_pt2_phi_rap, PseudoJet.pt2, NF.div]

/-- Claim C9 counterexample: the claim says `swap` preserves the tile-grid
partition.  It does not when the two swapped pseudojets share a tile: on the
reachable state built from two identical central partons (both in tile
`(5, 0)`), the partition holds after `new`, but after `swap 0 1` index `1`
occurs in no tile (the `insert` after the first `swap_remove` is a no-op on
the shared `IndexSet`, so the second `swap_remove` loses the index). -/
theorem C9_same_tile_swap_breaks_partition :
    (ClusterGeomTile.new [jetA9, jetA9] zeroDist).elim False tilePartition ∧
    ((ClusterGeomTile.new [jetA9, jetA9] zeroDist).bind
      (fun st => st.swap 0 1)).elim False (fun st => ¬ tilePartition st) := by
  with_unfolding_all decide

/-- Claim C9 (amended): in the tiled engine the tile grid is a partition of
the active pseudojets before and after every clustering step — each active
index occurs in exactly one tile, the one given by `tile_coord` (row
`clamp(⌊η+5⌋, 0, 9)`, column `⌊φ·6/(2π)⌋`).  `new` establishes the
partition; `remove` preserves it (deleting exactly the index of the removed
slot) and shrinks the vector by one; `push` preserves it (inserting the new
index exactly once, into the tile of the pushed pseudojet) and grows the
vector by one; every emitted `next` step preserves it; and `swap` preserves
it whenever the two swapped pseudojets lie in distinct tiles.  The one
exception is a same-tile `swap`, which drops the swapped-to index from the
grid (see the counterexample); the clustering loop never performs such a
swap directly, and the dangling index a same-tile `swap` inside `remove`
creates is exactly the one `remove` then deletes, so the partition still
holds after every complete step. -/
theorem C9_tile_partition_amended :
    (∀ (partons : List PseudoJet) (d : Distance) (st : ClusterGeomTile),
      ClusterGeomTile.new partons d = some st → tilePartition st) ∧
    (∀ (st st' : ClusterGeomTile) (i j ri ci rj cj : ℕ),
      tilePartition st →
      tile_coord (gnthD st.pseudojets i).pseudojet = some (ri, ci) →
      tile_coord (gnthD st.pseudojets j).pseudojet = some (rj, cj) →
      (ri, ci) ≠ (rj, cj) →
      ClusterGeomTile.swap st i j = some st' → tilePartition st') ∧
    (∀ (st st' : ClusterGeomTile) (idx : ℕ) (p : PJD),
      tilePartition st → ClusterGeomTile.remove st idx = some (p, st') →
      tilePartition st' ∧ st'.pseudojets.length = st.pseudojets.length - 1) ∧
    (∀ (st st' : ClusterGeomTile) (pj : PseudoJet),
      tilePartition st → ClusterGeomTile.push st pj = some st' →
      tilePartition st' ∧ st'.pseudojets.length = st.pseudojets.length + 1) ∧
    (∀ (fns : CacheFns) (st st' : ClusterGeomTile) (s : ClusterStep),
      tilePartition st → ClusterGeomTile.next fns st = StepRes.step s st' →
      tilePartition st') :=
  ⟨fun _ _ _ h => new_tile_partition h,
   fun _ _ _ _ _ _ _ _ hp h1 h2 h3 h4 => swap_distinct_tile_partition hp h1 h2 h3 h4,
   fun _ _ _ _ hp h => tile_remove_spec hp h,
   fun _ _ _ hp h => tile_push_spec hp h,
   fun _ _ _ _ hp h => tile_next_spec hp h⟩

/-- Witness for the amended C9 at a concrete two-parton input whose jets lie
in distinct tiles (`(5, 0)` and `(0, 0)`). -/
theorem C9_tile_partition_amended_witness :
    ∃ st st', ClusterGeomTile.new [jetA9, beamJet2] zeroDist = some st ∧
      ClusterGeomTile.swap st 0 1 = some st' ∧
      tilePartition st ∧ tilePartition st' := by
  cases hnew : ClusterGeomTile.new [jetA9, beamJet2] zeroDist with
  | none =>
    exfalso
    have hs : (ClusterGeomTile.new [jetA9, beamJet2] zeroDist).isSome = true := by
      with_unfolding_all decide
    rw [hnew] at hs
    simp at hs
  | some st =>
    cases hswap : ClusterGeomTile.swap st 0 1 with
    | none =>
      exfalso
      have hs : ((ClusterGeomTile.new [jetA9, beamJet2] zeroDist).bind
          (fun s => ClusterGeomTile.swap s 0 1)).isSome = true := by
        with_unfolding_all decide
      rw [hnew] at hs
      simp only [Option.some_bind] at hs
      rw [hswap] at hs
      simp at hs
    | some st' =>
      have hco : (ClusterGeomTile.new [jetA9, beamJet2] zeroDist).elim False
          (fun s => tile_coord (gnthD s.pseudojets 0).pseudojet = some (5, 0) ∧
            tile_coord (gnthD s.pseudojets 1).pseudojet = some (0, 0)) := by
        with_unfolding_all decide
      rw [hnew] at hco
      simp only [Option.elim] at hco
      have hpart : tilePartition st :=
        C9_tile_partition_amended.1 [jetA9, beamJet2] zeroDist st hnew
      refine ⟨st, st', rfl, hswap, hpart, ?_⟩
      exact C9_tile_partition_amended.2.1 st st' 0 1 5 0 0 0 hpart hco.1 hco.2
        (by decide) hswap

/-- Claim C8: in the geometric engine, before and after every clustering
step, for all active indices `i` and `j`, index `j` appears in
`nearest_neighbour_for(i)` exactly when `nearest_neighbour_idx(j) = i`, with
matching multiplicity (the `geomInv` invariant, which also carries the
range-validity side conditions this correspondence needs); `new` establishes
it, and `swap`, `remove`, `push` and every emitted `next` step preserve it.
The two length hypotheses mirror the `usize` bound on Rust vector lengths. -/
theorem C8_reverse_adjacency :
    (∀ (partons : List PseudoJet) (d : Distance),
      partons.length < usizeMAX →
      geomInv (ClusterGeom.new partons d).pseudojets) ∧
    (∀ (st st' : ClusterGeom) (i j : ℕ),
      geomInv st.pseudojets → st.swap i j = some st' →
      geomInv st'.pseudojets) ∧
    (∀ (st st' : ClusterGeom) (idx : ℕ) (p : PJD),
      geomInv st.pseudojets → st.remove idx = some (p, st') →
      geomInv st'.pseudojets) ∧
    (∀ (st st' : ClusterGeom) (pj : PseudoJet),
      geomInv st.pseudojets → st.pseudojets.length + 1 < usizeMAX →
      st.push pj = some st' → geomInv st'.pseudojets) ∧
    (∀ (fns : CacheFns) (st st' : ClusterGeom) (s : ClusterStep),
      geomInv st.pseudojets → ClusterGeom.next fns st = StepRes.step s st' →
      geomInv st'.pseudojets) :=
  ⟨fun partons d h => geom_new_spec partons d h,
   fun _ _ _ _ hinv h => (swap_spec hinv h).1,
   fun _ _ _ _ hinv h => (remove_spec hinv h).1,
   fun _ _ _ hinv hl h => (push_spec hinv hl h).1,
   fun _ _ _ _ hinv h => geom_next_spec hinv h⟩

/-- Witness for C8: the construction clause applied at a concrete two-parton
input, with the length hypothesis discharged by computation, and the
invariant of the constructed state evaluated. -/
theorem C8_reverse_adjacency_witness :
    [jetA9, beamJet2].length < usizeMAX ∧
    geomInv (ClusterGeom.new [jetA9, beamJet2] zeroDist).pseudojets :=
  ⟨by decide, C8_reverse_adjacency.1 [jetA9, beamJet2] zeroDist (by decide)⟩

end Jetty
